import Mathlib

/-!
Verification of the immerutable container library against its specification.

The development shallowly embeds the TypeScript sources:
  - src/hash.ts            (hash, hashNumber, hashString)
  - src/map.ts             (MapAdapter: hash-trie map; final revision in the file)
  - src/sortedcollection.ts (SortedCollectionAdapter: B-tree)
  - src/sortedmap.ts       (SortedMapAdapter)
  - src/lrucache.ts        (LruCacheAdapter)
  - src/util.ts            (iterableToIterableIterator, mapIterable; final revision)

Modelling conventions:
  - JS numbers that the claims exercise are modelled exactly: NaN / ±Infinity are
    explicit constructors and finite values are rationals with exact arithmetic
    (IEEE-754 rounding is not modelled; every code path exercised by a theorem
    below performs only exact operations).
  - JS bitwise operations work on 32-bit two's-complement integers; they are
    modelled on `Int` by explicit wrapping (`toInt32`), `Nat.xor` on the
    unsigned representative, and floor division for the arithmetic shift.
  - Imperative loops become structural recursion; where the source recursion is
    not structural, an explicit fuel argument bounds it and the fuel supplied by
    the wrappers is proved (or chosen generously) to exceed the real iteration
    count, so exhaustion is unreachable in the stated theorems.
  - Mutation of a node graph becomes explicit rebuilding of the affected
    subtrees; each function's doc comment names the source function it embeds.
-/

namespace Immerutable

/-! ## JS 32-bit primitives -/

/-- JS `ToInt32`: wrap an integer into the signed 32-bit range. -/
def toInt32 (n : Int) : Int :=
  let m := n % 4294967296
  if m < 2147483648 then m else m - 4294967296

/-- Unsigned 32-bit representative of an integer (used to implement bitwise ops). -/
def uint32 (n : Int) : Nat :=
  (n % 4294967296).toNat

/-- Reinterpret an unsigned 32-bit value as a signed 32-bit integer. -/
def ofUInt32 (n : Nat) : Int :=
  if n < 2147483648 then (n : Int) else (n : Int) - 4294967296

/-- JS `a ^ b` on 32-bit integers. -/
def xor32 (a b : Int) : Int :=
  ofUInt32 (Nat.xor (uint32 a) (uint32 b))

/-- JS truncation of a finite number toward zero (used by `ToInt32`). -/
def jsTrunc (q : Rat) : Int :=
  if 0 ≤ q then ⌊q⌋ else ⌈q⌉

/-- A JS number as far as the hash code is concerned: NaN, the two infinities,
or an exact finite value. -/
inductive JSNum where
  | nan
  | posInf
  | negInf
  | fin (q : Rat)
  deriving DecidableEq

/-- JS `ToInt32` on a full JS number (NaN and the infinities convert to 0). -/
def jsToInt32 : JSNum → Int
  | .nan => 0
  | .posInf => 0
  | .negInf => 0
  | .fin q => toInt32 (jsTrunc q)

/-- Multiplication of a JS number by a positive finite constant (exact; IEEE
rounding is not modelled, and no theorem below exercises an inexact product). -/
def jsMulC (x : JSNum) (c : Rat) : JSNum :=
  match x with
  | .nan => .nan
  | .posInf => .posInf
  | .negInf => .negInf
  | .fin q => .fin (q * c)

/-- Division of a JS number by a positive finite constant (exact, see `jsMulC`). -/
def jsDivC (x : JSNum) (c : Rat) : JSNum :=
  match x with
  | .nan => .nan
  | .posInf => .posInf
  | .negInf => .negInf
  | .fin q => .fin (q / c)

/-- JS `x > c` for a positive finite constant `c` (NaN compares false). -/
def jsGtC (x : JSNum) (c : Rat) : Bool :=
  match x with
  | .nan => false
  | .posInf => true
  | .negInf => false
  | .fin q => c < q

/-- JS `h !== num` where `h` is a 32-bit integer: NaN and the infinities are
strictly different from every integer. -/
def jsStrictNeInt (h : Int) (x : JSNum) : Bool :=
  match x with
  | .fin q => (h : Rat) ≠ q
  | _ => true

/-- The `while (num > 0xffffffff) { num /= 0xffffffff; h ^= num; }` loop of
`hashNumber` (src/hash.ts).  `fuel` bounds the iteration count; each pass
divides `num` by `0xffffffff ≥ 2`, so `num.num.natAbs + 1` iterations more than
suffice and the fuel chosen by `hashNumber` is never exhausted. -/
def hashNumberLoop : Nat → JSNum → Int → Int
  | 0, _, h => h
  | fuel + 1, num, h =>
      if jsGtC num 4294967295 then
        let num2 := jsDivC num 4294967295
        hashNumberLoop fuel num2 (xor32 h (jsToInt32 num2))
      else h

/-- Fuel for `hashNumberLoop`, larger than the possible iteration count. -/
def hashLoopFuel : JSNum → Nat
  | .fin q => q.num.natAbs + 1
  | _ => 1

/-- `hashNumber` (src/hash.ts lines 41-56).  The guard is the source's
`num !== num || num === Infinity` (true exactly for NaN and +Infinity). -/
def hashNumber (num : JSNum) : Int :=
  if num = .nan ∨ num = .posInf then 0
  else
    let h0 := jsToInt32 num
    let h1 := if jsStrictNeInt h0 num then xor32 h0 (jsToInt32 (jsMulC num 4294967295)) else h0
    hashNumberLoop (hashLoopFuel num) num h1

/-- `hashString` (src/hash.ts lines 59-71): JVM accumulator over the UTF-16
code units, kept in the signed 32-bit range at each step. -/
def hashString (codeUnits : List Nat) : Int :=
  codeUnits.foldl (fun h c => toInt32 (31 * h + (c : Int))) 0

/-- A map key: a JS number or a string (given by its code units).  The `null`
key accepted by `hash` is outside every claim and is not modelled. -/
inductive JSKey where
  | num (n : JSNum)
  | str (s : List Nat)
  deriving DecidableEq

/-- JS `===` on keys: `NaN` is different from everything, itself included. -/
def jsKeyEq (a b : JSKey) : Bool :=
  match a, b with
  | .num .nan, _ => false
  | _, .num .nan => false
  | .num x, .num y => x = y
  | .str x, .str y => x = y
  | _, _ => false

/-- `hash` (src/hash.ts lines 27-39) restricted to its supported key types. -/
def hash : JSKey → Int
  | .num n => hashNumber n
  | .str s => hashString s

end Immerutable

namespace Immerutable

/-! ## C8: numeric hashing facts -/

lemma toInt32_of_range (n : Int) (h1 : -2147483648 ≤ n) (h2 : n < 2147483648) :
    toInt32 n = n := by
  unfold toInt32
  dsimp only
  split <;> omega

lemma jsTrunc_intCast (n : Int) : jsTrunc (n : Rat) = n := by
  unfold jsTrunc
  rcases le_or_lt 0 (n : Rat) with h | h
  · simp [h]
  · rw [if_neg (by exact not_le.mpr h)]
    simp

/-- C8: the hash function is deterministic (a pure function of the key in this
embedding), `hash NaN = 0`, `hash (+Infinity) = 0`, `hash (−Infinity) = 0`, and
every number representable as a signed 32-bit integer hashes to itself. -/
theorem hashNumber_spec :
    hash (.num .nan) = 0 ∧ hash (.num .posInf) = 0 ∧ hash (.num .negInf) = 0 ∧
      ∀ n : Int, -2147483648 ≤ n → n < 2147483648 →
        hash (.num (.fin (n : Rat))) = n := by
  refine ⟨by decide, by decide, by decide, ?_⟩
  intro n h1 h2
  show hashNumber (.fin (n : Rat)) = n
  unfold hashNumber
  rw [if_neg (by simp)]
  have htr : jsToInt32 (.fin (n : Rat)) = n := by
    simp [jsToInt32, jsTrunc_intCast, toInt32_of_range n h1 h2]
  have hne : jsStrictNeInt n (.fin (n : Rat)) = false := by
    simp [jsStrictNeInt]
  have hgt : jsGtC (.fin (n : Rat)) 4294967295 = false := by
    simp only [jsGtC, decide_eq_false_iff_not, not_lt]
    have : (n : Rat) < 2147483648 := by exact_mod_cast h2
    linarith
  simp only [htr, hne, Bool.false_eq_true, if_false]
  show hashNumberLoop (hashLoopFuel (.fin (n : Rat))) (.fin (n : Rat)) n = n
  unfold hashLoopFuel
  unfold hashNumberLoop
  simp [hgt]

/-- Witness for `hashNumber_spec`: two concrete 32-bit integers hash to
themselves. -/
theorem hashNumber_spec_witness :
    hash (.num (.fin ((-5 : Int) : Rat))) = -5 ∧ hash (.num (.fin ((7 : Int) : Rat))) = 7 :=
  ⟨hashNumber_spec.2.2.2 (-5) (by decide) (by decide),
   hashNumber_spec.2.2.2 7 (by decide) (by decide)⟩

end Immerutable

namespace Immerutable

/-! ## Hash-trie map (src/map.ts, final revision, lines 833-1232) -/

/-- A trie slot payload: a sub-trie node, a single-value node, or a multi-value
node.  `trie` carries the sparse 16-slot array (`ITrieNode`), `single` is
`ISingleValueNode`, `multi` is `IMultiValueNode` (its JS object modelled as an
insertion-ordered association list; the JS coercion of number keys to property
strings inside a multi-value node is not modelled — it is observable only when
a number key and a string key share a full 32-bit hash). -/
inductive TrieNode (V : Type) where
  | trie (slots : List (Option (TrieNode V)))
  | single (key : JSKey) (value : V)
  | multi (entries : List (JSKey × V))

/-- `IMap`: the root trie node (as its slot array) plus the entry count. -/
structure IMap (V : Type) where
  root : List (Option (TrieNode V))
  size : Int

/-- Read a trie slot; absent indices read as JS `undefined`. -/
def getSlot (slots : List (Option (TrieNode V))) (i : Nat) : Option (TrieNode V) :=
  slots.getD i none

/-- `createTrieNode`: an empty sparse array (all 16 slots absent). -/
def createTrieNode (V : Type) : List (Option (TrieNode V)) :=
  List.replicate 16 none

/-- `computePartialHashCode` (src/map.ts): `(hashCode >> ((depth - 1) * 4)) & 15`,
with the JS arithmetic shift modelled by floor division on the 32-bit value. -/
def computePartialHashCode (hashCode : Int) (depth : Nat) : Nat :=
  (((toInt32 hashCode).fdiv (2 ^ ((depth - 1) * 4))) % 16).toNat

/-- Association-list membership for a multi-value node (`key in node.map`). -/
def entriesHas (es : List (JSKey × V)) (k : JSKey) : Bool :=
  es.any (fun e => e.1 = k)

/-- Association-list lookup for a multi-value node (`node.map[key]`). -/
def entriesLookup (es : List (JSKey × V)) (k : JSKey) : Option V :=
  match es.find? (fun e => e.1 = k) with
  | some e => some e.2
  | none => none

/-- `node.map[key] = value`: replace in place or append (JS property order). -/
def entriesSet (es : List (JSKey × V)) (k : JSKey) (v : V) : List (JSKey × V) :=
  if entriesHas es k then es.map (fun e => if e.1 = k then (k, v) else e)
  else es ++ [(k, v)]

/-- `delete node.map[key]`. -/
def entriesRemove (es : List (JSKey × V)) (k : JSKey) : List (JSKey × V) :=
  es.filter (fun e => ¬ e.1 = k)

/-- The walk of `lookupValueNode` (src/map.ts lines 1190-1214).  `level` is the
depth of the node whose slot is examined (the root has level 1); the returned
first component is the source's post-increment `depth` value, and the second is
the `valueNode` (a single- or multi-value node, or absent).  `fuel` only bounds
the recursion for Lean; every call keeps `fuel = 9 - level ≥ 1`, so the `0`
case is unreachable. -/
def lookupValueNodeGo (slots : List (Option (TrieNode V))) (hc : Int) :
    Nat → Nat → Nat × Option (TrieNode V)
  | _, 0 => (0, none)
  | level, fuel + 1 =>
    let index := computePartialHashCode hc level
    match getSlot slots index with
    | none => (level + 1, none)
    | some (.trie s2) =>
        if level + 1 ≤ 8 then lookupValueNodeGo s2 hc (level + 1) fuel
        else (level + 1, none)
    | some p => (level + 1, some p)

/-- `lookupValueNode` restricted to the data `get`/`has`/`remove` consume. -/
def lookupValueNode (m : IMap V) (k : JSKey) : Nat × Option (TrieNode V) :=
  lookupValueNodeGo m.root (hash k) 1 8

/-- `MapAdapter.get` (src/map.ts lines 914-926).  At depth below the maximum a
multi-value payload reads its absent `key` field and compares unequal; at the
maximum depth a single-value payload would crash the source reading `.map`
(unreachable from `create`), modelled as absent. -/
def mapGet (m : IMap V) (k : JSKey) : Option V :=
  let r := lookupValueNode m k
  match r.2 with
  | none => none
  | some (.single k2 v) => if r.1 < 8 then (if jsKeyEq k2 k then some v else none) else none
  | some (.multi es) => if r.1 < 8 then none else entriesLookup es k
  | some (.trie _) => none

/-- `MapAdapter.has` (src/map.ts lines 901-911). -/
def mapHas (m : IMap V) (k : JSKey) : Bool :=
  let r := lookupValueNode m k
  match r.2 with
  | none => false
  | some (.single k2 _) => if r.1 < 8 then jsKeyEq k2 k else false
  | some (.multi es) => if r.1 < 8 then false else entriesHas es k
  | some (.trie _) => false

/-- The recursive work of `MapAdapter.set` (src/map.ts lines 932-963) together
with `pushSingleValueNodeDown` (lines 1216-1227).  Returns the updated slot
array and whether `map.size` was incremented.  The source's restart
(`return this.set(map, key, value)`) re-walks the unchanged prefix and arrives
inside the freshly created sub-trie, so it is embedded as direct recursion into
that sub-trie.  A multi-value payload above the maximum depth would make the
source push down a node with an absent key (unreachable from `create`);
modelled as a no-op. -/
def setGo (k : JSKey) (hc : Int) (v : V) :
    List (Option (TrieNode V)) → Nat → Nat → List (Option (TrieNode V)) × Bool
  | slots, _, 0 => (slots, false)
  | slots, level, fuel + 1 =>
    let index := computePartialHashCode hc level
    match getSlot slots index with
    | none =>
        if level + 1 < 8 then (slots.set index (some (.single k v)), true)
        else if level + 1 = 8 then (slots.set index (some (.multi [(k, v)])), true)
        else (slots, true)
    | some (.trie s2) =>
        if level + 1 ≤ 8 then
          let r := setGo k hc v s2 (level + 1) fuel
          (slots.set index (some (.trie r.1)), r.2)
        else (slots, true)
    | some (.single k2 v2) =>
        if level + 1 < 8 then
          if jsKeyEq k2 k then (slots.set index (some (.single k2 v)), false)
          else
            let ph := computePartialHashCode (hash k2) (level + 1)
            let pushed : List (Option (TrieNode V)) :=
              if level + 1 = 7 then (createTrieNode V).set ph (some (.multi [(k2, v2)]))
              else (createTrieNode V).set ph (some (.single k2 v2))
            let r := setGo k hc v pushed (level + 1) fuel
            (slots.set index (some (.trie r.1)), r.2)
        else (slots, false)
    | some (.multi es) =>
        if level + 1 < 8 then (slots, false)
        else (slots.set index (some (.multi (entriesSet es k v))), ¬ entriesHas es k)

/-- The recursive work of `MapAdapter.remove` (src/map.ts lines 968-980).
Returns the updated slot array and whether `map.size` was decremented.  Note
that, following the source, a single- or multi-value payload found below the
maximum depth is deleted without comparing keys. -/
def removeGo (k : JSKey) (hc : Int) :
    List (Option (TrieNode V)) → Nat → Nat → List (Option (TrieNode V)) × Bool
  | slots, _, 0 => (slots, false)
  | slots, level, fuel + 1 =>
    let index := computePartialHashCode hc level
    match getSlot slots index with
    | none => (slots, false)
    | some (.trie s2) =>
        if level + 1 ≤ 8 then
          let r := removeGo k hc s2 (level + 1) fuel
          (slots.set index (some (.trie r.1)), r.2)
        else (slots, false)
    | some p =>
        if level + 1 < 8 then (slots.set index none, true)
        else match p with
          | .multi es =>
              if entriesHas es k then (slots.set index (some (.multi (entriesRemove es k))), true)
              else (slots, false)
          | _ => (slots, false)

/-- `MapAdapter.create`. -/
def mapCreate (V : Type) : IMap V :=
  { root := createTrieNode V, size := 0 }

/-- `MapAdapter.set`. -/
def mapSet (m : IMap V) (k : JSKey) (v : V) : IMap V :=
  let r := setGo k (hash k) v m.root 1 8
  { root := r.1, size := m.size + (if r.2 then 1 else 0) }

/-- `MapAdapter.remove`. -/
def mapRemove (m : IMap V) (k : JSKey) : IMap V :=
  let r := removeGo k (hash k) m.root 1 8
  { root := r.1, size := m.size - (if r.2 then 1 else 0) }

/-- `MapAdapter.getSize`. -/
def mapGetSize (m : IMap V) : Int := m.size

end Immerutable

namespace Immerutable

/-! ## C1: removal of an absent key -/

/-- A map holding only key `1` (value 100).  Key `17` is absent but shares the
low hash nibble with key `1`, so the lookup walk for `17` stops at the
single-value node holding key `1`. -/
def c1MapBefore : IMap Int := mapSet (mapCreate Int) (.num (.fin 1)) 100

/-- The map after removing the absent key `17`. -/
def c1MapAfter : IMap Int := mapRemove c1MapBefore (.num (.fin 17))

/-- C1 evaluated at the failing input: key `17` is absent from the map, yet
`remove(map, 17)` deletes the stored pair for key `1` and decrements `size` —
the removal of an absent key is not a no-op. -/
theorem mapRemove_absent_key_bug :
    mapGet c1MapBefore (.num (.fin 17)) = none ∧
      mapGet c1MapBefore (.num (.fin 1)) = some 100 ∧
      mapGetSize c1MapBefore = 1 ∧
      mapGet c1MapAfter (.num (.fin 1)) = none ∧
      mapGetSize c1MapAfter = 0 := by
  refine ⟨?_, ?_, ?_, ?_, ?_⟩ <;> rfl

end Immerutable

namespace Immerutable

/-! ## B-tree sorted collection (src/sortedcollection.ts) -/

/-- `IBTreeNode`: a leaf (items only, `children` absent) or an internal node
(items plus children).  The source's `isRoot` marker is positional here: the
functions below receive an `isRoot` flag exactly where the source consults the
marker.  The `IBTreeValueNode` wrapper adds nothing to a value in a functional
embedding and is elided. -/
inductive IBTreeNode (α : Type) where
  | leaf (items : List α)
  | node (items : List α) (children : List (IBTreeNode α))

instance : Inhabited (IBTreeNode α) := ⟨.leaf []⟩

/-- `ISortedCollection`: root node plus entry count. -/
structure ISortedCollection (α : Type) where
  root : IBTreeNode α
  size : Int

/-- The constructor arguments of `SortedCollectionAdapter`:
`orderComparer`, `equalityComparer`, `maxItemsPerLevel` (even, at least 4). -/
structure SCA (α : Type) where
  orderComparer : α → α → Int
  equalityComparer : α → α → Bool
  maxItemsPerLevel : Nat

/-- `minItemsPerLevel = Math.floor(maxItemsPerLevel / 2)`. -/
def SCA.minItemsPerLevel (A : SCA α) : Nat := A.maxItemsPerLevel / 2

namespace IBTreeNode

/-- The `items` field. -/
def itemsOf : IBTreeNode α → List α
  | .leaf items => items
  | .node items _ => items

/-- The `children` field (empty for a leaf, whose field is JS `undefined`). -/
def childrenOf : IBTreeNode α → List (IBTreeNode α)
  | .leaf _ => []
  | .node _ children => children

/-- `isLeafNode`: the `children` field is absent. -/
def isLeafNode : IBTreeNode α → Bool
  | .leaf _ => true
  | .node _ _ => false

end IBTreeNode

mutual
/-- Height of a node: leaves have height 0. -/
def heightB : IBTreeNode α → Nat
  | .leaf _ => 0
  | .node _ children => heightListB children + 1

/-- Maximum height over a list of nodes. -/
def heightListB : List (IBTreeNode α) → Nat
  | [] => 0
  | c :: cs => max (heightB c) (heightListB cs)
end

mutual
/-- Total weight (values plus nodes) of a subtree, used to size lookup fuel. -/
def weightB : IBTreeNode α → Nat
  | .leaf items => items.length + 1
  | .node items children => items.length + 1 + weightListB children

/-- Total weight of a list of nodes. -/
def weightListB : List (IBTreeNode α) → Nat
  | [] => 0
  | c :: cs => weightB c + weightListB cs
end

/-- The fullness test of `insertInBTreeNode` (src/sortedcollection.ts line 297):
a leaf with `maxItemsPerLevel` items or an internal node with that many
children. -/
def isFullNode (A : SCA α) (n : IBTreeNode α) : Bool :=
  if n.isLeafNode then n.itemsOf.length ≥ A.maxItemsPerLevel
  else n.childrenOf.length ≥ A.maxItemsPerLevel

/-- `isNodeDeficient` (lines 472-475); `isLeaf` is the container's leafness as
passed by the source. -/
def isNodeDeficient (A : SCA α) (n : IBTreeNode α) (isLeaf : Bool) : Bool :=
  if isLeaf then n.itemsOf.length < A.minItemsPerLevel
  else n.childrenOf.length < A.minItemsPerLevel

/-- `canNodeLoseItem` (lines 477-480). -/
def canNodeLoseItem (A : SCA α) (n : IBTreeNode α) (isLeaf : Bool) : Bool :=
  if isLeaf then n.itemsOf.length > A.minItemsPerLevel
  else n.childrenOf.length > A.minItemsPerLevel

section BinarySearch
variable [Inhabited α]

/-- `_binarySearch` (lines 663-679).  `low`/`high` are JS numbers, modelled as
integers; `fuel` bounds the recursion and every caller passes
`items.length + 1`, which exceeds the size of the search interval, so the fuel
never runs out on the source's executions. -/
def binarySearchGo (cmp : α → α → Int) (items : List α) (value : α) :
    Nat → Int → Int → Int
  | 0, low, _ => low
  | fuel + 1, low, high =>
    if high < low then low
    else
      let mid := low + (high - low) / 2
      let currValue := items.getD mid.toNat default
      let comparison := cmp value currValue
      if comparison < 0 then binarySearchGo cmp items value fuel low (mid - 1)
      else if comparison > 0 then binarySearchGo cmp items value fuel (mid + 1) high
      else mid

/-- `binarySearchForInsertion` (lines 638-655). -/
def binarySearchForInsertion (cmp : α → α → Int) (items : List α) (value : α) : Int :=
  if items.length = 0 then 0
  else if cmp value (items.getD (items.length - 1) default) ≥ 0 then items.length
  else if cmp value (items.getD 0 default) ≤ 0 then 0
  else binarySearchGo cmp items value (items.length + 1) 1 ((items.length : Int) - 2)

/-- `binarySearchForLookup` (lines 657-661). -/
def binarySearchForLookup (cmp : α → α → Int) (items : List α) (value : α) : Int :=
  if items.length = 0 then 0
  else binarySearchGo cmp items value (items.length + 1) 0 ((items.length : Int) - 1)

/-- `splitNode` (lines 339-347): balanced split at `floor(items.length / 2)`. -/
def splitNode (n : IBTreeNode α) : IBTreeNode α × α × IBTreeNode α :=
  match n with
  | .leaf items =>
      let midpoint := items.length / 2
      (.leaf (items.take midpoint), items.getD midpoint default,
       .leaf (items.drop (midpoint + 1)))
  | .node items children =>
      let midpoint := items.length / 2
      (.node (items.take midpoint) (children.take (midpoint + 1)),
       items.getD midpoint default,
       .node (items.drop (midpoint + 1)) (children.drop (midpoint + 1)))

/-- `splitLeafNodeLeftHeavy` (lines 349-358): all but the last item to the
left, a single item to the right. -/
def splitLeafNodeLeftHeavy (n : IBTreeNode α) : IBTreeNode α × α × IBTreeNode α :=
  let items := n.itemsOf
  (.leaf (items.take (items.length - 2)), items.getD (items.length - 2) default,
   .leaf [items.getD (items.length - 1) default])

/-- `splitLeafNodeRightHeavy` (lines 360-369). -/
def splitLeafNodeRightHeavy (n : IBTreeNode α) : IBTreeNode α × α × IBTreeNode α :=
  let items := n.itemsOf
  (.leaf [items.getD 0 default], items.getD 1 default, .leaf (items.drop 2))

/-- `insertInBTreeNode` (lines 295-333) entered with `parent = undefined` (the
state after the source's restart, and the state of the top-level call once
`SortedCollectionAdapter.insert`'s root split has been handled).  Splitting a
full child mutates the current node and restarts on it, which is the
`fuel`-consuming recursion; descending consumes fuel as well.  The wrapper
supplies fuel exceeding the possible number of steps (each restart splits one
full child into two non-full nodes, each descent reduces the height). -/
def insertInBTreeNode (A : SCA α) : Nat → IBTreeNode α → α → IBTreeNode α
  | 0, n, _ => n
  | fuel + 1, n, value =>
    match n with
    | .leaf items =>
        let insertionIndex := binarySearchForInsertion A.orderComparer items value
        if insertionIndex ≥ (items.length : Int) then .leaf (items ++ [value])
        else .leaf (items.insertIdx insertionIndex.toNat value)
    | .node items children =>
        let recursionIndex := (binarySearchForInsertion A.orderComparer items value).toNat
        let child := children.getD recursionIndex default
        if isFullNode A child then
          let isRightMostLeaf := child.isLeafNode && (recursionIndex == children.length - 1)
          let isLeftMostLeaf := child.isLeafNode && (recursionIndex == 0)
          let s := if isRightMostLeaf then splitLeafNodeLeftHeavy child
                   else if isLeftMostLeaf then splitLeafNodeRightHeavy child
                   else splitNode child
          let items2 := items.insertIdx recursionIndex s.2.1
          let children2 := children.take recursionIndex ++ [s.1, s.2.2] ++ children.drop (recursionIndex + 1)
          insertInBTreeNode A fuel (.node items2 children2) value
        else .node items (children.set recursionIndex (insertInBTreeNode A fuel child value))

/-- Fuel for one `insert`: more than (height + 1) levels with at most
`2 * maxItemsPerLevel` restarts each (a full child always exists among at most
`2 * maxItemsPerLevel - 2` children on the invariant states below). -/
def insertFuel (A : SCA α) (t : IBTreeNode α) : Nat :=
  (heightB t + 2) * (2 * A.maxItemsPerLevel + 4)

/-- `SortedCollectionAdapter.insert` (lines 84-88).  The source calls
`insertInBTreeNode(root, root, undefined, value)`: a full root is split
balanced (the heavy variants need a defined `parentIndex`) into a fresh root,
after which the insertion restarts with no parent. -/
def scInsert (A : SCA α) (c : ISortedCollection α) (value : α) : ISortedCollection α :=
  let root2 :=
    if isFullNode A c.root then
      let s := splitNode c.root
      insertInBTreeNode A (insertFuel A c.root) (.node [s.2.1] [s.1, s.2.2]) value
    else insertInBTreeNode A (insertFuel A c.root) c.root value
  { root := root2, size := c.size + 1 }

end BinarySearch

end Immerutable

namespace Immerutable

section Lookup
variable [Inhabited α]

mutual
/-- `_lookupValuePath` (src/sortedcollection.ts lines 581-636).  The result is
the relative path of frame indices: one child index per descended level
followed by the item index in the final node.  The source's initial `currNode`
test duplicates the first iteration of the forward scan (same tests, same
order) and is folded into it.  `fuel` decreases on every step; the wrapper
supplies more than the total number of scan steps and descents. -/
def lookupValuePathGo (A : SCA α) : Nat → IBTreeNode α → α → Option (List Nat)
  | 0, _, _ => none
  | fuel + 1, n, value =>
    let index := (binarySearchForLookup A.orderComparer n.itemsOf value).toNat
    match lookupFwd A fuel n value index with
    | some p => some p
    | none => lookupBwd A fuel n value ((index : Int) - 1)

/-- The forward scan (`for (let next = index;; next++)`) of `_lookupValuePath`. -/
def lookupFwd (A : SCA α) : Nat → IBTreeNode α → α → Nat → Option (List Nat)
  | 0, _, _, _ => none
  | fuel + 1, n, value, next =>
    let nextNode := n.itemsOf.get? next
    if (match nextNode with | some x => A.equalityComparer x value | none => false) then
      some [next]
    else
      match n with
      | .node _ children =>
        match children.get? next with
        | none => none
        | some child =>
          match lookupValuePathGo A fuel child value with
          | some sub => some (next :: sub)
          | none =>
            if (match nextNode with | none => true | some x => A.orderComparer value x ≠ 0) then none
            else lookupFwd A fuel n value (next + 1)
      | .leaf _ =>
        if (match nextNode with | none => true | some x => A.orderComparer value x ≠ 0) then none
        else lookupFwd A fuel n value (next + 1)

/-- The backward scan (`for (let prev = index - 1;; prev--)`). -/
def lookupBwd (A : SCA α) : Nat → IBTreeNode α → α → Int → Option (List Nat)
  | 0, _, _, _ => none
  | fuel + 1, n, value, prev =>
    let prevNode := if prev < 0 then none else n.itemsOf.get? prev.toNat
    if (match prevNode with | some x => A.equalityComparer x value | none => false) then
      some [prev.toNat]
    else
      match n with
      | .node _ children =>
        match (if prev < 0 then none else children.get? prev.toNat) with
        | none => none
        | some child =>
          match lookupValuePathGo A fuel child value with
          | some sub => some (prev.toNat :: sub)
          | none =>
            if (match prevNode with | none => true | some x => A.orderComparer value x ≠ 0) then none
            else lookupBwd A fuel n value (prev - 1)
      | .leaf _ =>
        if (match prevNode with | none => true | some x => A.orderComparer value x ≠ 0) then none
        else lookupBwd A fuel n value (prev - 1)
end

/-- `lookupValuePath` (lines 135-137), with generous fuel. -/
def lookupValuePath (A : SCA α) (c : ISortedCollection α) (value : α) : Option (List Nat) :=
  lookupValuePathGo A (4 * weightB c.root + 4) c.root value

end Lookup

section Removal
variable [Inhabited α]

/-- One invocation of `rebalance` (lines 406-470) fixing child `ci` of the
given node: if the child meets the B-tree constraints nothing happens;
otherwise rotate from the right sibling, else from the left sibling, else
merge (promoting the merge result when the node is the empty root).  The
source walks the parent path upward on a merge; the callers below re-check the
child occupancy at every level on the way out of the recursion, which visits
exactly the same nodes on states whose inner nodes met the constraints before
the removal. -/
def rebalanceAt (A : SCA α) (isRoot : Bool) (n : IBTreeNode α) (ci : Nat) : IBTreeNode α :=
  match n with
  | .leaf _ => n
  | .node items children =>
    match children.get? ci with
    | none => n
    | some container =>
      let isLeaf := container.isLeafNode
      if ¬ isNodeDeficient A container isLeaf then n
      else
        let rs? := children.get? (ci + 1)
        let ls? := if ci = 0 then none else children.get? (ci - 1)
        if (match rs? with | some rs => canNodeLoseItem A rs isLeaf | none => false) then
          let rs := rs?.getD default
          let rightItem := rs.itemsOf.getD 0 default
          let separator := items.getD ci default
          let container2 : IBTreeNode α :=
            match container, isLeaf with
            | .leaf its, _ => .leaf (its ++ [separator])
            | .node its cs, false => .node (its ++ [separator]) (cs ++ [rs.childrenOf.getD 0 default])
            | .node its cs, true => .node (its ++ [separator]) cs
          let rs2 : IBTreeNode α :=
            match rs, isLeaf with
            | .leaf its, _ => .leaf its.tail
            | .node its cs, false => .node its.tail cs.tail
            | .node its cs, true => .node its.tail cs
          .node (items.set ci rightItem) ((children.set ci container2).set (ci + 1) rs2)
        else if (match ls? with | some ls => canNodeLoseItem A ls isLeaf | none => false) then
          let ls := ls?.getD default
          let leftItem := ls.itemsOf.getD (ls.itemsOf.length - 1) default
          let separator := items.getD (ci - 1) default
          let container2 : IBTreeNode α :=
            match container, isLeaf with
            | .leaf its, _ => .leaf (separator :: its)
            | .node its cs, false => .node (separator :: its) (ls.childrenOf.getD (ls.childrenOf.length - 1) default :: cs)
            | .node its cs, true => .node (separator :: its) cs
          let ls2 : IBTreeNode α :=
            match ls, isLeaf with
            | .leaf its, _ => .leaf its.dropLast
            | .node its cs, false => .node its.dropLast cs.dropLast
            | .node its cs, true => .node its.dropLast cs
          .node (items.set (ci - 1) leftItem) ((children.set (ci - 1) ls2).set ci container2)
        else
          match ls? with
          | some ls =>
            let separator := items.getD (ci - 1) default
            let items2 := items.eraseIdx (ci - 1)
            let merged : IBTreeNode α :=
              match ls, isLeaf with
              | .leaf its, _ => .leaf (its ++ [separator] ++ container.itemsOf)
              | .node its cs, false => .node (its ++ [separator] ++ container.itemsOf) (cs ++ container.childrenOf)
              | .node its cs, true => .node (its ++ [separator] ++ container.itemsOf) cs
            let children2 := ((children.set (ci - 1) merged).eraseIdx ci)
            if items2.length = 0 && isRoot then merged else .node items2 children2
          | none =>
            match rs? with
            | some rs =>
              let separator := items.getD ci default
              let items2 := items.eraseIdx ci
              let merged : IBTreeNode α :=
                match container, isLeaf with
                | .leaf its, _ => .leaf (its ++ [separator] ++ rs.itemsOf)
                | .node its cs, false => .node (its ++ [separator] ++ rs.itemsOf) (cs ++ rs.childrenOf)
                | .node its cs, true => .node (its ++ [separator] ++ rs.itemsOf) cs
              let children2 := ((children.set ci merged).eraseIdx (ci + 1))
              if items2.length = 0 && isRoot then merged else .node items2 children2
            | none => n

/-- `lookupRightMostValueWithParentPath` (lines 499-515) combined with the
donor splice (`valueContainer.node.items.splice(valueContainer.index)`, which
at the rightmost index removes exactly the last item) and the per-level
occupancy fixes of the subsequent `rebalance` call.  Returns the donor (absent
when the rightmost leaf is empty, in which case nothing is modified, matching
the source) and the updated subtree.  Fuel exceeds the subtree height. -/
def removeRightMost (A : SCA α) : Nat → IBTreeNode α → Option α × IBTreeNode α
  | 0, n => (none, n)
  | fuel + 1, n =>
    match n with
    | .leaf items => (items.get? (items.length - 1), .leaf items.dropLast)
    | .node items children =>
      match children.get? (children.length - 1) with
      | none => (none, n)
      | some c =>
        let r := removeRightMost A fuel c
        match r.1 with
        | none => (none, n)
        | some donor =>
          let ci := children.length - 1
          (some donor, rebalanceAt A false (.node items (children.set ci r.2)) ci)

/-- `lookupLeftMostValueWithParentPath` (lines 482-497) combined with the donor
splice; at the leftmost index `splice(0)` removes every item of the leaf, and
that is reproduced faithfully.  (This branch is unreachable from `create`: it
needs an empty leaf inside a nonempty subtree.) -/
def removeLeftMostAll (A : SCA α) : Nat → IBTreeNode α → Option α × IBTreeNode α
  | 0, n => (none, n)
  | fuel + 1, n =>
    match n with
    | .leaf items => (items.get? 0, .leaf [])
    | .node items children =>
      match children.get? 0 with
      | none => (none, n)
      | some c =>
        let r := removeLeftMostAll A fuel c
        match r.1 with
        | none => (none, n)
        | some donor =>
          (some donor, rebalanceAt A false (.node items (children.set 0 r.2)) 0)

/-- `removeByPath` (lines 379-403) followed by `rebalance`, structured over the
lookup path: the final index removes the item from its containing node (with
the in-order-predecessor donor replacement when that node is internal), and
each enclosing level re-checks and fixes the occupancy of the child it
descended into, which reproduces the source's upward rebalancing walk. -/
def removeByPathGo (A : SCA α) : Bool → IBTreeNode α → List Nat → IBTreeNode α
  | _, n, [] => n
  | isRoot, n, [j] =>
    (match n with
    | .leaf items => .leaf (items.eraseIdx j)
    | .node items children =>
      let items2 := items.eraseIdx j
      let lc := children.getD j default
      let r := removeRightMost A (heightB lc + 1) lc
      match r.1 with
      | some donor =>
          rebalanceAt A isRoot (.node (items2.insertIdx j donor) (children.set j r.2)) j
      | none =>
          let rc := children.getD (j + 1) default
          let r2 := removeLeftMostAll A (heightB rc + 1) rc
          match r2.1 with
          | some donor =>
              rebalanceAt A isRoot (.node (items2.insertIdx j donor) (children.set (j + 1) r2.2)) (j + 1)
          | none => .node items2 children)
  | isRoot, n, ci :: rest =>
    match n with
    | .leaf _ => n
    | .node items children =>
      let child2 := removeByPathGo A false (children.getD ci default) rest
      rebalanceAt A isRoot (.node items (children.set ci child2)) ci

/-- `SortedCollectionAdapter.remove` (lines 151-158). -/
def scRemove (A : SCA α) (c : ISortedCollection α) (value : α) : ISortedCollection α :=
  match lookupValuePath A c value with
  | none => c
  | some path => { root := removeByPathGo A true c.root path, size := c.size - 1 }

end Removal

end Immerutable

namespace Immerutable

section Navigation
variable [Inhabited α]

/-- `getFurthestLeftValue` (lines 517-523); fuel exceeds the height. -/
def getFurthestLeftValue : Nat → IBTreeNode α → Option α
  | 0, _ => none
  | _, .leaf items => items.head?
  | fuel + 1, .node _ children => getFurthestLeftValue fuel (children.getD 0 default)

/-- `getFurthestRightValue` (lines 525-531). -/
def getFurthestRightValue : Nat → IBTreeNode α → Option α
  | 0, _ => none
  | _, .leaf items => items.get? (items.length - 1)
  | fuel + 1, .node _ children =>
      getFurthestRightValue fuel (children.getD (children.length - 1) default)

/-- `SortedCollectionAdapter.getFirst` (lines 139-143). -/
def scGetFirst (c : ISortedCollection α) : Option α :=
  if c.root.itemsOf.length = 0 then none
  else getFurthestLeftValue (heightB c.root + 1) c.root

/-- `SortedCollectionAdapter.getLast` (lines 145-149). -/
def scGetLast (c : ISortedCollection α) : Option α :=
  if c.root.itemsOf.length = 0 then none
  else getFurthestRightValue (heightB c.root + 1) c.root

/-- The value a lookup path denotes (`nodeInfo.valueNode.value`). -/
def valueAtPath : IBTreeNode α → List Nat → α
  | _, [] => default
  | n, [j] => n.itemsOf.getD j default
  | n, i :: rest => valueAtPath (n.childrenOf.getD i default) rest

/-- Overwrite the value a lookup path denotes (used by `SortedMapAdapter.update`,
which assigns through `existingSorted.valueNode.value`). -/
def setValueAtPath : IBTreeNode α → List Nat → α → IBTreeNode α
  | n, [], _ => n
  | .leaf items, [j], v => .leaf (items.set j v)
  | .node items children, [j], v => .node (items.set j v) children
  | .leaf items, _ :: _, _ => .leaf items
  | .node items children, i :: rest, v =>
      .node items (children.set i (setValueAtPath (children.getD i default) rest v))

/-- `getPreviousValue` (lines 533-555), reformulated over the path: the leaf
case at index 0 scans the enclosing frames upward, which is the `none`
fall-through of the recursion.  (For an internal container the source returns
the rightmost value of the left subtree without consulting the ancestors; the
two behaviours differ only when that subtree is empty, which is unreachable
from `create`.) -/
def getPreviousValue : IBTreeNode α → List Nat → Option α
  | _, [] => none
  | n, [j] =>
    if n.isLeafNode then
      (if j > 0 then n.itemsOf.get? (j - 1) else none)
    else getFurthestRightValue (heightB n + 1) (n.childrenOf.getD j default)
  | n, i :: rest =>
    match getPreviousValue (n.childrenOf.getD i default) rest with
    | some v => some v
    | none => if i > 0 then n.itemsOf.get? (i - 1) else none

/-- `getNextValue` (lines 557-579), reformulated like `getPreviousValue`. -/
def getNextValue : IBTreeNode α → List Nat → Option α
  | _, [] => none
  | n, [j] =>
    if n.isLeafNode then
      (if j < n.itemsOf.length - 1 then n.itemsOf.get? (j + 1) else none)
    else getFurthestLeftValue (heightB n + 1) (n.childrenOf.getD (j + 1) default)
  | n, i :: rest =>
    match getNextValue (n.childrenOf.getD i default) rest with
    | some v => some v
    | none => n.itemsOf.get? i

/-- `ensureSortedOrderOfNode` (lines 118-133): if the value at the path is out
of order with respect to its in-order neighbours, remove it by its path and
re-insert it. -/
def ensureSortedOrderOfNode (A : SCA α) (c : ISortedCollection α) (path : List Nat) :
    ISortedCollection α :=
  let precedingItem := getPreviousValue c.root path
  let nextItem := getNextValue c.root path
  let value := valueAtPath c.root path
  if (match precedingItem with | some p => A.orderComparer value p < 0 | none => false) ||
     (match nextItem with | some nx => A.orderComparer value nx > 0 | none => false) then
    scInsert A { root := removeByPathGo A true c.root path, size := c.size - 1 } value
  else c

end Navigation

end Immerutable

namespace Immerutable

/-! ## Forward iteration (src/sortedcollection.ts lines 168-224) -/

/-- A traversal frame of `getForwardIterable`. -/
structure IterFrame (α : Type) where
  index : Nat
  onChildren : Bool
  items : List α
  children : Option (List (IBTreeNode α))

/-- The frame pushed for a node (`{ items, onChildren: true, children, index: 0 }`). -/
def iterFrameOf (n : IBTreeNode α) : IterFrame α :=
  { index := 0, onChildren := true, items := n.itemsOf,
    children := match n with | .leaf _ => none | .node _ cs => some cs }

/-- `traverseToFurthestLeft`: one `next()` call of the forward iterator,
returning the yielded value (absent when iteration is over) and the stack
afterwards.  The head of the list is the top of the stack.  `fuel` bounds the
inner descend/pop recursion and is supplied in excess by `iterNext`. -/
def traverseToFurthestLeft [Inhabited α] :
    Nat → List (IterFrame α) → Option α × List (IterFrame α)
  | 0, st => (none, st)
  | _, [] => (none, [])
  | fuel + 1, frame :: rest =>
    let childList := frame.children.getD []
    if frame.index < frame.items.length ∨
        (frame.children.isSome ∧ frame.onChildren ∧ frame.index < childList.length) then
      if frame.children.isSome ∧ frame.onChildren then
        let child := childList.getD frame.index default
        traverseToFurthestLeft fuel
          (iterFrameOf child :: { frame with onChildren := false } :: rest)
      else
        (frame.items.get? frame.index,
         { frame with index := frame.index + 1, onChildren := true } :: rest)
    else traverseToFurthestLeft fuel rest

/-- Weight of one frame, used to size the fuel of a `next()` call. -/
def frameWeight (f : IterFrame α) : Nat :=
  f.items.length + weightListB (f.children.getD []) + 1

/-- One `next()` call with sufficient fuel. -/
def iterNext [Inhabited α] (st : List (IterFrame α)) : Option α × List (IterFrame α) :=
  traverseToFurthestLeft (2 * (st.map frameWeight).sum + 2 * st.length + 2) st

/-- Drain the iterator: the sequence of values a full forward iteration
yields.  The outer fuel exceeds the number of values. -/
def iterRunGo [Inhabited α] : Nat → List (IterFrame α) → List α
  | 0, _ => []
  | fuel + 1, st =>
    match iterNext st with
    | (none, _) => []
    | (some v, st2) => v :: iterRunGo fuel st2

/-- The full forward iteration of a collection (`getIterable(c, 'forward')`
drained into a list). -/
def scIterateForward [Inhabited α] (c : ISortedCollection α) : List α :=
  iterRunGo (weightB c.root + 1) [iterFrameOf c.root]

mutual
/-- In-order flattening of a B-tree node (the specification-side view of the
iteration order). -/
def flattenB : IBTreeNode α → List α
  | .leaf items => items
  | .node items children => flattenZip children items

/-- Interleave children and separator items in order. -/
def flattenZip : List (IBTreeNode α) → List α → List α
  | [], _ => []
  | c :: _, [] => flattenB c
  | c :: cs, i :: is => flattenB c ++ i :: flattenZip cs is
end

end Immerutable

namespace Immerutable

/-! ## C4: the insertion binary search -/

/-- The laws a JS `orderComparer` is expected to satisfy: transitivity of the
induced "not greater" relation and coherence of the two strict signs. -/
structure LawfulCmp (cmp : α → α → Int) : Prop where
  le_trans : ∀ a b c, cmp a b ≤ 0 → cmp b c ≤ 0 → cmp a c ≤ 0
  sign : ∀ a b, 0 < cmp a b ↔ cmp b a < 0

/-- Non-decreasing under the comparator, as a pairwise relation. -/
def SortedByCmp (cmp : α → α → Int) (l : List α) : Prop :=
  l.Pairwise (fun a b => cmp a b ≤ 0)

lemma LawfulCmp.ge_of_le {cmp : α → α → Int} (h : LawfulCmp cmp) (a b : α)
    (hab : cmp a b ≤ 0) : 0 ≤ cmp b a := by
  rcases lt_or_le (cmp b a) 0 with hlt | hle
  · have := (h.sign a b).mpr hlt
    omega
  · exact hle

lemma binarySearchGo_range [Inhabited α] (cmp : α → α → Int) (items : List α) (v : α) :
    ∀ fuel (low high : Int), low ≤ binarySearchGo cmp items v fuel low high ∧
      binarySearchGo cmp items v fuel low high ≤ max low (high + 1) := by
  intro fuel
  induction fuel with
  | zero => intro low high; simp [binarySearchGo, le_max_left]
  | succ fuel ih =>
    intro low high
    unfold binarySearchGo
    dsimp only
    split
    · exact ⟨le_refl _, le_max_left _ _⟩
    · rename_i hlh
      have hle : low ≤ high := by omega
      have hmid1 : low ≤ low + (high - low) / 2 := by
        have : 0 ≤ (high - low) / 2 := Int.ediv_nonneg (by omega) (by norm_num)
        omega
      have hmid2 : low + (high - low) / 2 ≤ high := by
        have : (high - low) / 2 ≤ high - low := Int.ediv_le_self _ (by omega)
        omega
      split
      · rcases ih low (low + (high - low) / 2 - 1) with ⟨h1, h2⟩
        constructor
        · exact h1
        · refine le_trans h2 ?_
          simp only [max_le_iff]
          constructor
          · exact le_max_left _ _
          · refine le_trans ?_ (le_max_right low (high + 1))
            omega
      · split
        · rcases ih (low + (high - low) / 2 + 1) high with ⟨h1, h2⟩
          constructor
          · omega
          · refine le_trans h2 ?_
            simp only [max_le_iff]
            omega
        · exact ⟨hmid1, by omega⟩

/-- The range of `binarySearchForInsertion`: always between 0 and
`items.length`. -/
lemma binarySearchForInsertion_range [Inhabited α] (cmp : α → α → Int)
    (items : List α) (v : α) :
    0 ≤ binarySearchForInsertion cmp items v ∧
      binarySearchForInsertion cmp items v ≤ items.length := by
  unfold binarySearchForInsertion
  split
  · simp
  · split
    · simp
    · split
      · simp [Nat.cast_nonneg]
      · rcases binarySearchGo_range cmp items v (items.length + 1) 1 ((items.length : Int) - 2) with ⟨h1, h2⟩
        constructor
        · omega
        · rename_i hne _ _
          have : 1 ≤ items.length := by
            rcases items with _ | ⟨x, xs⟩
            · simp at hne
            · simp
          refine le_trans h2 ?_
          rw [max_le_iff]
          omega

end Immerutable

namespace Immerutable

lemma sorted_getD_le [Inhabited α] {cmp : α → α → Int} {items : List α}
    (hs : SortedByCmp cmp items) {i j : Nat} (hij : i < j) (hj : j < items.length) :
    cmp (items.getD i default) (items.getD j default) ≤ 0 := by
  have hi : i < items.length := lt_trans hij hj
  rw [List.getD_eq_getElem items default hi, List.getD_eq_getElem items default hj]
  exact List.pairwise_iff_getElem.mp hs i j hi hj hij

lemma cmp_eq_swap {cmp : α → α → Int} (hL : LawfulCmp cmp) {a b : α}
    (h : cmp a b = 0) : cmp b a = 0 := by
  have h1 : ¬ (0 < cmp a b) := by omega
  have h2 : ¬ (cmp a b < 0) := by omega
  have h3 : ¬ (cmp b a < 0) := fun hc => h1 ((hL.sign a b).mpr hc)
  have h4 : ¬ (0 < cmp b a) := fun hc => h2 ((hL.sign b a).mp hc)
  omega

lemma binarySearchGo_spec [Inhabited α] (cmp : α → α → Int) (hL : LawfulCmp cmp)
    (items : List α) (hs : SortedByCmp cmp items) (v : α) :
    ∀ fuel (low high : Int),
      0 ≤ low → high < items.length →
      (high + 1 - low).toNat ≤ fuel →
      (∀ j : Nat, j < items.length → (j : Int) < low → 0 ≤ cmp v (items.getD j default)) →
      (∀ j : Nat, j < items.length → high < (j : Int) → cmp v (items.getD j default) ≤ 0) →
      (∀ j : Nat, j < items.length → (j : Int) < binarySearchGo cmp items v fuel low high →
          0 ≤ cmp v (items.getD j default)) ∧
      (∀ j : Nat, j < items.length → binarySearchGo cmp items v fuel low high ≤ (j : Int) →
          cmp v (items.getD j default) ≤ 0) := by
  intro fuel
  induction fuel with
  | zero =>
    intro low high h0 hhi hfuel hctx1 hctx2
    simp only [binarySearchGo]
    refine ⟨fun j hj hjlow => hctx1 j hj hjlow, fun j hj hjlow => hctx2 j hj ?_⟩
    omega
  | succ fuel ih =>
    intro low high h0 hhi hfuel hctx1 hctx2
    unfold binarySearchGo
    dsimp only
    split
    · rename_i hlh
      refine ⟨fun j hj hjlow => hctx1 j hj hjlow, fun j hj hjlow => hctx2 j hj (by omega)⟩
    · rename_i hlh
      have hle : low ≤ high := by omega
      have hmid1 : low ≤ low + (high - low) / 2 := by
        have : 0 ≤ (high - low) / 2 := Int.ediv_nonneg (by omega) (by norm_num)
        omega
      have hmid2 : low + (high - low) / 2 ≤ high := by
        have : (high - low) / 2 ≤ high - low := Int.ediv_le_self _ (by omega)
        omega
      set mid := low + (high - low) / 2 with hmid
      have hmidnat : mid.toNat < items.length := by omega
      have hmidcast : ((mid.toNat : Int)) = mid := by omega
      split
      · rename_i hcmp
        have hctx2' : ∀ j : Nat, j < items.length → mid - 1 < (j : Int) →
            cmp v (items.getD j default) ≤ 0 := by
          intro j hj hjgt
          rcases lt_trichotomy (j : Int) mid with hlt | heq | hgt
          · omega
          · have : j = mid.toNat := by omega
            subst this
            omega
          · have hlt' : mid.toNat < j := by omega
            exact hL.le_trans v _ _ (le_of_lt hcmp) (sorted_getD_le hs hlt' hj)
        exact ih low (mid - 1) h0 (by omega) (by omega) hctx1 hctx2'
      · split
        · rename_i hcmp
          have hgt : 0 < cmp v (items.getD mid.toNat default) := by omega
          have hctx1' : ∀ j : Nat, j < items.length → (j : Int) < mid + 1 →
              0 ≤ cmp v (items.getD j default) := by
            intro j hj hjlt
            rcases lt_trichotomy (j : Int) mid with hlt | heq | hgt2
            · rcases lt_or_le (j : Int) low with hl | hl
              · exact hctx1 j hj hl
              · have hjm : j < mid.toNat := by omega
                have hmv : cmp (items.getD mid.toNat default) v < 0 := (hL.sign _ _).mp hgt
                have hjv : cmp (items.getD j default) v ≤ 0 :=
                  hL.le_trans _ _ _ (sorted_getD_le hs hjm hmidnat) (le_of_lt hmv)
                exact hL.ge_of_le _ _ hjv
            · have : j = mid.toNat := by omega
              subst this
              omega
            · omega
          exact ih (mid + 1) high (by omega) hhi (by omega) hctx1' hctx2
        · rename_i hc1 hc2
          have heq : cmp v (items.getD mid.toNat default) = 0 := by omega
          have hmv : cmp (items.getD mid.toNat default) v = 0 := cmp_eq_swap hL heq
          constructor
          · intro j hj hjlt
            rcases lt_or_le (j : Int) low with hl | hl
            · exact hctx1 j hj hl
            · have hjm : j < mid.toNat := by omega
              have hjv : cmp (items.getD j default) v ≤ 0 :=
                hL.le_trans _ _ _ (sorted_getD_le hs hjm hmidnat) (le_of_eq hmv)
              exact hL.ge_of_le _ _ hjv
          · intro j hj hjge
            rcases eq_or_lt_of_le hjge with heqj | hgtj
            · have : j = mid.toNat := by omega
              subst this
              omega
            · have hlt' : mid.toNat < j := by omega
              exact hL.le_trans v _ _ (le_of_eq heq) (sorted_getD_le hs hlt' hj)

end Immerutable

namespace Immerutable

/-- The subtraction comparator on integers satisfies the comparator laws. -/
lemma lawfulCmp_sub : LawfulCmp (fun a b : Int => a - b) := by
  constructor
  · intro a b c h1 h2
    omega
  · intro a b
    constructor <;> (intro h; omega)

/-- C4 counterexample: inserting `2` into the sorted leaf `[1, 2, 2, 2, 3]`
computes insertion index 2, yet the stored value at index 3 — to the right of
the insertion point — compares equal to the inserted value, so the claimed
"ties break to the right of equal values" fails. -/
theorem binarySearchForInsertion_not_stable :
    binarySearchForInsertion (fun a b : Int => a - b) [1, 2, 2, 2, 3] 2 = 2 ∧
      [1, 2, 2, 2, 3].getD 3 0 = 2 := by
  constructor <;> rfl

/-- C4 (amended): for a nonempty node under a lawful comparator,
`binarySearchForInsertion` returns `items.length` when the value compares at
least the last item (checked first), otherwise `0` when it compares at most
the first item, and otherwise an interior index strictly between 0 and
`items.length` that is a valid insertion point for the sorted node (everything
left of it compares not greater than the value, everything from it on
compares not smaller) — but the index need not lie to the right of every equal
stored value. -/
theorem binarySearchForInsertion_amended [Inhabited α] (cmp : α → α → Int)
    (hL : LawfulCmp cmp) (items : List α) (hs : SortedByCmp cmp items) (v : α)
    (hne : items ≠ []) :
    (0 ≤ cmp v (items.getD (items.length - 1) default) →
       binarySearchForInsertion cmp items v = items.length) ∧
    (cmp v (items.getD (items.length - 1) default) < 0 →
       cmp v (items.getD 0 default) ≤ 0 →
       binarySearchForInsertion cmp items v = 0) ∧
    (cmp v (items.getD (items.length - 1) default) < 0 →
       0 < cmp v (items.getD 0 default) →
       1 ≤ binarySearchForInsertion cmp items v ∧
       binarySearchForInsertion cmp items v ≤ (items.length : Int) - 1 ∧
       (∀ j : Nat, j < items.length → (j : Int) < binarySearchForInsertion cmp items v →
           0 ≤ cmp v (items.getD j default)) ∧
       (∀ j : Nat, j < items.length → binarySearchForInsertion cmp items v ≤ (j : Int) →
           cmp v (items.getD j default) ≤ 0)) := by
  have hlen : 0 < items.length := List.length_pos.mpr hne
  refine ⟨?_, ?_, ?_⟩
  · intro hlast
    unfold binarySearchForInsertion
    rw [if_neg (by omega), if_pos (by omega)]
  · intro hlast hfirst
    unfold binarySearchForInsertion
    rw [if_neg (by omega), if_neg (by omega), if_pos (by omega)]
  · intro hlast hfirst
    rcases Nat.lt_or_ge items.length 2 with hsmall | hbig
    · have h1 : items.length = 1 := by omega
      rw [h1] at hlast
      have hlast0 : cmp v (items.getD 0 default) < 0 := hlast
      omega
    · have hbs : binarySearchForInsertion cmp items v =
          binarySearchGo cmp items v (items.length + 1) 1 ((items.length : Int) - 2) := by
        unfold binarySearchForInsertion
        rw [if_neg (by omega), if_neg (by omega), if_neg (by omega)]
      have hspec := binarySearchGo_spec cmp hL items hs v (items.length + 1) 1
          ((items.length : Int) - 2) (by omega) (by omega) (by omega)
          (by
            intro j hj hjlt
            have : j = 0 := by omega
            subst this
            omega)
          (by
            intro j hj hjgt
            have : j = items.length - 1 := by omega
            subst this
            omega)
      have hrange := binarySearchGo_range cmp items v (items.length + 1) 1
          ((items.length : Int) - 2)
      rw [hbs]
      refine ⟨hrange.1, ?_, hspec.1, hspec.2⟩
      refine le_trans hrange.2 ?_
      rw [max_le_iff]
      omega

/-- Witness for `binarySearchForInsertion_amended` at a concrete interior
insertion. -/
theorem binarySearchForInsertion_amended_witness :
    1 ≤ binarySearchForInsertion (fun a b : Int => a - b) [1, 2, 4, 5] 3 ∧
      binarySearchForInsertion (fun a b : Int => a - b) [1, 2, 4, 5] 3 ≤ 3 := by
  have h := (binarySearchForInsertion_amended (fun a b : Int => a - b) lawfulCmp_sub
      [1, 2, 4, 5] (by unfold SortedByCmp; decide) 3 (by decide)).2.2
      (by decide) (by decide)
  exact ⟨h.1, by simpa using h.2.1⟩

end Immerutable

namespace Immerutable

/-! ## SortedMapAdapter (src/sortedmap.ts, current revision) -/

instance : Inhabited JSKey := ⟨.str []⟩

/-- `IKeyWithOrder` (src/sortedmap.ts lines 7-10). -/
structure IKeyWithOrder (O : Type) where
  key : JSKey
  order : O
  deriving DecidableEq

instance [Inhabited O] : Inhabited (IKeyWithOrder O) := ⟨⟨default, default⟩⟩

/-- `ISortedMap` (lines 12-15): a hash-trie map plus a sorted collection of
key/ordering-key entries. -/
structure ISortedMap (V O : Type) where
  map : IMap V
  sortedCollection : ISortedCollection (IKeyWithOrder O)

/-- The state of a `SortedMapAdapter` (lines 19-38): the ordering-key
extractor, the order comparer handed to the sorted collection, and the
collection's node capacity.  `truthy` is the JS `ToBoolean` coercion of the
value type, which `update` applies through `!existing` and
`updated || existing`. -/
structure SMA (V O : Type) where
  getOrderingKey : V → O
  orderComparer : O → O → Int
  truthy : V → Bool
  maxItemsPerLevel : Nat

/-- The `SortedCollectionAdapter` the constructor builds (lines 29-37):
entries compare by their ordering keys, and are equal when their keys are
`===`. -/
def SMA.sca (M : SMA V O) : SCA (IKeyWithOrder O) where
  orderComparer := fun a b => M.orderComparer a.order b.order
  equalityComparer := fun a b => jsKeyEq a.key b.key
  maxItemsPerLevel := M.maxItemsPerLevel

/-- `SortedCollectionAdapter.create` (src/sortedcollection.ts lines 74-76). -/
def scCreate (α : Type) : ISortedCollection α :=
  { root := .leaf [], size := 0 }

/-- `SortedCollectionAdapter.getSize` (src/sortedcollection.ts). -/
def scGetSize (c : ISortedCollection α) : Int := c.size

/-- `SortedMapAdapter.create` (lines 40-45). -/
def smCreate (V O : Type) : ISortedMap V O :=
  { map := mapCreate V, sortedCollection := scCreate (IKeyWithOrder O) }

/-- `SortedMapAdapter.get` (lines 47-49). -/
def smGet (sm : ISortedMap V O) (key : JSKey) : Option V :=
  mapGet sm.map key

/-- `SortedMapAdapter.has` (lines 51-53). -/
def smHas (sm : ISortedMap V O) (key : JSKey) : Bool :=
  mapHas sm.map key

/-- `SortedMapAdapter.update` (lines 92-120).  The JS updater may both mutate
its argument in place and return a replacement value, so it is modelled as
`V → V × Option V`: the argument object as the call leaves it, and the
returned value (`none` for `undefined`).  The first component of the result
is the value `update` produces — `.error` for the `throw` when the entry is
missing from the sorted collection, `.ok none` for the early `return` on an
absent or falsy stored value — and the second is the new state.  The stored
map value after the call is the returned value if defined, else the (possibly
mutated) argument object, which the map aliases; `mapSet` records either
uniformly.  JS `!==` on ordering keys is decidable inequality here (no claim
exercises a `NaN` ordering key). -/
def smUpdate [DecidableEq O] [Inhabited O] (M : SMA V O) (sm : ISortedMap V O)
    (key : JSKey) (updater : V → V × Option V) :
    Except Unit (Option V) × ISortedMap V O :=
  match mapGet sm.map key with
  | none => (.ok none, sm)
  | some existing =>
    if M.truthy existing = false then (.ok none, sm)
    else
      match lookupValuePath M.sca sm.sortedCollection ⟨key, M.getOrderingKey existing⟩ with
      | none => (.error (), sm)
      | some path =>
        let itemAfter := (updater existing).1
        let updated := (updater existing).2
        let map2 := mapSet sm.map key (match updated with | some u => u | none => itemAfter)
        let updatedOrExisting :=
          match updated with
          | some u => if M.truthy u then u else itemAfter
          | none => itemAfter
        let updatedOrderingKey := M.getOrderingKey updatedOrExisting
        let stored := valueAtPath sm.sortedCollection.root path
        let sc2 :=
          if stored.order ≠ updatedOrderingKey then
            ensureSortedOrderOfNode M.sca
              { root := setValueAtPath sm.sortedCollection.root path
                          ⟨stored.key, updatedOrderingKey⟩,
                size := sm.sortedCollection.size } path
          else sm.sortedCollection
        (.ok (some updatedOrExisting), { map := map2, sortedCollection := sc2 })

/-- `SortedMapAdapter.set` (lines 74-82): insert the entry and the mapping
when the key is absent, else delegate to `update` with a constant updater. -/
def smSet [DecidableEq O] [Inhabited O] (M : SMA V O) (sm : ISortedMap V O)
    (key : JSKey) (value : V) : ISortedMap V O :=
  if mapHas sm.map key = false then
    { sortedCollection := scInsert M.sca sm.sortedCollection ⟨key, M.getOrderingKey value⟩,
      map := mapSet sm.map key value }
  else (smUpdate M sm key (fun v => (v, some value))).2

/-- `SortedMapAdapter.remove` (lines 85-91): a strict `undefined` check, then
removal from both structures. -/
def smRemove [Inhabited O] (M : SMA V O) (sm : ISortedMap V O) (key : JSKey) :
    ISortedMap V O :=
  match mapGet sm.map key with
  | none => sm
  | some existing =>
    { sortedCollection := scRemove M.sca sm.sortedCollection ⟨key, M.getOrderingKey existing⟩,
      map := mapRemove sm.map key }

/-- `SortedMapAdapter.getSize` (lines 122-127): the sorted collection's size. -/
def smGetSize (sm : ISortedMap V O) : Int :=
  scGetSize sm.sortedCollection

/-- `SortedMapAdapter.getIterable` (lines 55-60) in the forward direction, as
the list of pairs it yields; the `!` assertion on the map lookup becomes
`Option.getD default`. -/
def smGetIterable [Inhabited V] [Inhabited O] (sm : ISortedMap V O) :
    List (JSKey × V) :=
  (scIterateForward sm.sortedCollection).map
    (fun item => (item.key, (mapGet sm.map item.key).getD default))

end Immerutable

namespace Immerutable

/-! ## C5: SortedMapAdapter.update -/

/-- A concrete `SortedMapAdapter` over integer values ordered by themselves:
the constructor's default order comparer, JS truthiness of a number
(`0` is falsy), and the default node capacity scaled down. -/
def c5M : SMA Int Int where
  getOrderingKey := id
  orderComparer := fun a b => if a < b then -1 else if b < a then 1 else 0
  truthy := fun v => v ≠ 0
  maxItemsPerLevel := 4

/-- A sorted map holding the single mapping `1 ↦ 0` (a falsy stored value). -/
def c5Map : ISortedMap Int Int :=
  smSet c5M (smCreate Int Int) (.num (.fin 1)) 0

/-- C5 (counterexample): on a sorted map whose key `1` stores the falsy value
`0`, `update` returns absent and leaves the state untouched even though the
key is present — the guard `if (!existing) return` tests truthiness, not
presence, so the updater is never invoked. -/
theorem smUpdate_falsy_counterexample :
    smHas c5Map (.num (.fin 1)) = true ∧
      (smUpdate c5M c5Map (.num (.fin 1)) (fun v => (v, some 5))).1 = .ok none ∧
      (smUpdate c5M c5Map (.num (.fin 1)) (fun v => (v, some 5))).2 = c5Map := by
  refine ⟨?_, ?_, ?_⟩ <;> rfl

lemma smUpdate_absent [DecidableEq O] [Inhabited O] (M : SMA V O)
    (sm : ISortedMap V O) (key : JSKey) (f : V → V × Option V)
    (h : mapGet sm.map key = none) :
    smUpdate M sm key f = (.ok none, sm) := by
  unfold smUpdate
  rw [h]

lemma smUpdate_falsy [DecidableEq O] [Inhabited O] (M : SMA V O)
    (sm : ISortedMap V O) (key : JSKey) (f : V → V × Option V) (v : V)
    (h : mapGet sm.map key = some v) (ht : M.truthy v = false) :
    smUpdate M sm key f = (.ok none, sm) := by
  unfold smUpdate
  rw [h]
  simp [ht]

lemma smUpdate_nopath [DecidableEq O] [Inhabited O] (M : SMA V O)
    (sm : ISortedMap V O) (key : JSKey) (f : V → V × Option V) (v : V)
    (h : mapGet sm.map key = some v) (ht : M.truthy v = true)
    (hl : lookupValuePath M.sca sm.sortedCollection ⟨key, M.getOrderingKey v⟩ = none) :
    smUpdate M sm key f = (.error (), sm) := by
  unfold smUpdate
  rw [h]
  simp [ht, hl]

lemma smUpdate_found [DecidableEq O] [Inhabited O] (M : SMA V O)
    (sm : ISortedMap V O) (key : JSKey) (f : V → V × Option V) (v : V)
    (path : List Nat)
    (h : mapGet sm.map key = some v) (ht : M.truthy v = true)
    (hl : lookupValuePath M.sca sm.sortedCollection ⟨key, M.getOrderingKey v⟩
            = some path) :
    (smUpdate M sm key f).1 =
      .ok (some (match (f v).2 with
                 | some u => if M.truthy u then u else (f v).1
                 | none => (f v).1)) := by
  unfold smUpdate
  rw [h]
  simp only [ht, Bool.true_eq_false, if_false, hl]

/-- C5 (amended): `update` returns absent exactly when the stored value is
absent **or JS-falsy**; when the stored value exists and is truthy and its
ordering entry is found in the sorted collection, the updater receives the
stored value and `update` returns the value the updater produced if that is
truthy, and the stored value otherwise (`updated || existing`). -/
theorem smUpdate_amended [DecidableEq O] [Inhabited O] (M : SMA V O)
    (sm : ISortedMap V O) (key : JSKey) (F : V → Option V) :
    ((smUpdate M sm key (fun v => (v, F v))).1 = .ok none ↔
      ∀ v, mapGet sm.map key = some v → M.truthy v = false) ∧
    (∀ v, mapGet sm.map key = some v → M.truthy v = true →
      lookupValuePath M.sca sm.sortedCollection ⟨key, M.getOrderingKey v⟩ ≠ none →
      (smUpdate M sm key (fun v2 => (v2, F v2))).1 =
        .ok (some (match F v with
                   | some u => if M.truthy u then u else v
                   | none => v))) := by
  refine ⟨?_, ?_⟩
  · rcases hm : mapGet sm.map key with _ | v
    · rw [smUpdate_absent M sm key _ hm]
      constructor
      · intro _ v2 hv2
        exact Option.noConfusion hv2
      · intro _
        rfl
    · rcases ht : M.truthy v with _ | _
      · rw [smUpdate_falsy M sm key _ v hm ht]
        constructor
        · intro _ v2 hv2
          injection hv2 with hv2
          rw [← hv2]
          exact ht
        · intro _
          rfl
      · constructor
        · intro hres
          rcases hl : lookupValuePath M.sca sm.sortedCollection
              ⟨key, M.getOrderingKey v⟩ with _ | path
          · rw [smUpdate_nopath M sm key _ v hm ht hl] at hres
            cases hres
          · rw [smUpdate_found M sm key _ v path hm ht hl] at hres
            cases hres
        · intro hall
          have := hall v rfl
          rw [ht] at this
          cases this
  · intro v hv ht hne
    rcases hl : lookupValuePath M.sca sm.sortedCollection
        ⟨key, M.getOrderingKey v⟩ with _ | path
    · exact absurd hl hne
    · exact smUpdate_found M sm key _ v path hv ht hl

/-- A sorted map holding the single truthy mapping `2 ↦ 7`. -/
def c5WitMap : ISortedMap Int Int :=
  smSet c5M (smCreate Int Int) (.num (.fin 2)) 7

/-- Witness for `smUpdate_amended`: updating the truthy stored value `7` with
an updater returning `v + 1` yields `8`. -/
theorem smUpdate_amended_witness :
    (smUpdate c5M c5WitMap (.num (.fin 2)) (fun v => (v, some (v + 1)))).1 =
      .ok (some 8) := by
  have h := (smUpdate_amended c5M c5WitMap (.num (.fin 2))
      (fun v => some (v + 1))).2 7 (by rfl) (by rfl) (by decide)
  exact h

end Immerutable

namespace Immerutable

/-! ## LruCacheAdapter (src/lrucache.ts) -/

/-- `LruWrapper` (src/lrucache.ts lines 8-11): a cached value with its recency
stamp. -/
structure LruWrapper (V : Type) where
  value : V
  order : Int

/-- The `SortedMapAdapter` the cache builds (lines 14-16): ordering key is the
recency stamp, the default order comparer on numbers, the default node
capacity; a wrapper is a JS object and therefore always truthy. -/
def lruSMA (V : Type) : SMA (LruWrapper V) Int where
  getOrderingKey := fun item => item.order
  orderComparer := fun a b => if a < b then -1 else if b < a then 1 else 0
  truthy := fun _ => true
  maxItemsPerLevel := 64

/-- `ILruCache` (lines 4-6): the sorted map plus the `nextOrder` counter. -/
structure ILruCache (V : Type) where
  map : IMap (LruWrapper V)
  sortedCollection : ISortedCollection (IKeyWithOrder Int)
  nextOrder : Int

/-- The sorted-map view of a cache (an `ILruCache` *is* an `ISortedMap` with
one extra field). -/
def ILruCache.toSM (lru : ILruCache V) : ISortedMap (LruWrapper V) Int :=
  { map := lru.map, sortedCollection := lru.sortedCollection }

/-- `LruCacheAdapter.create` (lines 25-30). -/
def lruCreate (V : Type) : ILruCache V :=
  { map := mapCreate (LruWrapper V), sortedCollection := scCreate (IKeyWithOrder Int),
    nextOrder := 0 }

/-- `LruCacheAdapter.get` (lines 48-54): a sorted-map `update` whose updater
mutates the stored wrapper's stamp to `getNextOrder(lru)` (lines 106-108,
`lru.nextOrder++`) and returns `undefined`; the counter increments exactly
when the updater ran, i.e. when the wrapper was found.  The result is the
wrapper's payload (`existing && existing.value`); `.error` propagates the
sorted-map throw. -/
def lruGet (lru : ILruCache V) (key : JSKey) :
    Except Unit (Option V × ILruCache V) :=
  match smUpdate (lruSMA V) lru.toSM key
      (fun item => ({ item with order := lru.nextOrder }, none)) with
  | (.error e, _) => .error e
  | (.ok none, sm2) =>
      .ok (none, { map := sm2.map, sortedCollection := sm2.sortedCollection,
                   nextOrder := lru.nextOrder })
  | (.ok (some w), sm2) =>
      .ok (some w.value, { map := sm2.map, sortedCollection := sm2.sortedCollection,
                           nextOrder := lru.nextOrder + 1 })

/-- C10: a `get` of a key absent from the cache returns absent and is a
complete no-op: the map, the sorted collection of ordering tuples, and the
`nextOrder` counter are all returned unchanged (the sorted-map `update`
returns before invoking the updater, so no recency stamp is consumed). -/
theorem lruGet_absent_frame (lru : ILruCache V) (key : JSKey)
    (h : mapGet lru.map key = none) :
    lruGet lru key = .ok (none, lru) := by
  unfold lruGet
  rw [smUpdate_absent (lruSMA V) lru.toSM key _ h]
  rfl

/-- A cache holding one entry `1 ↦ 42`, as one `set` on a fresh cache leaves
it (no eviction: the size 1 is below any positive suggested size). -/
def c10Cache : ILruCache Int :=
  let sm := smSet (lruSMA Int) (smCreate (LruWrapper Int) Int) (.num (.fin 1)) ⟨42, 0⟩
  { map := sm.map, sortedCollection := sm.sortedCollection, nextOrder := 1 }

/-- Witness for `lruGet_absent_frame`: key `2` is absent from `c10Cache` and
its `get` changes nothing. -/
theorem lruGet_absent_frame_witness :
    mapGet c10Cache.map (.num (.fin 2)) = none ∧
      lruGet c10Cache (.num (.fin 2)) = .ok (none, c10Cache) :=
  ⟨rfl, lruGet_absent_frame c10Cache (.num (.fin 2)) rfl⟩

end Immerutable

namespace Immerutable

/-! ## iterableToIterableIterator (src/unnamed/part_013 lines 445-458, the
current revision of src/util.ts) -/

/-- A wrapper object built by `getIterableIterator(iterator?)`.  The
underlying iterable is modelled by the sequence a fresh iterator of it
traverses (`src`; the factory is pure, matching an unchanged container), an
iterator by its list of remaining elements, and the closure's `iterator`
variable by an `Option` (`none` until the lazy initialization in `next`). -/
structure WrappedIter (T : Type) where
  src : List T
  iterator : Option (List T)

/-- `iterableToIterableIterator(iterable)` returns `getIterableIterator()`:
a wrapper with no iterator bound yet. -/
def iterableToIterableIterator (src : List T) : WrappedIter T :=
  { src := src, iterator := none }

/-- The wrapper's `[Symbol.iterator]` method:
`getIterableIterator(iterable[Symbol.iterator]())`, a fresh wrapper bound to
a fresh iterator of the underlying iterable. -/
def symbolIterator (w : WrappedIter T) : WrappedIter T :=
  { src := w.src, iterator := some w.src }

/-- The wrapper's `next` method: pop from the bound iterator; a wrapper built
without one initializes it from the iterable on the first call. -/
def wrapperNext (w : WrappedIter T) : Option T × WrappedIter T :=
  match w.iterator with
  | some (x :: rest) => (some x, { w with iterator := some rest })
  | some [] => (none, w)
  | none =>
      match w.src with
      | x :: rest => (some x, { w with iterator := some rest })
      | [] => (none, { w with iterator := some ([] : List T) })

/-- Drain a wrapper through repeated `next` calls: the sequence one full
traversal yields.  The fuel exceeds the element count wherever applied. -/
def drain : Nat → WrappedIter T → List T
  | 0, _ => []
  | fuel + 1, w =>
    match wrapperNext w with
    | (some x, w2) => x :: drain fuel w2
    | (none, _) => []

lemma drain_some (s : List T) (l : List T) :
    drain (l.length + 1) { src := s, iterator := some l } = l := by
  induction l with
  | nil => rfl
  | cons x rest ih =>
    have h1 : drain ((x :: rest).length + 1) { src := s, iterator := some (x :: rest) } =
        x :: drain (rest.length + 1) { src := s, iterator := some rest } := rfl
    rw [h1, ih]

/-- C9: every call of the wrapper's iterator method starts a fresh traversal
of the underlying sequence, whatever the wrapper's own lazily-initialized
iterator state; since a traversal runs on its own fresh wrapper and never
touches the one it was requested from, two successive full iterations of the
same wrapper yield this same sequence. -/
theorem iterableToIterableIterator_restartable (src : List T) (w : WrappedIter T)
    (hw : w.src = src) :
    drain (src.length + 1) (symbolIterator w) = src := by
  unfold symbolIterator
  rw [hw]
  exact drain_some src src

/-- Witness for `iterableToIterableIterator_restartable`: a wrapper that has
already consumed one element still hands out a full fresh traversal. -/
theorem iterableToIterableIterator_restartable_witness :
    drain 3 (symbolIterator (wrapperNext (iterableToIterableIterator [10, 20])).2) =
      [10, 20] :=
  iterableToIterableIterator_restartable [10, 20] _ rfl

end Immerutable

namespace Immerutable

/-! ## B-tree shape invariant (C2, C3)

The resting-state invariant maintained by `scInsert` and `scRemove`:
all leaves at equal depth (the height index of `WFN`); every non-root leaf
holds between `1` and `maxItemsPerLevel` values; every non-root internal node
has between `minItemsPerLevel` and `2 * maxItemsPerLevel - 2` children and one
item less than children.  The root is exempt from the lower bounds. -/

/-- Number of full children (the restart budget of one `insert` visit). -/
def fullCountB (A : SCA α) (cs : List (IBTreeNode α)) : Nat :=
  cs.countP (fun c => isFullNode A c)

/-- Shape invariant of a non-root node at height `h`. -/
inductive WFN (A : SCA α) : Nat → IBTreeNode α → Prop where
  | leaf : ∀ items : List α, 1 ≤ items.length → items.length ≤ A.maxItemsPerLevel →
      WFN A 0 (.leaf items)
  | node : ∀ (h : Nat) (items : List α) (children : List (IBTreeNode α)),
      items.length + 1 = children.length →
      A.minItemsPerLevel ≤ children.length →
      children.length ≤ 2 * A.maxItemsPerLevel - 2 →
      (∀ c ∈ children, WFN A h c) →
      WFN A (h + 1) (.node items children)

/-- Shape invariant of the root: the lower occupancy bounds relax to `0`
values (leaf) and `2` children (internal). -/
def WFRoot (A : SCA α) (t : IBTreeNode α) : Prop :=
  (∃ items : List α, t = .leaf items ∧ items.length ≤ A.maxItemsPerLevel) ∨
  (∃ (h : Nat) (items : List α) (children : List (IBTreeNode α)),
     t = .node items children ∧
     items.length + 1 = children.length ∧
     2 ≤ children.length ∧ children.length ≤ 2 * A.maxItemsPerLevel - 2 ∧
     ∀ c ∈ children, WFN A h c)

/-- Shape of a node that may be one child or item short of `WFN`: the state a
removal hands to the enclosing `rebalance` level. -/
def NearWFN (A : SCA α) (h : Nat) (n : IBTreeNode α) : Prop :=
  match n, h with
  | .leaf items, 0 => items.length ≤ A.maxItemsPerLevel
  | .node items children, h' + 1 =>
      items.length + 1 = children.length ∧
      A.minItemsPerLevel - 1 ≤ children.length ∧
      children.length ≤ 2 * A.maxItemsPerLevel - 2 ∧
      ∀ c ∈ children, WFN A h' c
  | _, _ => False

mutual
/-- The depths of all leaves of a subtree (0 for a leaf itself). -/
def leafDepthsB : IBTreeNode α → List Nat
  | .leaf _ => [0]
  | .node _ children => (leafDepthsList children).map (· + 1)

/-- The leaf depths of a list of subtrees. -/
def leafDepthsList : List (IBTreeNode α) → List Nat
  | [] => []
  | c :: cs => leafDepthsB c ++ leafDepthsList cs
end

lemma WFN_min_le_two {A : SCA α} (h4 : 4 ≤ A.maxItemsPerLevel) :
    2 ≤ A.minItemsPerLevel := by
  unfold SCA.minItemsPerLevel
  omega

lemma heightListB_const {h : Nat} : ∀ cs : List (IBTreeNode α), cs ≠ [] →
    (∀ c ∈ cs, heightB c = h) → heightListB cs = h := by
  intro cs
  induction cs with
  | nil => intro hne _; exact absurd rfl hne
  | cons c cs ihc =>
    intro _ hall
    have hc : heightB c = h := hall c (by simp)
    rcases cs with _ | ⟨c2, cs2⟩
    · show max (heightB c) (heightListB ([] : List (IBTreeNode α))) = h
      rw [hc]
      show max h 0 = h
      omega
    · have hrest : heightListB (c2 :: cs2) = h :=
        ihc (by simp) (fun c' hc' => hall c' (by simp [hc']))
      show max (heightB c) (heightListB (c2 :: cs2)) = h
      rw [hc, hrest]
      omega

lemma WFN_height {A : SCA α} : ∀ {h : Nat} {n : IBTreeNode α}, WFN A h n → heightB n = h := by
  intro h n hw
  induction hw with
  | leaf items _ _ => rfl
  | node h items children hcard hmin hmax hch ih =>
    show heightListB children + 1 = h + 1
    have hne : children ≠ [] := by
      intro he
      rw [he] at hcard
      simp at hcard
    rw [heightListB_const children hne ih]

lemma leafDepthsList_const {h : Nat} : ∀ cs : List (IBTreeNode α),
    (∀ c ∈ cs, ∀ e ∈ leafDepthsB c, e = h) →
    ∀ e ∈ leafDepthsList cs, e = h := by
  intro cs
  induction cs with
  | nil => intro _ e he; simp [leafDepthsList] at he
  | cons c cs ihc =>
    intro hall e he
    simp only [leafDepthsList, List.mem_append] at he
    rcases he with he | he
    · exact hall c (by simp) e he
    · exact ihc (fun c' hc' => hall c' (by simp [hc'])) e he

lemma WFN_leafDepths {A : SCA α} : ∀ {h : Nat} {n : IBTreeNode α}, WFN A h n →
    ∀ d ∈ leafDepthsB n, d = h := by
  intro h n hw
  induction hw with
  | leaf items _ _ =>
    intro d hd
    simp [leafDepthsB] at hd
    exact hd
  | node h items children hcard hmin hmax hch ih =>
    intro d hd
    simp only [leafDepthsB, List.mem_map] at hd
    obtain ⟨d2, hd2, rfl⟩ := hd
    rw [leafDepthsList_const children ih d2 hd2]

end Immerutable

namespace Immerutable

/-! ### List and flatten-length infrastructure -/

lemma insertIdx_eq_take_drop : ∀ (n : Nat) (l : List α) (a : α), n ≤ l.length →
    l.insertIdx n a = l.take n ++ a :: l.drop n := by
  intro n
  induction n with
  | zero => intro l a _; simp
  | succ n ih =>
    intro l a hn
    match l with
    | [] => simp at hn
    | x :: xs =>
      rw [List.insertIdx_succ_cons]
      have := ih xs a (by simpa using hn)
      simp [this]

lemma list_decomp_at (l : List β) (k : Nat) (h : k < l.length) :
    l = l.take k ++ l[k] :: l.drop (k + 1) := by
  conv_lhs => rw [← List.take_append_drop k l]
  rw [List.drop_eq_getElem_cons h]

lemma map_sum_decomp (f : β → Nat) (l : List β) (k : Nat) (h : k < l.length) :
    (l.map f).sum =
      ((l.take k).map f).sum + f l[k] + ((l.drop (k + 1)).map f).sum := by
  conv_lhs => rw [list_decomp_at l k h]
  rw [List.map_append, List.sum_append, List.map_cons, List.sum_cons]
  omega

lemma countP_decomp (p : β → Bool) (l : List β) (k : Nat) (h : k < l.length) :
    l.countP p =
      (l.take k).countP p + (if p l[k] then 1 else 0) + (l.drop (k + 1)).countP p := by
  conv_lhs => rw [list_decomp_at l k h]
  rw [List.countP_append, List.countP_cons]
  omega

/-- Characteristic length equation of `flattenZip` under the B-tree
cardinality (`items + 1 = children`). -/
lemma flattenZip_length : ∀ (cs : List (IBTreeNode α)) (its : List α),
    its.length + 1 = cs.length →
    (flattenZip cs its).length =
      (cs.map (fun c => (flattenB c).length)).sum + its.length := by
  intro cs
  induction cs with
  | nil => intro its h; simp at h
  | cons c cs ih =>
    intro its h
    match its with
    | [] =>
      have hcs : cs = [] := by
        cases cs with
        | nil => rfl
        | cons d ds => simp only [List.length_cons, List.length_nil] at h; omega
      subst hcs
      simp [flattenZip]
    | i :: its2 =>
      have h2 : its2.length + 1 = cs.length := by simpa using h
      show (flattenB c ++ i :: flattenZip cs its2).length = _
      rw [List.length_append]
      simp only [List.length_cons, List.map_cons, List.sum_cons]
      rw [ih its2 h2]
      omega

lemma flattenB_node_length (its : List α) (cs : List (IBTreeNode α))
    (h : its.length + 1 = cs.length) :
    (flattenB (.node its cs)).length =
      (cs.map (fun c => (flattenB c).length)).sum + its.length := by
  show (flattenZip cs its).length = _
  exact flattenZip_length cs its h

end Immerutable

namespace Immerutable

/-! ### Split lemmas -/

lemma isFullNode_leaf (A : SCA α) (its : List α) :
    isFullNode A (.leaf its) = decide (A.maxItemsPerLevel ≤ its.length) := by
  simp [isFullNode, IBTreeNode.isLeafNode, IBTreeNode.itemsOf, ge_iff_le]

lemma isFullNode_node (A : SCA α) (its : List α) (cs : List (IBTreeNode α)) :
    isFullNode A (.node its cs) = decide (A.maxItemsPerLevel ≤ cs.length) := by
  simp [isFullNode, IBTreeNode.isLeafNode, IBTreeNode.childrenOf, ge_iff_le]

/-- What the insert path needs of a split of a full child at height `hc`:
well-formed non-full halves whose flattenings with the separator account for
the whole child. -/
def SplitSpec (A : SCA α) (hc : Nat) (c : IBTreeNode α)
    (s : IBTreeNode α × α × IBTreeNode α) : Prop :=
  WFN A hc s.1 ∧ WFN A hc s.2.2 ∧
  isFullNode A s.1 = false ∧ isFullNode A s.2.2 = false ∧
  (flattenB s.1).length + 1 + (flattenB s.2.2).length = (flattenB c).length

lemma splitNode_leaf_spec [Inhabited α] (A : SCA α)
    (h4 : 4 ≤ A.maxItemsPerLevel) (items : List α)
    (hlen : items.length = A.maxItemsPerLevel) :
    SplitSpec A 0 (.leaf items) (splitNode (.leaf items)) := by
  have hmin : A.minItemsPerLevel = A.maxItemsPerLevel / 2 := rfl
  unfold SplitSpec splitNode
  simp only [flattenB, List.length_take, List.length_drop]
  refine ⟨.leaf _ ?_ ?_, .leaf _ ?_ ?_, ?_, ?_, ?_⟩ <;>
    (try simp only [List.length_take, List.length_drop, isFullNode_leaf,
      decide_eq_false_iff_not, not_le]) <;> omega

lemma splitLeafNodeLeftHeavy_spec [Inhabited α] (A : SCA α)
    (h4 : 4 ≤ A.maxItemsPerLevel) (items : List α)
    (hlen : items.length = A.maxItemsPerLevel) :
    SplitSpec A 0 (.leaf items) (splitLeafNodeLeftHeavy (.leaf items)) := by
  unfold SplitSpec splitLeafNodeLeftHeavy
  simp only [IBTreeNode.itemsOf, flattenB]
  refine ⟨.leaf _ ?_ ?_, .leaf _ ?_ ?_, ?_, ?_, ?_⟩ <;>
    (try simp only [List.length_take, List.length_cons, List.length_nil, isFullNode_leaf,
      decide_eq_false_iff_not, not_le]) <;> omega

lemma splitLeafNodeRightHeavy_spec [Inhabited α] (A : SCA α)
    (h4 : 4 ≤ A.maxItemsPerLevel) (items : List α)
    (hlen : items.length = A.maxItemsPerLevel) :
    SplitSpec A 0 (.leaf items) (splitLeafNodeRightHeavy (.leaf items)) := by
  unfold SplitSpec splitLeafNodeRightHeavy
  simp only [IBTreeNode.itemsOf, flattenB]
  refine ⟨.leaf _ ?_ ?_, .leaf _ ?_ ?_, ?_, ?_, ?_⟩ <;>
    (try simp only [List.length_drop, List.length_cons, List.length_nil, isFullNode_leaf,
      decide_eq_false_iff_not, not_le]) <;> omega

lemma splitNode_internal_spec [Inhabited α] (A : SCA α)
    (heven : A.maxItemsPerLevel % 2 = 0) (h4 : 4 ≤ A.maxItemsPerLevel)
    (h : Nat) (its : List α) (cs : List (IBTreeNode α))
    (hcard : its.length + 1 = cs.length)
    (hlo : A.maxItemsPerLevel ≤ cs.length)
    (hhi : cs.length ≤ 2 * A.maxItemsPerLevel - 2)
    (hch : ∀ c ∈ cs, WFN A h c) :
    SplitSpec A (h + 1) (.node its cs) (splitNode (.node its cs)) := by
  have hmin : A.minItemsPerLevel = A.maxItemsPerLevel / 2 := rfl
  unfold SplitSpec splitNode
  have hmp : its.length / 2 + 1 ≤ cs.length := by omega
  refine ⟨.node h _ _ ?_ ?_ ?_ ?_, .node h _ _ ?_ ?_ ?_ ?_, ?_, ?_, ?_⟩
  · simp only [List.length_take]
    omega
  · simp only [List.length_take]
    omega
  · simp only [List.length_take]
    omega
  · intro c hc
    exact hch c (List.take_subset _ _ hc)
  · simp only [List.length_drop]
    omega
  · simp only [List.length_drop]
    omega
  · simp only [List.length_drop]
    omega
  · intro c hc
    exact hch c (List.drop_subset _ _ hc)
  · rw [isFullNode_node]
    simp only [decide_eq_false_iff_not, not_le, List.length_take]
    omega
  · rw [isFullNode_node]
    simp only [decide_eq_false_iff_not, not_le, List.length_drop]
    omega
  · rw [flattenB_node_length its cs hcard,
      flattenB_node_length _ _ (by simp only [List.length_take]; omega),
      flattenB_node_length _ _ (by simp only [List.length_drop]; omega)]
    rw [List.map_take, List.map_drop]
    have hsplit : ((List.map (fun c => (flattenB c).length) cs).take (its.length / 2 + 1)).sum
        + ((List.map (fun c => (flattenB c).length) cs).drop (its.length / 2 + 1)).sum
        = (List.map (fun c => (flattenB c).length) cs).sum := by
      conv_rhs => rw [← List.take_append_drop (its.length / 2 + 1)
        (List.map (fun c => (flattenB c).length) cs)]
      rw [List.sum_append]
    simp only [List.length_take, List.length_drop]
    omega
end Immerutable

namespace Immerutable

/-! ### Insert preservation -/

/-- Invariant of the node `insertInBTreeNode` currently works on, entered
parent-less (the top-level call and every restart).  The slack condition
`children + fullCount ≤ 2 max − 2` is what survives the restart splits: each
restart adds one child and consumes one full child. -/
def InsInv (A : SCA α) : Nat → IBTreeNode α → Prop
  | 0, .leaf items => items.length < A.maxItemsPerLevel
  | h + 1, .node items children =>
      items.length + 1 = children.length ∧
      2 ≤ children.length ∧
      children.length + fullCountB A children ≤ 2 * A.maxItemsPerLevel - 2 ∧
      ∀ c ∈ children, WFN A h c
  | _, _ => False

/-- Post-state of one insert visit: the node keeps its constructor and
height, its occupancy only grows and stays under `2 max − 2`, every child is
well formed, and the flattening gains exactly one value. -/
def InsPost (A : SCA α) (h : Nat) (n n' : IBTreeNode α) : Prop :=
  (match n, n', h with
   | .leaf _, .leaf items', 0 =>
       1 ≤ items'.length ∧ items'.length ≤ A.maxItemsPerLevel
   | .node _ cs, .node items' children', hh + 1 =>
       items'.length + 1 = children'.length ∧
       cs.length ≤ children'.length ∧
       children'.length ≤ 2 * A.maxItemsPerLevel - 2 ∧
       ∀ c ∈ children', WFN A hh c
   | _, _, _ => False) ∧
  (flattenB n').length = (flattenB n).length + 1

lemma fullCountB_le_length (A : SCA α) (cs : List (IBTreeNode α)) :
    fullCountB A cs ≤ cs.length :=
  List.countP_le_length _

lemma insPost_WFN {A : SCA α} {h : Nat} {n n' : IBTreeNode α}
    (hw : WFN A h n) (hp : InsPost A h n n') : WFN A h n' := by
  rcases hp with ⟨hshape, _⟩
  cases hw with
  | leaf items h1 h2 =>
    match n', hshape with
    | .leaf items', ⟨h1', h2'⟩ => exact .leaf items' h1' h2'
    | .node _ _, hF => exact hF.elim
  | node hh items children hcard hmin hmax hch =>
    match n', hshape with
    | .node items' children', ⟨hcard', hlo', hhi', hch'⟩ =>
      exact .node hh items' children' hcard' (le_trans hmin hlo') hhi' hch'
    | .leaf _, hF => exact hF.elim

/-- Replacing one child changes the flatten length by the difference of the
child flatten lengths (stated without subtraction). -/
lemma flattenB_set_length (its : List α) (cs : List (IBTreeNode α))
    (ri : Nat) (c' : IBTreeNode α)
    (hcard : its.length + 1 = cs.length) (hri : ri < cs.length) :
    (flattenB (.node its (cs.set ri c'))).length + (flattenB cs[ri]).length =
      (flattenB (.node its cs)).length + (flattenB c').length := by
  rw [flattenB_node_length its cs hcard,
    flattenB_node_length its (cs.set ri c') (by simp [hcard])]
  rw [List.set_eq_take_append_cons_drop, if_pos hri]
  rw [List.map_append, List.sum_append, List.map_cons, List.sum_cons]
  have hdec := map_sum_decomp (fun c => (flattenB c).length) cs ri hri
  rw [List.map_take, List.map_drop] at hdec ⊢
  omega

end Immerutable

namespace Immerutable

lemma splice_length (cs : List (IBTreeNode α)) (ri : Nat) (l r : IBTreeNode α)
    (hri : ri < cs.length) :
    (cs.take ri ++ [l, r] ++ cs.drop (ri + 1)).length = cs.length + 1 := by
  simp only [List.length_append, List.length_take, List.length_drop,
    List.length_cons, List.length_nil]
  omega

lemma mem_splice {cs : List (IBTreeNode α)} {ri : Nat} {l r c : IBTreeNode α}
    (hc : c ∈ cs.take ri ++ [l, r] ++ cs.drop (ri + 1)) :
    c ∈ cs ∨ c = l ∨ c = r := by
  simp only [List.mem_append, List.mem_cons, List.mem_singleton] at hc
  rcases hc with (hc | hc | hc) | hc
  · exact Or.inl (List.take_subset _ _ hc)
  · exact Or.inr (Or.inl hc)
  · simp at hc
    exact Or.inr (Or.inr hc)
  · exact Or.inl (List.drop_subset _ _ hc)

lemma fullCountB_splice (A : SCA α) (cs : List (IBTreeNode α)) (ri : Nat)
    (l r : IBTreeNode α) (hri : ri < cs.length)
    (hfull : isFullNode A cs[ri] = true)
    (hl : isFullNode A l = false) (hr : isFullNode A r = false) :
    fullCountB A (cs.take ri ++ [l, r] ++ cs.drop (ri + 1)) + 1 = fullCountB A cs := by
  unfold fullCountB
  rw [List.countP_append, List.countP_append]
  have hdec := countP_decomp (fun c => isFullNode A c) cs ri hri
  simp only [hfull, if_true] at hdec
  simp [hl, hr]
  omega

lemma flattenB_splice_length [Inhabited α] (its : List α) (cs : List (IBTreeNode α))
    (ri : Nat) (s : IBTreeNode α × α × IBTreeNode α)
    (hcard : its.length + 1 = cs.length) (hri : ri < cs.length)
    (hrii : ri ≤ its.length)
    (hfl : (flattenB s.1).length + 1 + (flattenB s.2.2).length =
      (flattenB cs[ri]).length) :
    (flattenB (.node (its.insertIdx ri s.2.1)
        (cs.take ri ++ [s.1, s.2.2] ++ cs.drop (ri + 1)))).length =
      (flattenB (.node its cs)).length := by
  rw [flattenB_node_length its cs hcard,
    flattenB_node_length _ _ (by
      rw [List.length_insertIdx _ _ hrii, splice_length cs ri _ _ hri]
      omega)]
  rw [List.length_insertIdx _ _ hrii]
  rw [List.map_append, List.map_append, List.sum_append, List.sum_append]
  simp only [List.map_cons, List.map_nil, List.sum_cons, List.sum_nil]
  have hdec := map_sum_decomp (fun c => (flattenB c).length) cs ri hri
  rw [List.map_take, List.map_drop] at hdec ⊢
  omega

end Immerutable

namespace Immerutable

/-- One parent-less `insertInBTreeNode` visit preserves the invariant: fuel
induction over the restart/descend recursion.  Each restart consumes one full
child (the `fullCountB` component of the fuel bound), each descent one level. -/
lemma insertInBTreeNode_spec [Inhabited α] (A : SCA α)
    (heven : A.maxItemsPerLevel % 2 = 0) (h4 : 4 ≤ A.maxItemsPerLevel) :
    ∀ (fuel h : Nat) (n : IBTreeNode α) (value : α),
      (h + 1) * (2 * A.maxItemsPerLevel) + fullCountB A n.childrenOf ≤ fuel →
      InsInv A h n →
      InsPost A h n (insertInBTreeNode A fuel n value) := by
  intro fuel
  induction fuel with
  | zero =>
    intro h n value hfuel _
    exfalso
    have h1 : 2 * A.maxItemsPerLevel ≤ (h + 1) * (2 * A.maxItemsPerLevel) :=
      Nat.le_mul_of_pos_left _ (Nat.succ_pos h)
    omega
  | succ fuel ih =>
    intro h n value hfuel hinv
    rcases n with items | ⟨its, cs⟩
    · rcases h with _ | hh
      · have hlt : items.length < A.maxItemsPerLevel := hinv
        have hrange := binarySearchForInsertion_range A.orderComparer items value
        simp only [insertInBTreeNode]
        split
        · refine ⟨⟨?_, ?_⟩, ?_⟩
          · simp
          · simp
            omega
          · show (items ++ [value]).length = items.length + 1
            simp
        · have hle : (binarySearchForInsertion A.orderComparer items value).toNat ≤
              items.length := Int.toNat_le.mpr hrange.2
          refine ⟨⟨?_, ?_⟩, ?_⟩
          · rw [List.length_insertIdx _ _ hle]
            omega
          · rw [List.length_insertIdx _ _ hle]
            omega
          · show (items.insertIdx _ value).length = items.length + 1
            rw [List.length_insertIdx _ _ hle]
      · exact ((hinv : False)).elim
    · rcases h with _ | hh
      · exact ((hinv : False)).elim
      obtain ⟨hcard, h2le, hslack, hch⟩ := hinv
      simp only [IBTreeNode.childrenOf] at hfuel
      simp only [insertInBTreeNode]
      generalize hri_def : (binarySearchForInsertion A.orderComparer its value).toNat = ri
      have hrange := binarySearchForInsertion_range A.orderComparer its value
      have hriits : ri ≤ its.length := by
        rw [← hri_def]
        exact Int.toNat_le.mpr hrange.2
      have hrics : ri < cs.length := by omega
      rw [List.getD_eq_getElem cs default hrics]
      have wchild : WFN A hh cs[ri] := hch _ (List.getElem_mem hrics)
      by_cases hfull : isFullNode A cs[ri] = true
      · rw [if_pos hfull]
        have key : ∀ s : IBTreeNode α × α × IBTreeNode α, SplitSpec A hh cs[ri] s →
            InsPost A (hh + 1) (.node its cs)
              (insertInBTreeNode A fuel
                (.node (its.insertIdx ri s.2.1)
                  (cs.take ri ++ [s.1, s.2.2] ++ cs.drop (ri + 1))) value) := by
          intro s hs
          obtain ⟨hwl, hwr, hnfl, hnfr, hflat⟩ := hs
          have hlen2 := splice_length cs ri s.1 s.2.2 hrics
          have hcard2 : (its.insertIdx ri s.2.1).length + 1 =
              (cs.take ri ++ [s.1, s.2.2] ++ cs.drop (ri + 1)).length := by
            rw [List.length_insertIdx _ _ hriits, hlen2]
            omega
          have hfc := fullCountB_splice A cs ri s.1 s.2.2 hrics hfull hnfl hnfr
          have hmem2 : ∀ c ∈ cs.take ri ++ [s.1, s.2.2] ++ cs.drop (ri + 1),
              WFN A hh c := by
            intro c hcmem
            rcases mem_splice hcmem with hcm | hcm | hcm
            · exact hch c hcm
            · rw [hcm]; exact hwl
            · rw [hcm]; exact hwr
          have hinv2 : InsInv A (hh + 1)
              (.node (its.insertIdx ri s.2.1)
                (cs.take ri ++ [s.1, s.2.2] ++ cs.drop (ri + 1))) :=
            ⟨hcard2, by omega, by omega, hmem2⟩
          have hfuel2 : (hh + 1 + 1) * (2 * A.maxItemsPerLevel) +
              fullCountB A (IBTreeNode.childrenOf (.node (its.insertIdx ri s.2.1)
                (cs.take ri ++ [s.1, s.2.2] ++ cs.drop (ri + 1)))) ≤ fuel := by
            simp only [IBTreeNode.childrenOf]
            omega
          have hpost := ih (hh + 1) _ value hfuel2 hinv2
          obtain ⟨hshape, hflat2⟩ := hpost
          have hsp := flattenB_splice_length its cs ri s hcard hrics hriits hflat
          refine ⟨?_, ?_⟩
          · rcases hres : insertInBTreeNode A fuel
                (.node (its.insertIdx ri s.2.1)
                  (cs.take ri ++ [s.1, s.2.2] ++ cs.drop (ri + 1))) value with
              ⟨ritems⟩ | ⟨rits, rcs⟩
            · rw [hres] at hshape
              exact ((hshape : False)).elim
            · rw [hres] at hshape
              obtain ⟨hc', hlo', hhi', hch'⟩ := hshape
              exact ⟨hc', by omega, hhi', hch'⟩
          · rw [hflat2, hsp]
        rcases hc0 : cs[ri] with citems | ⟨cits, ccs⟩ <;>
          rw [hc0] at wchild hfull key
        · cases wchild with
          | leaf _ hl1 hl2 =>
            have hcm : citems.length = A.maxItemsPerLevel := by
              rw [isFullNode_leaf] at hfull
              simp at hfull
              omega
            simp only [IBTreeNode.isLeafNode, Bool.true_and]
            by_cases hb1 : (ri == cs.length - 1) = true
            · rw [if_pos hb1]
              exact key _ (splitLeafNodeLeftHeavy_spec A h4 citems hcm)
            · rw [if_neg hb1]
              by_cases hb2 : (ri == 0) = true
              · rw [if_pos hb2]
                exact key _ (splitLeafNodeRightHeavy_spec A h4 citems hcm)
              · rw [if_neg hb2]
                exact key _ (splitNode_leaf_spec A h4 citems hcm)
        · cases wchild with
          | node h2 _ _ hccard hcmin hcmax hcch =>
            have hclo : A.maxItemsPerLevel ≤ ccs.length := by
              rw [isFullNode_node] at hfull
              simpa using hfull
            simp only [IBTreeNode.isLeafNode, Bool.false_and, Bool.false_eq_true,
              if_false]
            exact key _ (splitNode_internal_spec A heven h4 h2 cits ccs hccard hclo
              hcmax hcch)
      · rw [if_neg hfull]
        have hnf : isFullNode A cs[ri] = false := Bool.eq_false_iff.mpr hfull
        have hinv2 : InsInv A hh cs[ri] := by
          rcases hc0 : cs[ri] with citems | ⟨cits, ccs⟩ <;> rw [hc0] at wchild hnf
          · cases wchild with
            | leaf _ hl1 hl2 =>
              rw [isFullNode_leaf] at hnf
              show citems.length < A.maxItemsPerLevel
              simpa using hnf
          · cases wchild with
            | node h2 _ _ hccard hcmin hcmax hcch =>
              rw [isFullNode_node] at hnf
              refine ⟨hccard, ?_, ?_, hcch⟩
              · have := WFN_min_le_two (A := A) h4
                omega
              · have hl1 := fullCountB_le_length A ccs
                have hl2 : ccs.length < A.maxItemsPerLevel := by simpa using hnf
                omega
        have hcfc : fullCountB A (cs[ri]).childrenOf ≤ 2 * A.maxItemsPerLevel - 2 := by
          rcases hc1 : cs[ri] with citems | ⟨cits, ccs⟩ <;> rw [hc1] at wchild
          · simp [IBTreeNode.childrenOf, fullCountB]
          · cases wchild with
            | node h2 _ _ _ _ hcmax _ =>
              simp only [IBTreeNode.childrenOf]
              exact le_trans (fullCountB_le_length A ccs) hcmax
        have hfuel2 : (hh + 1) * (2 * A.maxItemsPerLevel) +
            fullCountB A (cs[ri]).childrenOf ≤ fuel := by
          have hmul : (hh + 1 + 1) * (2 * A.maxItemsPerLevel) =
              (hh + 1) * (2 * A.maxItemsPerLevel) + 2 * A.maxItemsPerLevel := by ring
          omega
        have hpost := ih hh cs[ri] value hfuel2 hinv2
        have wchild2 := insPost_WFN wchild hpost
        refine ⟨⟨?_, ?_, ?_, ?_⟩, ?_⟩
        · rw [List.length_set]
          exact hcard
        · simp [List.length_set]
        · rw [List.length_set]
          omega
        · intro c hcmem
          rcases List.mem_or_eq_of_mem_set hcmem with hcm | hcm
          · exact hch c hcm
          · rw [hcm]
            exact wchild2
        · have hFS := flattenB_set_length its cs ri
            (insertInBTreeNode A fuel cs[ri] value) hcard hrics
          have hp2 := hpost.2
          omega

end Immerutable


namespace Immerutable

lemma WFN_WFRoot {A : SCA α} {h : Nat} {t : IBTreeNode α} (hw : WFN A h t)
    (h4 : 4 ≤ A.maxItemsPerLevel) : WFRoot A t := by
  cases hw with
  | leaf items h1 h2 => exact Or.inl ⟨items, rfl, h2⟩
  | node hh items children hcard hmin hmax hch =>
    exact Or.inr ⟨hh, items, children, rfl, hcard,
      le_trans (WFN_min_le_two h4) hmin, hmax, hch⟩

lemma WFRoot_internal_height {A : SCA α} {h : Nat} {its : List α}
    {cs : List (IBTreeNode α)} (h2le : 2 ≤ cs.length)
    (hch : ∀ c ∈ cs, WFN A h c) :
    heightB (IBTreeNode.node its cs) = h + 1 := by
  show heightListB cs + 1 = h + 1
  rw [heightListB_const cs (by intro he; rw [he] at h2le; simp at h2le)
    (fun c hc => WFN_height (hch c hc))]

lemma insPost_WFRoot {A : SCA α} {hl : Nat} {n0 res : IBTreeNode α}
    (hpost : InsPost A hl n0 res)
    (h2 : 2 ≤ n0.childrenOf.length ∨ n0.isLeafNode = true) : WFRoot A res := by
  obtain ⟨hshape, _⟩ := hpost
  match n0, res, hl, hshape with
  | .leaf _, .leaf items', 0, ⟨h1', h2'⟩ => exact Or.inl ⟨items', rfl, h2'⟩
  | .node _ cs, .node its' cs', hh + 1, ⟨hc', hlo', hhi', hch'⟩ =>
    rcases h2 with h2 | h2
    · simp only [IBTreeNode.childrenOf] at h2
      exact Or.inr ⟨hh, its', cs', rfl, hc', by omega, hhi', hch'⟩
    · simp [IBTreeNode.isLeafNode] at h2
  | .leaf _, .node _ _, _, hF => exact hF.elim
  | .node _ _, .leaf _, _, hF => exact hF.elim

/-- The starting node of a root-split insert: a fresh two-child root. -/
lemma scInsert_freshroot_inv [Inhabited α] (A : SCA α) (h4 : 4 ≤ A.maxItemsPerLevel)
    {hc : Nat} {c0 : IBTreeNode α} {s : IBTreeNode α × α × IBTreeNode α}
    (hs : SplitSpec A hc c0 s) :
    InsInv A (hc + 1) (.node [s.2.1] [s.1, s.2.2]) ∧
    (flattenB (.node [s.2.1] [s.1, s.2.2])).length = (flattenB c0).length := by
  obtain ⟨hwl, hwr, hnfl, hnfr, hflat⟩ := hs
  constructor
  · refine ⟨rfl, by simp, ?_, ?_⟩
    · have hfc : fullCountB A [s.1, s.2.2] = 0 := by simp [fullCountB, hnfl, hnfr]
      simp only [List.length_cons, List.length_nil]
      omega
    · intro c' hc'
      simp only [List.mem_cons, List.not_mem_nil, or_false] at hc'
      rcases hc' with hc' | hc'
      · rw [hc']; exact hwl
      · rw [hc']; exact hwr
  · rw [flattenB_node_length _ _ (by simp)]
    simp only [List.map_cons, List.map_nil, List.sum_cons, List.sum_nil,
      List.length_cons, List.length_nil]
    omega

/-- `SortedCollectionAdapter.insert` preserves the root shape invariant,
grows the flattening by exactly one value, and increments `size`. -/
lemma scInsert_spec [Inhabited α] (A : SCA α)
    (heven : A.maxItemsPerLevel % 2 = 0) (h4 : 4 ≤ A.maxItemsPerLevel)
    (c : ISortedCollection α) (value : α) (hw : WFRoot A c.root) :
    WFRoot A (scInsert A c value).root ∧
    (flattenB (scInsert A c value).root).length = (flattenB c.root).length + 1 ∧
    (scInsert A c value).size = c.size + 1 := by
  unfold scInsert
  dsimp only
  rcases hw with ⟨items, hroot, hlen⟩ | ⟨h, its, cs, hroot, hcard, h2le, hhi, hch⟩ <;>
    rw [hroot]
  · by_cases hfull : isFullNode A (IBTreeNode.leaf items) = true
    · rw [if_pos hfull]
      have hmax : items.length = A.maxItemsPerLevel := by
        rw [isFullNode_leaf] at hfull
        simp at hfull
        omega
      have hs := splitNode_leaf_spec A h4 items hmax
      obtain ⟨hinv, hfl0⟩ := scInsert_freshroot_inv A h4 hs
      have hfuel : (1 + 1) * (2 * A.maxItemsPerLevel) +
          fullCountB A (IBTreeNode.childrenOf
            (.node [(splitNode (IBTreeNode.leaf items)).2.1]
              [(splitNode (IBTreeNode.leaf items)).1,
               (splitNode (IBTreeNode.leaf items)).2.2])) ≤
          insertFuel A (IBTreeNode.leaf items) := by
        simp only [IBTreeNode.childrenOf, insertFuel]
        have hcf := fullCountB_le_length A
          [(splitNode (IBTreeNode.leaf items)).1, (splitNode (IBTreeNode.leaf items)).2.2]
        simp only [List.length_cons, List.length_nil] at hcf
        have he1 : heightB (IBTreeNode.leaf items) = 0 := rfl
        rw [he1]
        have he2 : (0 + 2) * (2 * A.maxItemsPerLevel + 4) =
            (1 + 1) * (2 * A.maxItemsPerLevel) + 8 := by ring
        omega
      have hpost := insertInBTreeNode_spec A heven h4 (insertFuel A (IBTreeNode.leaf items))
        1 _ value hfuel hinv
      refine ⟨insPost_WFRoot hpost (Or.inl (by simp [IBTreeNode.childrenOf])), ?_, rfl⟩
      rw [hpost.2, hfl0]
    · rw [if_neg hfull]
      have hlt : items.length < A.maxItemsPerLevel := by
        rw [isFullNode_leaf] at hfull
        simpa using hfull
      have hfuel : (0 + 1) * (2 * A.maxItemsPerLevel) +
          fullCountB A (IBTreeNode.childrenOf (IBTreeNode.leaf items)) ≤
          insertFuel A (IBTreeNode.leaf items) := by
        simp only [IBTreeNode.childrenOf, insertFuel, fullCountB, List.countP_nil]
        have he1 : heightB (IBTreeNode.leaf items) = 0 := rfl
        rw [he1]
        have he2 : (0 + 2) * (2 * A.maxItemsPerLevel + 4) =
            (0 + 1) * (2 * A.maxItemsPerLevel) + (2 * A.maxItemsPerLevel + 8) := by ring
        omega
      have hpost := insertInBTreeNode_spec A heven h4 (insertFuel A (IBTreeNode.leaf items))
        0 (IBTreeNode.leaf items) value hfuel (hlt : InsInv A 0 (IBTreeNode.leaf items))
      exact ⟨insPost_WFRoot hpost (Or.inr rfl), hpost.2, rfl⟩
  · have hht : heightB (IBTreeNode.node its cs) = h + 1 := WFRoot_internal_height h2le hch
    by_cases hfull : isFullNode A (IBTreeNode.node its cs) = true
    · rw [if_pos hfull]
      have hlo : A.maxItemsPerLevel ≤ cs.length := by
        rw [isFullNode_node] at hfull
        simpa using hfull
      have hs := splitNode_internal_spec A heven h4 h its cs hcard hlo hhi hch
      obtain ⟨hinv, hfl0⟩ := scInsert_freshroot_inv A h4 hs
      have hfuel : (h + 2 + 1) * (2 * A.maxItemsPerLevel) +
          fullCountB A (IBTreeNode.childrenOf
            (.node [(splitNode (IBTreeNode.node its cs)).2.1]
              [(splitNode (IBTreeNode.node its cs)).1,
               (splitNode (IBTreeNode.node its cs)).2.2])) ≤
          insertFuel A (IBTreeNode.node its cs) := by
        simp only [IBTreeNode.childrenOf, insertFuel]
        rw [hht]
        have hcf := fullCountB_le_length A
          [(splitNode (IBTreeNode.node its cs)).1, (splitNode (IBTreeNode.node its cs)).2.2]
        simp only [List.length_cons, List.length_nil] at hcf
        have he2 : (h + 1 + 2) * (2 * A.maxItemsPerLevel + 4) =
            (h + 2 + 1) * (2 * A.maxItemsPerLevel) + (4 * h + 12) := by ring
        omega
      have hpost := insertInBTreeNode_spec A heven h4 (insertFuel A (IBTreeNode.node its cs))
        (h + 2) _ value hfuel hinv
      refine ⟨insPost_WFRoot hpost (Or.inl (by simp [IBTreeNode.childrenOf])), ?_, rfl⟩
      rw [hpost.2, hfl0]
    · rw [if_neg hfull]
      have hlt : cs.length < A.maxItemsPerLevel := by
        rw [isFullNode_node] at hfull
        simpa using hfull
      have hinv : InsInv A (h + 1) (IBTreeNode.node its cs) := by
        refine ⟨hcard, h2le, ?_, hch⟩
        have := fullCountB_le_length A cs
        omega
      have hfuel : (h + 1 + 1) * (2 * A.maxItemsPerLevel) +
          fullCountB A (IBTreeNode.childrenOf (IBTreeNode.node its cs)) ≤
          insertFuel A (IBTreeNode.node its cs) := by
        simp only [IBTreeNode.childrenOf, insertFuel]
        rw [hht]
        have hcf := fullCountB_le_length A cs
        have he2 : (h + 1 + 2) * (2 * A.maxItemsPerLevel + 4) =
            (h + 1 + 1) * (2 * A.maxItemsPerLevel) +
              (2 * A.maxItemsPerLevel + 4 * h + 12) := by ring
        omega
      have hpost := insertInBTreeNode_spec A heven h4 (insertFuel A (IBTreeNode.node its cs))
        (h + 1) (IBTreeNode.node its cs) value hfuel hinv
      exact ⟨insPost_WFRoot hpost (Or.inl (by simpa [IBTreeNode.childrenOf] using h2le)),
        hpost.2, rfl⟩

end Immerutable

namespace Immerutable

/-! ### Lookup paths are valid -/

/-- Validity of a lookup path: every child index is in range and the final
index addresses an item of its node. -/
inductive ValidPath : IBTreeNode α → List Nat → Prop where
  | lastLeaf : ∀ (items : List α) (j : Nat), j < items.length →
      ValidPath (.leaf items) [j]
  | lastNode : ∀ (items : List α) (cs : List (IBTreeNode α)) (j : Nat),
      j < items.length → ValidPath (.node items cs) [j]
  | step : ∀ (items : List α) (cs : List (IBTreeNode α)) (ci : Nat)
      (c : IBTreeNode α) (rest : List Nat), cs.get? ci = some c → rest ≠ [] →
      ValidPath c rest → ValidPath (.node items cs) (ci :: rest)

/-- Every path the `_lookupValuePath` scans produce is valid and nonempty (no
comparator laws needed: the scans only return indices whose accesses
succeeded). -/
lemma lookup_valid [Inhabited α] (A : SCA α) : ∀ fuel : Nat,
    (∀ (n : IBTreeNode α) (value : α) (p : List Nat),
      lookupValuePathGo A fuel n value = some p → ValidPath n p ∧ p ≠ []) ∧
    (∀ (n : IBTreeNode α) (value : α) (nxt : Nat) (p : List Nat),
      lookupFwd A fuel n value nxt = some p → ValidPath n p ∧ p ≠ []) ∧
    (∀ (n : IBTreeNode α) (value : α) (prev : Int) (p : List Nat),
      lookupBwd A fuel n value prev = some p → ValidPath n p ∧ p ≠ []) := by
  intro fuel
  induction fuel with
  | zero =>
    refine ⟨?_, ?_, ?_⟩
    · intro n value p hp
      cases hp
    · intro n value nxt p hp
      cases hp
    · intro n value prev p hp
      cases hp
  | succ fuel ih =>
    obtain ⟨ihGo, ihFwd, ihBwd⟩ := ih
    refine ⟨?_, ?_, ?_⟩
    · intro n value p hp
      simp only [lookupValuePathGo] at hp
      rcases hFwd : lookupFwd A fuel n value
          (binarySearchForLookup A.orderComparer n.itemsOf value).toNat with _ | q <;>
        simp only [hFwd, Option.some.injEq] at hp
      · exact ihBwd n value _ p hp
      · subst hp
        exact ihFwd n value _ _ hFwd
    · intro n value nxt p hp
      rcases n with items | ⟨items, children⟩
      · simp only [lookupFwd, IBTreeNode.itemsOf] at hp
        rcases hnn : items.get? nxt with _ | x <;> simp only [hnn] at hp
        · simp at hp
        · by_cases heq : A.equalityComparer x value = true
          · rw [if_pos heq] at hp
            injection hp with hp2
            subst hp2
            have hlt : nxt < items.length := by
              by_contra hge
              rw [List.get?_eq_none.mpr (by omega)] at hnn
              cases hnn
            exact ⟨.lastLeaf items nxt hlt, by simp⟩
          · rw [if_neg heq] at hp
            split at hp
            · cases hp
            · exact ihFwd (.leaf items) value (nxt + 1) p hp
      · simp only [lookupFwd, IBTreeNode.itemsOf] at hp
        rcases hnn : items.get? nxt with _ | x <;> simp only [hnn] at hp
        · simp only [Bool.false_eq_true, if_false] at hp
          rcases hcg : children.get? nxt with _ | child <;> simp only [hcg] at hp
          · cases hp
          · rcases hgo : lookupValuePathGo A fuel child value with _ | sub <;>
              simp only [hgo] at hp
            · simp at hp
            · injection hp with hp2
              subst hp2
              obtain ⟨hv, hne⟩ := ihGo child value sub hgo
              exact ⟨.step items children nxt child sub hcg hne hv, by simp⟩
        · by_cases heq : A.equalityComparer x value = true
          · rw [if_pos heq] at hp
            injection hp with hp2
            subst hp2
            have hlt : nxt < items.length := by
              by_contra hge
              rw [List.get?_eq_none.mpr (by omega)] at hnn
              cases hnn
            exact ⟨.lastNode items children nxt hlt, by simp⟩
          · rw [if_neg heq] at hp
            rcases hcg : children.get? nxt with _ | child <;> simp only [hcg] at hp
            · cases hp
            · rcases hgo : lookupValuePathGo A fuel child value with _ | sub <;>
                simp only [hgo] at hp
              · split at hp
                · cases hp
                · exact ihFwd (.node items children) value (nxt + 1) p hp
              · injection hp with hp2
                subst hp2
                obtain ⟨hv, hne⟩ := ihGo child value sub hgo
                exact ⟨.step items children nxt child sub hcg hne hv, by simp⟩
    · intro n value prev p hp
      rcases n with items | ⟨items, children⟩
      · simp only [lookupBwd, IBTreeNode.itemsOf] at hp
        by_cases hneg : prev < 0
        · rw [if_pos hneg] at hp
          simp at hp
        · rw [if_neg hneg] at hp
          rcases hnn : items.get? prev.toNat with _ | x <;> simp only [hnn] at hp
          · simp at hp
          · by_cases heq : A.equalityComparer x value = true
            · rw [if_pos heq] at hp
              injection hp with hp2
              subst hp2
              have hlt : prev.toNat < items.length := by
                by_contra hge
                rw [List.get?_eq_none.mpr (by omega)] at hnn
                cases hnn
              exact ⟨.lastLeaf items prev.toNat hlt, by simp⟩
            · rw [if_neg heq] at hp
              split at hp
              · cases hp
              · exact ihBwd (.leaf items) value (prev - 1) p hp
      · simp only [lookupBwd, IBTreeNode.itemsOf] at hp
        by_cases hneg : prev < 0
        · rw [if_pos hneg, if_pos hneg] at hp
          simp at hp
        · rw [if_neg hneg, if_neg hneg] at hp
          rcases hnn : items.get? prev.toNat with _ | x <;> simp only [hnn] at hp
          · simp only [Bool.false_eq_true, if_false] at hp
            rcases hcg : children.get? prev.toNat with _ | child <;> simp only [hcg] at hp
            · cases hp
            · rcases hgo : lookupValuePathGo A fuel child value with _ | sub <;>
                simp only [hgo] at hp
              · simp at hp
              · injection hp with hp2
                subst hp2
                obtain ⟨hv, hne⟩ := ihGo child value sub hgo
                exact ⟨.step items children prev.toNat child sub hcg hne hv, by simp⟩
          · by_cases heq : A.equalityComparer x value = true
            · rw [if_pos heq] at hp
              injection hp with hp2
              subst hp2
              have hlt : prev.toNat < items.length := by
                by_contra hge
                rw [List.get?_eq_none.mpr (by omega)] at hnn
                cases hnn
              exact ⟨.lastNode items children prev.toNat hlt, by simp⟩
            · rw [if_neg heq] at hp
              rcases hcg : children.get? prev.toNat with _ | child <;> simp only [hcg] at hp
              · cases hp
              · rcases hgo : lookupValuePathGo A fuel child value with _ | sub <;>
                  simp only [hgo] at hp
                · split at hp
                  · cases hp
                  · exact ihBwd (.node items children) value (prev - 1) p hp
                · injection hp with hp2
                  subst hp2
                  obtain ⟨hv, hne⟩ := ihGo child value sub hgo
                  exact ⟨.step items children prev.toNat child sub hcg hne hv, by simp⟩

/-- `lookupValuePath` yields valid nonempty paths. -/
lemma lookupValuePath_valid [Inhabited α] (A : SCA α) (c : ISortedCollection α)
    (value : α) (p : List Nat) (hp : lookupValuePath A c value = some p) :
    ValidPath c.root p ∧ p ≠ [] :=
  (lookup_valid A _).1 c.root value p hp

end Immerutable

namespace Immerutable

/-! ### Removal: rebalance accounting helpers -/

lemma map_sum_tail (f : β → Nat) (l : List β) (h : 0 < l.length) :
    (l.tail.map f).sum + f ((getElem l (0) h)) = (l.map f).sum := by
  rcases l with _ | ⟨a, t⟩
  · simp at h
  · simp [Nat.add_comm]

lemma map_sum_dropLast (f : β → Nat) (l : List β) (h : 0 < l.length) :
    (l.dropLast.map f).sum + f ((getElem l (l.length - 1) (by omega))) = (l.map f).sum := by
  have hne : l ≠ [] := by rintro rfl; simp at h
  conv_rhs => rw [← List.dropLast_append_getLast hne]
  rw [List.map_append, List.sum_append, List.getLast_eq_getElem l hne]
  simp

lemma map_sum_eraseIdx (f : β → Nat) (l : List β) (k : Nat) (h : k < l.length) :
    ((l.eraseIdx k).map f).sum + f ((getElem l (k) h)) = (l.map f).sum := by
  rw [List.eraseIdx_eq_take_drop_succ, List.map_append, List.sum_append]
  have hdec := map_sum_decomp f l k h
  omega

lemma map_sum_set (f : β → Nat) (l : List β) (k : Nat) (c : β) (h : k < l.length) :
    ((l.set k c).map f).sum + f ((getElem l (k) h)) = (l.map f).sum + f c := by
  rw [List.set_eq_take_append_cons_drop, if_pos h, List.map_append, List.sum_append,
    List.map_cons, List.sum_cons]
  have hdec := map_sum_decomp f l k h
  omega

lemma WFN_NearWFN {A : SCA α} {h : Nat} {n : IBTreeNode α} (hw : WFN A h n) :
    NearWFN A h n := by
  cases hw with
  | leaf items h1 h2 => exact h2
  | node hh items children hcard hmin hmax hch =>
    exact ⟨hcard, by omega, hmax, hch⟩

lemma nearWFN_not_deficient {A : SCA α} {h : Nat} {n : IBTreeNode α}
    (h4 : 4 ≤ A.maxItemsPerLevel)
    (hnear : NearWFN A h n)
    (hnd : isNodeDeficient A n n.isLeafNode = false) : WFN A h n := by
  rcases n with items | ⟨items, children⟩ <;> rcases h with _ | hh
  · simp only [isNodeDeficient, IBTreeNode.isLeafNode, if_true,
      IBTreeNode.itemsOf, decide_eq_false_iff_not, not_lt] at hnd
    have hmin2 := WFN_min_le_two (A := A) h4
    exact .leaf items (by omega) hnear
  · exact hnear.elim
  · exact hnear.elim
  · obtain ⟨hcard, hlo, hhi, hch⟩ := hnear
    simp only [isNodeDeficient, IBTreeNode.isLeafNode, IBTreeNode.childrenOf,
      Bool.false_eq_true, if_false, decide_eq_false_iff_not, not_lt] at hnd
    exact .node hh items children hcard hnd hhi hch

end Immerutable

namespace Immerutable

lemma get?_eq_some_getElem (l : List β) (i : Nat) (h : i < l.length) :
    l.get? i = some ((getElem l (i) h)) := by
  rw [List.get?_eq_get h]
  simp

lemma forall_mem_of_getElem {l : List (IBTreeNode α)} {P : IBTreeNode α → Prop}
    (h : ∀ (k : Nat) (hk : k < l.length), P ((getElem l (k) hk))) : ∀ c ∈ l, P c := by
  intro c hc
  obtain ⟨k, hk, rfl⟩ := List.mem_iff_getElem.mp hc
  exact h k hk

lemma map_sum_pair (f : β → Nat) (l : List β) (h2 : l.length = 2) :
    (l.map f).sum = f ((getElem l (0) (by omega))) + f ((getElem l (1) (by omega))) := by
  match l, h2 with
  | [a, b], _ => simp

lemma isNodeDeficient_leaf (A : SCA α) (its : List α) :
    isNodeDeficient A (.leaf its) true = decide (its.length < A.minItemsPerLevel) := by
  simp [isNodeDeficient, IBTreeNode.itemsOf]

lemma isNodeDeficient_node (A : SCA α) (its : List α) (cs : List (IBTreeNode α)) :
    isNodeDeficient A (.node its cs) false =
      decide (cs.length < A.minItemsPerLevel) := by
  simp [isNodeDeficient, IBTreeNode.childrenOf]

lemma canNodeLoseItem_leaf (A : SCA α) (its : List α) :
    canNodeLoseItem A (.leaf its) true = decide (A.minItemsPerLevel < its.length) := by
  simp [canNodeLoseItem, IBTreeNode.itemsOf, gt_iff_lt]

lemma canNodeLoseItem_node (A : SCA α) (its : List α) (cs : List (IBTreeNode α)) :
    canNodeLoseItem A (.node its cs) false =
      decide (A.minItemsPerLevel < cs.length) := by
  simp [canNodeLoseItem, IBTreeNode.childrenOf, gt_iff_lt]

end Immerutable


namespace Immerutable

/-- `rebalance` at a node whose children are leaves: fixing child `ci` keeps
the flatten length and the cardinality, removes at most one child, and leaves
every child well formed; a root merge of a two-child node promotes to a well
formed node instead. -/
lemma rebalanceAt_spec_zero [Inhabited α] (A : SCA α) (h4 : 4 ≤ A.maxItemsPerLevel)
    (isRoot : Bool) (items : List α) (cs : List (IBTreeNode α)) (ci : Nat)
    (hcard : items.length + 1 = cs.length)
    (h2le : 2 ≤ cs.length)
    (hci : ci < cs.length)
    (hothers : ∀ (k : Nat) (hk : k < cs.length), k ≠ ci → WFN A 0 ((getElem cs (k) hk)))
    (hnear : NearWFN A 0 ((getElem cs (ci) hci))) :
    (flattenB (rebalanceAt A isRoot (.node items cs) ci)).length =
      (flattenB (.node items cs)).length ∧
    ((∃ (items' : List α) (cs' : List (IBTreeNode α)),
        rebalanceAt A isRoot (.node items cs) ci = .node items' cs' ∧
        items'.length + 1 = cs'.length ∧
        cs.length - 1 ≤ cs'.length ∧ cs'.length ≤ cs.length ∧
        (isRoot = true → 2 ≤ cs'.length) ∧
        ∀ c ∈ cs', WFN A 0 c) ∨
      (isRoot = true ∧ WFN A 0 (rebalanceAt A isRoot (.node items cs) ci))) := by
  have hmin2 := WFN_min_le_two (A := A) h4
  have hminmax : 2 * A.minItemsPerLevel ≤ A.maxItemsPerLevel := by
    show 2 * (A.maxItemsPerLevel / 2) ≤ A.maxItemsPerLevel
    omega
  rcases hc0 : (getElem cs (ci) hci) with cits | ⟨cnits, cncs⟩
  case node => rw [hc0] at hnear; exact hnear.elim
  have hnr : cits.length ≤ A.maxItemsPerLevel := by rw [hc0] at hnear; exact hnear
  have hcget : cs.get? ci = some (.leaf cits) := by
    rw [get?_eq_some_getElem cs ci hci]
    exact congrArg some hc0
  have hFLci : (flattenB ((getElem cs (ci) hci))).length = cits.length := by rw [hc0]; rfl
  simp only [rebalanceAt, hcget, IBTreeNode.isLeafNode, isNodeDeficient_leaf,
    decide_eq_true_eq]
  by_cases hdef : cits.length < A.minItemsPerLevel
  case neg =>
    rw [if_pos hdef]
    refine ⟨rfl, Or.inl ⟨items, cs, rfl, hcard, by omega, le_rfl, fun _ => by omega, ?_⟩⟩
    refine forall_mem_of_getElem ?_
    intro k hk
    by_cases hkci : k = ci
    · subst hkci
      rw [hc0]
      exact .leaf cits (by omega) hnr
    · exact hothers k hk hkci
  case pos =>
  rw [if_neg (not_not_intro hdef)]
  have hciItems : ci ≤ items.length := by omega
  by_cases hlen1 : ci + 1 < cs.length
  case pos =>
    have wr := hothers (ci + 1) hlen1 (by omega)
    rcases hr0 : (getElem cs (ci + 1) hlen1) with rits | ⟨rnits, rncs⟩
    case node => rw [hr0] at wr; cases wr
    rw [hr0] at wr
    cases wr with
    | leaf _ wr1 wr2 =>
    have hrsget : cs.get? (ci + 1) = some (.leaf rits) := by
      rw [get?_eq_some_getElem cs (ci + 1) hlen1]
      exact congrArg some hr0
    have hFLr : (flattenB ((getElem cs (ci + 1) hlen1))).length = rits.length := by rw [hr0]; rfl
    by_cases hcanr : A.minItemsPerLevel < rits.length
    case pos =>
      have hRtrue : (match cs.get? (ci + 1) with
          | some rs => canNodeLoseItem A rs true
          | none => false) = true := by
        simp only [hrsget, canNodeLoseItem_leaf]
        simpa using hcanr
      rw [hRtrue, if_pos rfl]
      simp only [hrsget, Option.getD_some, IBTreeNode.itemsOf]
      refine ⟨?_, Or.inl ⟨_, _, rfl, ?_, ?_, ?_, ?_, ?_⟩⟩
      · rw [flattenB_node_length items cs hcard,
          flattenB_node_length _ _ (by simp [List.length_set] <;> omega)]
        have hs1 := map_sum_set (fun c => (flattenB c).length) cs ci
          (.leaf (cits ++ [items.getD ci default])) hci
        have hs2 := map_sum_set (fun c => (flattenB c).length)
          (cs.set ci (.leaf (cits ++ [items.getD ci default]))) (ci + 1)
          (.leaf rits.tail) (by simp [List.length_set] <;> omega)
        have hg : (getElem (cs.set ci (.leaf (cits ++ [items.getD ci default]))) (ci + 1) (by
            simp [List.length_set] <;> omega)) = (getElem cs (ci + 1) hlen1) :=
          List.getElem_set_ne (by omega) _
        rw [hg, hFLr] at hs2
        have e1 : (flattenB (IBTreeNode.leaf (cits ++ [items.getD ci default]))).length =
            cits.length + 1 := by simp [flattenB] <;> omega
        have e2 : (flattenB (IBTreeNode.leaf rits.tail)).length = rits.length - 1 := by
          simp [flattenB] <;> omega
        rw [e1, hFLci] at hs1
        rw [e2] at hs2
        simp only [List.length_set]
        omega
      · simp [List.length_set] <;> omega
      · simp [List.length_set] <;> omega
      · simp [List.length_set] <;> omega
      · intro h5
        simp [List.length_set] <;> omega
      · refine forall_mem_of_getElem ?_
        intro k hk
        simp only [List.length_set] at hk
        by_cases hk1 : k = ci + 1
        · subst hk1
          rw [List.getElem_set_self (by simp [List.length_set] <;> omega)]
          refine .leaf _ (by simp <;> omega) (by simp <;> omega)
        · rw [List.getElem_set_ne (by omega) (by simp [List.length_set] <;> omega)]
          by_cases hk2 : k = ci
          · subst hk2
            rw [List.getElem_set_self (by simp [List.length_set] <;> omega)]
            refine .leaf _ (by simp <;> omega) (by simp <;> omega)
          · rw [List.getElem_set_ne (by omega) (by simp [List.length_set] <;> omega)]
            exact hothers k hk hk2
    case neg =>
      have hRfalse : (match cs.get? (ci + 1) with
          | some rs => canNodeLoseItem A rs true
          | none => false) = false := by
        simp only [hrsget, canNodeLoseItem_leaf]
        simpa using hcanr
      rw [hRfalse]
      simp only [Bool.false_eq_true, if_false]
      by_cases hci0 : ci = 0
      · -- merge with the right sibling (no left sibling)
        subst hci0
        have hls0 : (if (0 : Nat) = 0 then (none : Option (IBTreeNode α))
            else cs.get? (0 - 1)) = none := if_pos rfl
        rw [hls0]
        simp only [Bool.false_eq_true, if_false]
        have hlen1b : 0 + 1 < cs.length := by omega
        have wrb := hothers (0 + 1) hlen1b (by omega)
        rcases hr0b : (getElem cs (0 + 1) hlen1b) with rits | ⟨rnits, rncs⟩
        · rw [hr0b] at wrb
          cases wrb with
          | leaf _ wr1 wr2 =>
          have hrsgetb : cs.get? (0 + 1) = some (.leaf rits) := by
            rw [get?_eq_some_getElem cs (0 + 1) hlen1b]
            exact congrArg some hr0b
          have hFLrb : (flattenB ((getElem cs (0 + 1) hlen1b))).length = rits.length := by
            rw [hr0b]; rfl
          have hnotr : ¬ A.minItemsPerLevel < rits.length := by
            simp only [hrsgetb, canNodeLoseItem_leaf] at hRfalse
            simpa using hRfalse
          simp only [hrsgetb, Option.getD_some, IBTreeNode.itemsOf]
          have e1 : (flattenB (IBTreeNode.leaf (cits ++ [items.getD 0 default] ++ rits))).length
              = cits.length + 1 + rits.length := by simp [flattenB] <;> omega
          by_cases hpr : (decide ((items.eraseIdx 0).length = 0) && isRoot) = true
          · rw [if_pos hpr]
            rw [Bool.and_eq_true, decide_eq_true_eq] at hpr
            have hil : items.length = 1 := by
              have h5 := hpr.1
              rw [List.length_eraseIdx_of_lt (by omega)] at h5
              omega
            refine ⟨?_, Or.inr ⟨hpr.2, ?_⟩⟩
            · rw [e1, flattenB_node_length items cs hcard,
                map_sum_pair _ cs (by omega)]
              have hx0 : (getElem cs (0) (by omega)) = (getElem cs (0) (by omega)) := rfl
              rw [hFLci]
              have hx1 : (flattenB ((getElem cs (1) (by omega)))).length = rits.length := by
                have hx2 : (getElem cs (1) (by omega)) = (getElem cs (0 + 1) hlen1b) := rfl
                rw [hx2, hr0b]; rfl
              rw [hx1]
              omega
            · exact .leaf _ (by simp <;> omega) (by simp <;> omega)
          · rw [if_neg hpr]
            refine ⟨?_, Or.inl ⟨_, _, rfl, ?_, ?_, ?_, ?_, ?_⟩⟩
            · rw [flattenB_node_length items cs hcard,
                flattenB_node_length _ _ (by
                  rw [List.length_eraseIdx_of_lt (by omega),
                    List.length_eraseIdx_of_lt (by simp [List.length_set] <;> omega)]
                  simp [List.length_set] <;> omega)]
              have hs1 := map_sum_set (fun c => (flattenB c).length) cs 0
                (.leaf (cits ++ [items.getD 0 default] ++ rits)) (by omega)
              have hs2 := map_sum_eraseIdx (fun c => (flattenB c).length)
                (cs.set 0 (.leaf (cits ++ [items.getD 0 default] ++ rits))) (0 + 1)
                (by simp [List.length_set] <;> omega)
              have hg : (getElem (cs.set 0 (.leaf (cits ++ [items.getD 0 default] ++ rits))) (0 + 1) (by
                  simp [List.length_set] <;> omega)) = (getElem cs (0 + 1) hlen1b) :=
                List.getElem_set_ne (by omega) _
              rw [hg, hFLrb] at hs2
              rw [e1, hFLci] at hs1
              rw [List.length_eraseIdx_of_lt (by omega)]
              omega
            · rw [List.length_eraseIdx_of_lt (by omega),
                List.length_eraseIdx_of_lt (by simp [List.length_set] <;> omega)]
              simp [List.length_set] <;> omega
            · rw [List.length_eraseIdx_of_lt (by simp [List.length_set] <;> omega)]
              simp [List.length_set] <;> omega
            · rw [List.length_eraseIdx_of_lt (by simp [List.length_set] <;> omega)]
              simp [List.length_set] <;> omega
            · intro h5
              subst h5
              simp only [Bool.and_true, decide_eq_true_eq] at hpr
              rw [List.length_eraseIdx_of_lt (by omega)] at hpr
              rw [List.length_eraseIdx_of_lt (by simp [List.length_set] <;> omega)]
              simp [List.length_set] <;> omega
            · refine forall_mem_of_getElem ?_
              intro k hk
              have hkb : k < cs.length - 1 := by
                rw [List.length_eraseIdx_of_lt (by simp [List.length_set] <;> omega)] at hk
                simpa [List.length_set] using hk
              by_cases hk0 : k = 0
              · subst hk0
                rw [List.getElem_eraseIdx_of_lt _ _ _ (by
                    rw [List.length_eraseIdx_of_lt (by simp [List.length_set] <;> omega)]
                    simp [List.length_set] <;> omega) (by omega)]
                rw [List.getElem_set_self (by simp [List.length_set] <;> omega)]
                exact .leaf _ (by simp <;> omega) (by simp <;> omega)
              · rw [List.getElem_eraseIdx_of_ge _ _ _ (by
                    rw [List.length_eraseIdx_of_lt (by simp [List.length_set] <;> omega)]
                    simp [List.length_set] <;> omega) (by omega)]
                rw [List.getElem_set_ne (by omega) (by simp [List.length_set] <;> omega)]
                exact hothers (k + 1) (by omega) (by omega)
        · rw [hr0b] at wrb
          cases wrb
      · -- left sibling exists
        have hlm : ci - 1 < cs.length := by omega
        have wl := hothers (ci - 1) hlm (by omega)
        rcases hl0 : (getElem cs (ci - 1) hlm) with lits | ⟨lnits, lncs⟩
        · rw [hl0] at wl
          cases wl with
          | leaf _ wl1 wl2 =>
          have hlsget : cs.get? (ci - 1) = some (.leaf lits) := by
            rw [get?_eq_some_getElem cs (ci - 1) hlm]
            exact congrArg some hl0
          have hFLl : (flattenB ((getElem cs (ci - 1) hlm))).length = lits.length := by
            rw [hl0]; rfl
          have hlsred : (if ci = 0 then (none : Option (IBTreeNode α))
              else cs.get? (ci - 1)) = some (.leaf lits) := by
            rw [if_neg hci0, hlsget]
          rw [hlsred]
          simp only [canNodeLoseItem_leaf, decide_eq_true_eq, Option.getD_some,
            IBTreeNode.itemsOf]
          by_cases hcanl : A.minItemsPerLevel < lits.length
          · -- rotate from the left sibling
            rw [if_pos hcanl]
            refine ⟨?_, Or.inl ⟨_, _, rfl, ?_, ?_, ?_, ?_, ?_⟩⟩
            · rw [flattenB_node_length items cs hcard,
                flattenB_node_length _ _ (by simp [List.length_set] <;> omega)]
              have hs1 := map_sum_set (fun c => (flattenB c).length) cs (ci - 1)
                (.leaf lits.dropLast) hlm
              have hs2 := map_sum_set (fun c => (flattenB c).length)
                (cs.set (ci - 1) (.leaf lits.dropLast)) ci
                (.leaf (items.getD (ci - 1) default :: cits))
                (by simp [List.length_set] <;> omega)
              have hg : (getElem (cs.set (ci - 1) (.leaf lits.dropLast)) (ci) (by
                  simp [List.length_set] <;> omega)) = (getElem cs (ci) hci) :=
                List.getElem_set_ne (by omega) _
              rw [hg, hFLci] at hs2
              have e1 : (flattenB (IBTreeNode.leaf lits.dropLast)).length =
                  lits.length - 1 := by simp [flattenB] <;> omega
              have e2 : (flattenB (IBTreeNode.leaf (items.getD (ci - 1) default :: cits))).length
                  = cits.length + 1 := by simp [flattenB] <;> omega
              rw [e1, hFLl] at hs1
              rw [e2] at hs2
              simp only [List.length_set]
              omega
            · simp [List.length_set] <;> omega
            · simp [List.length_set] <;> omega
            · simp [List.length_set] <;> omega
            · intro h5
              simp [List.length_set] <;> omega
            · refine forall_mem_of_getElem ?_
              intro k hk
              simp only [List.length_set] at hk
              by_cases hk1 : k = ci
              · subst hk1
                rw [List.getElem_set_self (by simp [List.length_set] <;> omega)]
                refine .leaf _ (by simp <;> omega) (by simp <;> omega)
              · rw [List.getElem_set_ne (by omega) (by simp [List.length_set] <;> omega)]
                by_cases hk2 : k = ci - 1
                · subst hk2
                  rw [List.getElem_set_self (by simp [List.length_set] <;> omega)]
                  refine .leaf _ (by simp <;> omega) (by simp <;> omega)
                · rw [List.getElem_set_ne (by omega) (by simp [List.length_set] <;> omega)]
                  exact hothers k hk (by omega)
          · -- merge with the left sibling
            rw [if_neg hcanl]
            have e1 : (flattenB (IBTreeNode.leaf (lits ++ [items.getD (ci - 1) default] ++
                cits))).length = lits.length + 1 + cits.length := by simp [flattenB] <;> omega
            by_cases hpr : (decide ((items.eraseIdx (ci - 1)).length = 0) && isRoot) = true
            · rw [if_pos hpr]
              rw [Bool.and_eq_true, decide_eq_true_eq] at hpr
              have hil : items.length = 1 := by
                have h5 := hpr.1
                rw [List.length_eraseIdx_of_lt (by omega)] at h5
                omega
              have hci1 : ci = 1 := by omega
              subst hci1
              refine ⟨?_, Or.inr ⟨hpr.2, ?_⟩⟩
              · rw [e1, flattenB_node_length items cs hcard,
                  map_sum_pair _ cs (by omega)]
                have hx0 : (flattenB ((getElem cs (0) (by omega)))).length = lits.length := by
                  have hx2 : (getElem cs (0) (by omega)) = (getElem cs (1 - 1) hlm) := rfl
                  rw [hx2, hl0]; rfl
                rw [hx0, hFLci]
                omega
              · exact .leaf _ (by simp <;> omega) (by simp <;> omega)
            · rw [if_neg hpr]
              refine ⟨?_, Or.inl ⟨_, _, rfl, ?_, ?_, ?_, ?_, ?_⟩⟩
              · rw [flattenB_node_length items cs hcard,
                  flattenB_node_length _ _ (by
                    rw [List.length_eraseIdx_of_lt (by omega),
                      List.length_eraseIdx_of_lt (by simp [List.length_set] <;> omega)]
                    simp [List.length_set] <;> omega)]
                have hs1 := map_sum_set (fun c => (flattenB c).length) cs (ci - 1)
                  (.leaf (lits ++ [items.getD (ci - 1) default] ++ cits)) hlm
                have hs2 := map_sum_eraseIdx (fun c => (flattenB c).length)
                  (cs.set (ci - 1) (.leaf (lits ++ [items.getD (ci - 1) default] ++ cits)))
                  ci (by simp [List.length_set] <;> omega)
                have hg : (getElem (cs.set (ci - 1) (.leaf (lits ++ [items.getD (ci - 1) default] ++
                    cits))) (ci) (by simp [List.length_set] <;> omega)) = (getElem cs (ci) hci) :=
                  List.getElem_set_ne (by omega) _
                rw [hg, hFLci] at hs2
                rw [e1, hFLl] at hs1
                rw [List.length_eraseIdx_of_lt (by omega)]
                omega
              · rw [List.length_eraseIdx_of_lt (by omega),
                  List.length_eraseIdx_of_lt (by simp [List.length_set] <;> omega)]
                simp [List.length_set] <;> omega
              · rw [List.length_eraseIdx_of_lt (by simp [List.length_set] <;> omega)]
                simp [List.length_set] <;> omega
              · rw [List.length_eraseIdx_of_lt (by simp [List.length_set] <;> omega)]
                simp [List.length_set] <;> omega
              · intro h5
                subst h5
                simp only [Bool.and_true, decide_eq_true_eq] at hpr
                rw [List.length_eraseIdx_of_lt (by omega)] at hpr
                rw [List.length_eraseIdx_of_lt (by simp [List.length_set] <;> omega)]
                simp [List.length_set] <;> omega
              · refine forall_mem_of_getElem ?_
                intro k hk
                have hkb : k < cs.length - 1 := by
                  rw [List.length_eraseIdx_of_lt (by simp [List.length_set] <;> omega)] at hk
                  simpa [List.length_set] using hk
                by_cases hklt : k < ci
                · rw [List.getElem_eraseIdx_of_lt _ _ _ (by
                      rw [List.length_eraseIdx_of_lt (by simp [List.length_set] <;> omega)]
                      simp [List.length_set] <;> omega) hklt]
                  by_cases hk2 : k = ci - 1
                  · subst hk2
                    rw [List.getElem_set_self (by simp [List.length_set] <;> omega)]
                    exact .leaf _ (by simp <;> omega) (by simp <;> omega)
                  · rw [List.getElem_set_ne (by omega) (by simp [List.length_set] <;> omega)]
                    exact hothers k (by omega) (by omega)
                · rw [List.getElem_eraseIdx_of_ge _ _ _ (by
                      rw [List.length_eraseIdx_of_lt (by simp [List.length_set] <;> omega)]
                      simp [List.length_set] <;> omega) (by omega)]
                  rw [List.getElem_set_ne (by omega) (by simp [List.length_set] <;> omega)]
                  exact hothers (k + 1) (by omega) (by omega)
        · rw [hl0] at wl
          cases wl
  case neg =>
    have hrsnone : cs.get? (ci + 1) = none := List.get?_eq_none.mpr (by omega)
    have hRfalse : (match cs.get? (ci + 1) with
        | some rs => canNodeLoseItem A rs true
        | none => false) = false := by
      simp only [hrsnone]
    rw [hRfalse]
    simp only [Bool.false_eq_true, if_false]
    by_cases hci0 : ci = 0
    · -- merge with the right sibling (no left sibling)
      subst hci0
      have hls0 : (if (0 : Nat) = 0 then (none : Option (IBTreeNode α))
          else cs.get? (0 - 1)) = none := if_pos rfl
      rw [hls0]
      simp only [Bool.false_eq_true, if_false]
      have hlen1b : 0 + 1 < cs.length := by omega
      have wrb := hothers (0 + 1) hlen1b (by omega)
      rcases hr0b : (getElem cs (0 + 1) hlen1b) with rits | ⟨rnits, rncs⟩
      · rw [hr0b] at wrb
        cases wrb with
        | leaf _ wr1 wr2 =>
        have hrsgetb : cs.get? (0 + 1) = some (.leaf rits) := by
          rw [get?_eq_some_getElem cs (0 + 1) hlen1b]
          exact congrArg some hr0b
        have hFLrb : (flattenB ((getElem cs (0 + 1) hlen1b))).length = rits.length := by
          rw [hr0b]; rfl
        have hnotr : ¬ A.minItemsPerLevel < rits.length := by
          simp only [hrsgetb, canNodeLoseItem_leaf] at hRfalse
          simpa using hRfalse
        simp only [hrsgetb, Option.getD_some, IBTreeNode.itemsOf]
        have e1 : (flattenB (IBTreeNode.leaf (cits ++ [items.getD 0 default] ++ rits))).length
            = cits.length + 1 + rits.length := by simp [flattenB] <;> omega
        by_cases hpr : (decide ((items.eraseIdx 0).length = 0) && isRoot) = true
        · rw [if_pos hpr]
          rw [Bool.and_eq_true, decide_eq_true_eq] at hpr
          have hil : items.length = 1 := by
            have h5 := hpr.1
            rw [List.length_eraseIdx_of_lt (by omega)] at h5
            omega
          refine ⟨?_, Or.inr ⟨hpr.2, ?_⟩⟩
          · rw [e1, flattenB_node_length items cs hcard,
              map_sum_pair _ cs (by omega)]
            have hx0 : (getElem cs (0) (by omega)) = (getElem cs (0) (by omega)) := rfl
            rw [hFLci]
            have hx1 : (flattenB ((getElem cs (1) (by omega)))).length = rits.length := by
              have hx2 : (getElem cs (1) (by omega)) = (getElem cs (0 + 1) hlen1b) := rfl
              rw [hx2, hr0b]; rfl
            rw [hx1]
            omega
          · exact .leaf _ (by simp <;> omega) (by simp <;> omega)
        · rw [if_neg hpr]
          refine ⟨?_, Or.inl ⟨_, _, rfl, ?_, ?_, ?_, ?_, ?_⟩⟩
          · rw [flattenB_node_length items cs hcard,
              flattenB_node_length _ _ (by
                rw [List.length_eraseIdx_of_lt (by omega),
                  List.length_eraseIdx_of_lt (by simp [List.length_set] <;> omega)]
                simp [List.length_set] <;> omega)]
            have hs1 := map_sum_set (fun c => (flattenB c).length) cs 0
              (.leaf (cits ++ [items.getD 0 default] ++ rits)) (by omega)
            have hs2 := map_sum_eraseIdx (fun c => (flattenB c).length)
              (cs.set 0 (.leaf (cits ++ [items.getD 0 default] ++ rits))) (0 + 1)
              (by simp [List.length_set] <;> omega)
            have hg : (getElem (cs.set 0 (.leaf (cits ++ [items.getD 0 default] ++ rits))) (0 + 1) (by
                simp [List.length_set] <;> omega)) = (getElem cs (0 + 1) hlen1b) :=
              List.getElem_set_ne (by omega) _
            rw [hg, hFLrb] at hs2
            rw [e1, hFLci] at hs1
            rw [List.length_eraseIdx_of_lt (by omega)]
            omega
          · rw [List.length_eraseIdx_of_lt (by omega),
              List.length_eraseIdx_of_lt (by simp [List.length_set] <;> omega)]
            simp [List.length_set] <;> omega
          · rw [List.length_eraseIdx_of_lt (by simp [List.length_set] <;> omega)]
            simp [List.length_set] <;> omega
          · rw [List.length_eraseIdx_of_lt (by simp [List.length_set] <;> omega)]
            simp [List.length_set] <;> omega
          · intro h5
            subst h5
            simp only [Bool.and_true, decide_eq_true_eq] at hpr
            rw [List.length_eraseIdx_of_lt (by omega)] at hpr
            rw [List.length_eraseIdx_of_lt (by simp [List.length_set] <;> omega)]
            simp [List.length_set] <;> omega
          · refine forall_mem_of_getElem ?_
            intro k hk
            have hkb : k < cs.length - 1 := by
              rw [List.length_eraseIdx_of_lt (by simp [List.length_set] <;> omega)] at hk
              simpa [List.length_set] using hk
            by_cases hk0 : k = 0
            · subst hk0
              rw [List.getElem_eraseIdx_of_lt _ _ _ (by
                  rw [List.length_eraseIdx_of_lt (by simp [List.length_set] <;> omega)]
                  simp [List.length_set] <;> omega) (by omega)]
              rw [List.getElem_set_self (by simp [List.length_set] <;> omega)]
              exact .leaf _ (by simp <;> omega) (by simp <;> omega)
            · rw [List.getElem_eraseIdx_of_ge _ _ _ (by
                  rw [List.length_eraseIdx_of_lt (by simp [List.length_set] <;> omega)]
                  simp [List.length_set] <;> omega) (by omega)]
              rw [List.getElem_set_ne (by omega) (by simp [List.length_set] <;> omega)]
              exact hothers (k + 1) (by omega) (by omega)
      · rw [hr0b] at wrb
        cases wrb
    · -- left sibling exists
      have hlm : ci - 1 < cs.length := by omega
      have wl := hothers (ci - 1) hlm (by omega)
      rcases hl0 : (getElem cs (ci - 1) hlm) with lits | ⟨lnits, lncs⟩
      · rw [hl0] at wl
        cases wl with
        | leaf _ wl1 wl2 =>
        have hlsget : cs.get? (ci - 1) = some (.leaf lits) := by
          rw [get?_eq_some_getElem cs (ci - 1) hlm]
          exact congrArg some hl0
        have hFLl : (flattenB ((getElem cs (ci - 1) hlm))).length = lits.length := by
          rw [hl0]; rfl
        have hlsred : (if ci = 0 then (none : Option (IBTreeNode α))
            else cs.get? (ci - 1)) = some (.leaf lits) := by
          rw [if_neg hci0, hlsget]
        rw [hlsred]
        simp only [canNodeLoseItem_leaf, decide_eq_true_eq, Option.getD_some,
          IBTreeNode.itemsOf]
        by_cases hcanl : A.minItemsPerLevel < lits.length
        · -- rotate from the left sibling
          rw [if_pos hcanl]
          refine ⟨?_, Or.inl ⟨_, _, rfl, ?_, ?_, ?_, ?_, ?_⟩⟩
          · rw [flattenB_node_length items cs hcard,
              flattenB_node_length _ _ (by simp [List.length_set] <;> omega)]
            have hs1 := map_sum_set (fun c => (flattenB c).length) cs (ci - 1)
              (.leaf lits.dropLast) hlm
            have hs2 := map_sum_set (fun c => (flattenB c).length)
              (cs.set (ci - 1) (.leaf lits.dropLast)) ci
              (.leaf (items.getD (ci - 1) default :: cits))
              (by simp [List.length_set] <;> omega)
            have hg : (getElem (cs.set (ci - 1) (.leaf lits.dropLast)) (ci) (by
                simp [List.length_set] <;> omega)) = (getElem cs (ci) hci) :=
              List.getElem_set_ne (by omega) _
            rw [hg, hFLci] at hs2
            have e1 : (flattenB (IBTreeNode.leaf lits.dropLast)).length =
                lits.length - 1 := by simp [flattenB] <;> omega
            have e2 : (flattenB (IBTreeNode.leaf (items.getD (ci - 1) default :: cits))).length
                = cits.length + 1 := by simp [flattenB] <;> omega
            rw [e1, hFLl] at hs1
            rw [e2] at hs2
            simp only [List.length_set]
            omega
          · simp [List.length_set] <;> omega
          · simp [List.length_set] <;> omega
          · simp [List.length_set] <;> omega
          · intro h5
            simp [List.length_set] <;> omega
          · refine forall_mem_of_getElem ?_
            intro k hk
            simp only [List.length_set] at hk
            by_cases hk1 : k = ci
            · subst hk1
              rw [List.getElem_set_self (by simp [List.length_set] <;> omega)]
              refine .leaf _ (by simp <;> omega) (by simp <;> omega)
            · rw [List.getElem_set_ne (by omega) (by simp [List.length_set] <;> omega)]
              by_cases hk2 : k = ci - 1
              · subst hk2
                rw [List.getElem_set_self (by simp [List.length_set] <;> omega)]
                refine .leaf _ (by simp <;> omega) (by simp <;> omega)
              · rw [List.getElem_set_ne (by omega) (by simp [List.length_set] <;> omega)]
                exact hothers k hk (by omega)
        · -- merge with the left sibling
          rw [if_neg hcanl]
          have e1 : (flattenB (IBTreeNode.leaf (lits ++ [items.getD (ci - 1) default] ++
              cits))).length = lits.length + 1 + cits.length := by simp [flattenB] <;> omega
          by_cases hpr : (decide ((items.eraseIdx (ci - 1)).length = 0) && isRoot) = true
          · rw [if_pos hpr]
            rw [Bool.and_eq_true, decide_eq_true_eq] at hpr
            have hil : items.length = 1 := by
              have h5 := hpr.1
              rw [List.length_eraseIdx_of_lt (by omega)] at h5
              omega
            have hci1 : ci = 1 := by omega
            subst hci1
            refine ⟨?_, Or.inr ⟨hpr.2, ?_⟩⟩
            · rw [e1, flattenB_node_length items cs hcard,
                map_sum_pair _ cs (by omega)]
              have hx0 : (flattenB ((getElem cs (0) (by omega)))).length = lits.length := by
                have hx2 : (getElem cs (0) (by omega)) = (getElem cs (1 - 1) hlm) := rfl
                rw [hx2, hl0]; rfl
              rw [hx0, hFLci]
              omega
            · exact .leaf _ (by simp <;> omega) (by simp <;> omega)
          · rw [if_neg hpr]
            refine ⟨?_, Or.inl ⟨_, _, rfl, ?_, ?_, ?_, ?_, ?_⟩⟩
            · rw [flattenB_node_length items cs hcard,
                flattenB_node_length _ _ (by
                  rw [List.length_eraseIdx_of_lt (by omega),
                    List.length_eraseIdx_of_lt (by simp [List.length_set] <;> omega)]
                  simp [List.length_set] <;> omega)]
              have hs1 := map_sum_set (fun c => (flattenB c).length) cs (ci - 1)
                (.leaf (lits ++ [items.getD (ci - 1) default] ++ cits)) hlm
              have hs2 := map_sum_eraseIdx (fun c => (flattenB c).length)
                (cs.set (ci - 1) (.leaf (lits ++ [items.getD (ci - 1) default] ++ cits)))
                ci (by simp [List.length_set] <;> omega)
              have hg : (getElem (cs.set (ci - 1) (.leaf (lits ++ [items.getD (ci - 1) default] ++
                  cits))) (ci) (by simp [List.length_set] <;> omega)) = (getElem cs (ci) hci) :=
                List.getElem_set_ne (by omega) _
              rw [hg, hFLci] at hs2
              rw [e1, hFLl] at hs1
              rw [List.length_eraseIdx_of_lt (by omega)]
              omega
            · rw [List.length_eraseIdx_of_lt (by omega),
                List.length_eraseIdx_of_lt (by simp [List.length_set] <;> omega)]
              simp [List.length_set] <;> omega
            · rw [List.length_eraseIdx_of_lt (by simp [List.length_set] <;> omega)]
              simp [List.length_set] <;> omega
            · rw [List.length_eraseIdx_of_lt (by simp [List.length_set] <;> omega)]
              simp [List.length_set] <;> omega
            · intro h5
              subst h5
              simp only [Bool.and_true, decide_eq_true_eq] at hpr
              rw [List.length_eraseIdx_of_lt (by omega)] at hpr
              rw [List.length_eraseIdx_of_lt (by simp [List.length_set] <;> omega)]
              simp [List.length_set] <;> omega
            · refine forall_mem_of_getElem ?_
              intro k hk
              have hkb : k < cs.length - 1 := by
                rw [List.length_eraseIdx_of_lt (by simp [List.length_set] <;> omega)] at hk
                simpa [List.length_set] using hk
              by_cases hklt : k < ci
              · rw [List.getElem_eraseIdx_of_lt _ _ _ (by
                    rw [List.length_eraseIdx_of_lt (by simp [List.length_set] <;> omega)]
                    simp [List.length_set] <;> omega) hklt]
                by_cases hk2 : k = ci - 1
                · subst hk2
                  rw [List.getElem_set_self (by simp [List.length_set] <;> omega)]
                  exact .leaf _ (by simp <;> omega) (by simp <;> omega)
                · rw [List.getElem_set_ne (by omega) (by simp [List.length_set] <;> omega)]
                  exact hothers k (by omega) (by omega)
              · rw [List.getElem_eraseIdx_of_ge _ _ _ (by
                    rw [List.length_eraseIdx_of_lt (by simp [List.length_set] <;> omega)]
                    simp [List.length_set] <;> omega) (by omega)]
                rw [List.getElem_set_ne (by omega) (by simp [List.length_set] <;> omega)]
                exact hothers (k + 1) (by omega) (by omega)
      · rw [hl0] at wl
        cases wl

end Immerutable


namespace Immerutable

set_option maxHeartbeats 1600000 in
/-- `rebalance` at a node whose children are internal nodes: same statement as
`rebalanceAt_spec_zero` one level up. -/
lemma rebalanceAt_spec_succ [Inhabited α] (A : SCA α) (h4 : 4 ≤ A.maxItemsPerLevel)
    (isRoot : Bool) (hh : Nat) (items : List α) (cs : List (IBTreeNode α)) (ci : Nat)
    (hcard : items.length + 1 = cs.length)
    (h2le : 2 ≤ cs.length)
    (hci : ci < cs.length)
    (hothers : ∀ (k : Nat) (hk : k < cs.length), k ≠ ci → WFN A (hh + 1) ((getElem cs (k) hk)))
    (hnear : NearWFN A (hh + 1) ((getElem cs (ci) hci))) :
    (flattenB (rebalanceAt A isRoot (.node items cs) ci)).length =
      (flattenB (.node items cs)).length ∧
    ((∃ (items' : List α) (cs' : List (IBTreeNode α)),
        rebalanceAt A isRoot (.node items cs) ci = .node items' cs' ∧
        items'.length + 1 = cs'.length ∧
        cs.length - 1 ≤ cs'.length ∧ cs'.length ≤ cs.length ∧
        (isRoot = true → 2 ≤ cs'.length) ∧
        ∀ c ∈ cs', WFN A (hh + 1) c) ∨
      (isRoot = true ∧ WFN A (hh + 1) (rebalanceAt A isRoot (.node items cs) ci))) := by
  have hmin2 := WFN_min_le_two (A := A) h4
  have hminmax : 2 * A.minItemsPerLevel ≤ A.maxItemsPerLevel := by
    show 2 * (A.maxItemsPerLevel / 2) ≤ A.maxItemsPerLevel
    omega
  rcases hc0 : (getElem cs (ci) hci) with cits | ⟨cits, ccs⟩
  case leaf => rw [hc0] at hnear; exact hnear.elim
  obtain ⟨hccard, hclo, hchi, hcch⟩ : cits.length + 1 = ccs.length ∧
      A.minItemsPerLevel - 1 ≤ ccs.length ∧
      ccs.length ≤ 2 * A.maxItemsPerLevel - 2 ∧ ∀ c ∈ ccs, WFN A hh c := by
    rw [hc0] at hnear; exact hnear
  have hcget : cs.get? ci = some (.node cits ccs) := by
    rw [get?_eq_some_getElem cs ci hci]
    exact congrArg some hc0
  have hFLci : (flattenB ((getElem cs (ci) hci))).length =
      (ccs.map (fun c => (flattenB c).length)).sum + cits.length := by
    rw [hc0]
    exact flattenB_node_length cits ccs hccard
  simp only [rebalanceAt, hcget, IBTreeNode.isLeafNode, isNodeDeficient_node,
    decide_eq_true_eq]
  by_cases hdef : ccs.length < A.minItemsPerLevel
  case neg =>
    rw [if_pos hdef]
    refine ⟨rfl, Or.inl ⟨items, cs, rfl, hcard, by omega, le_rfl, fun _ => by omega, ?_⟩⟩
    refine forall_mem_of_getElem ?_
    intro k hk
    by_cases hkci : k = ci
    · subst hkci
      rw [hc0]
      exact .node hh cits ccs hccard (by omega) hchi hcch
    · exact hothers k hk hkci
  case pos =>
  rw [if_neg (not_not_intro hdef)]
  have hciItems : ci ≤ items.length := by omega
  by_cases hlen1 : ci + 1 < cs.length
  case pos =>
    have wr := hothers (ci + 1) hlen1 (by omega)
    rcases hr0 : (getElem cs (ci + 1) hlen1) with rits | ⟨rits, rcs⟩
    case leaf => rw [hr0] at wr; cases wr
    rw [hr0] at wr
    cases wr with
    | node _ _ _ hrcard hrmin hrmax hrch =>
    have hrsget : cs.get? (ci + 1) = some (.node rits rcs) := by
      rw [get?_eq_some_getElem cs (ci + 1) hlen1]
      exact congrArg some hr0
    have hFLr : (flattenB ((getElem cs (ci + 1) hlen1))).length =
        (rcs.map (fun c => (flattenB c).length)).sum + rits.length := by
      rw [hr0]
      exact flattenB_node_length rits rcs hrcard
    by_cases hcanr : A.minItemsPerLevel < rcs.length
    case pos =>
      have hRtrue : (match cs.get? (ci + 1) with
          | some rs => canNodeLoseItem A rs false
          | none => false) = true := by
        simp only [hrsget, canNodeLoseItem_node]
        simpa using hcanr
      rw [hRtrue, if_pos rfl]
      simp only [hrsget, Option.getD_some, IBTreeNode.itemsOf, IBTreeNode.childrenOf]
      have hmv : rcs.getD 0 default = (getElem rcs (0) (by omega)) :=
        List.getD_eq_getElem rcs default (by omega)
      refine ⟨?_, Or.inl ⟨_, _, rfl, ?_, ?_, ?_, ?_, ?_⟩⟩
      · rw [flattenB_node_length items cs hcard,
          flattenB_node_length _ _ (by simp [List.length_set] <;> omega)]
        have hs1 := map_sum_set (fun c => (flattenB c).length) cs ci
          (.node (cits ++ [items.getD ci default]) (ccs ++ [rcs.getD 0 default])) hci
        have hs2 := map_sum_set (fun c => (flattenB c).length)
          (cs.set ci (.node (cits ++ [items.getD ci default]) (ccs ++ [rcs.getD 0 default])))
          (ci + 1) (.node rits.tail rcs.tail) (by simp [List.length_set] <;> omega)
        have hg : (getElem (cs.set ci (.node (cits ++ [items.getD ci default])
            (ccs ++ [rcs.getD 0 default]))) (ci + 1) (by
            simp [List.length_set] <;> omega)) = (getElem cs (ci + 1) hlen1) :=
          List.getElem_set_ne (by omega) _
        rw [hg, hFLr] at hs2
        have e1 : (flattenB (IBTreeNode.node (cits ++ [items.getD ci default])
            (ccs ++ [rcs.getD 0 default]))).length =
            (ccs.map (fun c => (flattenB c).length)).sum +
              (flattenB (rcs.getD 0 default)).length + (cits.length + 1) := by
          rw [flattenB_node_length _ _ (by simp <;> omega)]
          rw [List.map_append, List.sum_append]
          simp <;> omega
        have e2 : (flattenB (IBTreeNode.node rits.tail rcs.tail)).length =
            ((rcs.tail).map (fun c => (flattenB c).length)).sum + (rits.length - 1) := by
          rw [flattenB_node_length _ _ (by simp [List.length_tail] <;> omega)]
          simp [List.length_tail]
        have htl : ((rcs.tail).map (fun c => (flattenB c).length)).sum +
            (flattenB (rcs.getD 0 default)).length =
            (rcs.map (fun c => (flattenB c).length)).sum := by
          rw [hmv]
          exact map_sum_tail _ rcs (by omega)
        rw [e1, hFLci] at hs1
        rw [e2] at hs2
        simp only [List.length_set]
        omega
      · simp [List.length_set] <;> omega
      · simp [List.length_set] <;> omega
      · simp [List.length_set] <;> omega
      · intro h5
        simp [List.length_set] <;> omega
      · refine forall_mem_of_getElem ?_
        intro k hk
        simp only [List.length_set] at hk
        by_cases hk1 : k = ci + 1
        · subst hk1
          rw [List.getElem_set_self (by simp [List.length_set] <;> omega)]
          refine .node _ _ _ (by simp [List.length_tail] <;> omega)
            (by simp [List.length_tail] <;> omega) (by simp [List.length_tail] <;> omega) ?_
          intro c hcm
          exact hrch c (List.mem_of_mem_tail hcm)
        · rw [List.getElem_set_ne (by omega) (by simp [List.length_set] <;> omega)]
          by_cases hk2 : k = ci
          · subst hk2
            rw [List.getElem_set_self (by simp [List.length_set] <;> omega)]
            refine .node _ _ _ (by simp <;> omega) (by simp <;> omega) (by simp <;> omega) ?_
            intro c hcm
            rcases List.mem_append.mp hcm with hcm2 | hcm2
            · exact hcch c hcm2
            · simp only [List.mem_singleton] at hcm2
              subst hcm2
              rw [hmv]
              exact hrch _ (List.getElem_mem _)
          · rw [List.getElem_set_ne (by omega) (by simp [List.length_set] <;> omega)]
            exact hothers k hk hk2
    case neg =>
      have hRfalse : (match cs.get? (ci + 1) with
          | some rs => canNodeLoseItem A rs false
          | none => false) = false := by
        simp only [hrsget, canNodeLoseItem_node]
        simpa using hcanr
      rw [hRfalse]
      simp only [Bool.false_eq_true, if_false]
      by_cases hci0 : ci = 0
      · -- merge with the right sibling (no left sibling)
        subst hci0
        have hls0 : (if (0 : Nat) = 0 then (none : Option (IBTreeNode α))
            else cs.get? (0 - 1)) = none := if_pos rfl
        rw [hls0]
        simp only [Bool.false_eq_true, if_false]
        have hlen1b : 0 + 1 < cs.length := by omega
        have wrb := hothers (0 + 1) hlen1b (by omega)
        rcases hr0b : (getElem cs (0 + 1) hlen1b) with rits | ⟨rits, rcs⟩
        · rw [hr0b] at wrb
          cases wrb
        · rw [hr0b] at wrb
          cases wrb with
          | node _ _ _ hrcard hrmin hrmax hrch =>
          have hrsgetb : cs.get? (0 + 1) = some (.node rits rcs) := by
            rw [get?_eq_some_getElem cs (0 + 1) hlen1b]
            exact congrArg some hr0b
          have hFLrb : (flattenB ((getElem cs (0 + 1) hlen1b))).length =
              (rcs.map (fun c => (flattenB c).length)).sum + rits.length := by
            rw [hr0b]
            exact flattenB_node_length rits rcs hrcard
          have hnotr : ¬ A.minItemsPerLevel < rcs.length := by
            simp only [hrsgetb, canNodeLoseItem_node] at hRfalse
            simpa using hRfalse
          simp only [hrsgetb, Option.getD_some, IBTreeNode.itemsOf, IBTreeNode.childrenOf]
          have e1 : (flattenB (IBTreeNode.node (cits ++ [items.getD 0 default] ++ rits)
              (ccs ++ rcs))).length =
              (ccs.map (fun c => (flattenB c).length)).sum +
                (rcs.map (fun c => (flattenB c).length)).sum +
                (cits.length + 1 + rits.length) := by
            rw [flattenB_node_length _ _ (by simp <;> omega)]
            rw [List.map_append, List.sum_append]
            simp <;> omega
          have hmerged : WFN A (hh + 1) (.node (cits ++ [items.getD 0 default] ++ rits)
              (ccs ++ rcs)) := by
            refine .node _ _ _ (by simp <;> omega) (by simp <;> omega)
              (by simp <;> omega) ?_
            intro c hcm
            rcases List.mem_append.mp hcm with hcm2 | hcm2
            · exact hcch c hcm2
            · exact hrch c hcm2
          by_cases hpr : (decide ((items.eraseIdx 0).length = 0) && isRoot) = true
          · rw [if_pos hpr]
            rw [Bool.and_eq_true, decide_eq_true_eq] at hpr
            have hil : items.length = 1 := by
              have h5 := hpr.1
              rw [List.length_eraseIdx_of_lt (by omega)] at h5
              omega
            refine ⟨?_, Or.inr ⟨hpr.2, hmerged⟩⟩
            rw [e1, flattenB_node_length items cs hcard,
              map_sum_pair _ cs (by omega)]
            rw [hFLci]
            have hx1 : (flattenB ((getElem cs (1) (by omega)))).length =
                (rcs.map (fun c => (flattenB c).length)).sum + rits.length := by
              have hx2 : (getElem cs (1) (by omega)) = (getElem cs (0 + 1) hlen1b) := rfl
              rw [hx2]
              exact hFLrb
            rw [hx1]
            omega
          · rw [if_neg hpr]
            refine ⟨?_, Or.inl ⟨_, _, rfl, ?_, ?_, ?_, ?_, ?_⟩⟩
            · rw [flattenB_node_length items cs hcard,
                flattenB_node_length _ _ (by
                  rw [List.length_eraseIdx_of_lt (by omega),
                    List.length_eraseIdx_of_lt (by simp [List.length_set] <;> omega)]
                  simp [List.length_set] <;> omega)]
              have hs1 := map_sum_set (fun c => (flattenB c).length) cs 0
                (.node (cits ++ [items.getD 0 default] ++ rits) (ccs ++ rcs)) (by omega)
              have hs2 := map_sum_eraseIdx (fun c => (flattenB c).length)
                (cs.set 0 (.node (cits ++ [items.getD 0 default] ++ rits) (ccs ++ rcs)))
                (0 + 1) (by simp [List.length_set] <;> omega)
              have hg : (getElem (cs.set 0 (.node (cits ++ [items.getD 0 default] ++ rits)
                  (ccs ++ rcs))) (0 + 1) (by
                  simp [List.length_set] <;> omega)) = (getElem cs (0 + 1) hlen1b) :=
                List.getElem_set_ne (by omega) _
              rw [hg, hFLrb] at hs2
              rw [e1, hFLci] at hs1
              rw [List.length_eraseIdx_of_lt (by omega)]
              omega
            · rw [List.length_eraseIdx_of_lt (by omega),
                List.length_eraseIdx_of_lt (by simp [List.length_set] <;> omega)]
              simp [List.length_set] <;> omega
            · rw [List.length_eraseIdx_of_lt (by simp [List.length_set] <;> omega)]
              simp [List.length_set] <;> omega
            · rw [List.length_eraseIdx_of_lt (by simp [List.length_set] <;> omega)]
              simp [List.length_set] <;> omega
            · intro h5
              subst h5
              simp only [Bool.and_true, decide_eq_true_eq] at hpr
              rw [List.length_eraseIdx_of_lt (by omega)] at hpr
              rw [List.length_eraseIdx_of_lt (by simp [List.length_set] <;> omega)]
              simp [List.length_set] <;> omega
            · refine forall_mem_of_getElem ?_
              intro k hk
              have hkb : k < cs.length - 1 := by
                rw [List.length_eraseIdx_of_lt (by simp [List.length_set] <;> omega)] at hk
                simpa [List.length_set] using hk
              by_cases hk0 : k = 0
              · subst hk0
                rw [List.getElem_eraseIdx_of_lt _ _ _ (by
                    rw [List.length_eraseIdx_of_lt (by simp [List.length_set] <;> omega)]
                    simp [List.length_set] <;> omega) (by omega)]
                rw [List.getElem_set_self (by simp [List.length_set] <;> omega)]
                exact hmerged
              · rw [List.getElem_eraseIdx_of_ge _ _ _ (by
                    rw [List.length_eraseIdx_of_lt (by simp [List.length_set] <;> omega)]
                    simp [List.length_set] <;> omega) (by omega)]
                rw [List.getElem_set_ne (by omega) (by simp [List.length_set] <;> omega)]
                exact hothers (k + 1) (by omega) (by omega)
      · -- left sibling exists
        have hlm : ci - 1 < cs.length := by omega
        have wl := hothers (ci - 1) hlm (by omega)
        rcases hl0 : (getElem cs (ci - 1) hlm) with lits | ⟨lits, lcs⟩
        · rw [hl0] at wl
          cases wl
        · rw [hl0] at wl
          cases wl with
          | node _ _ _ hlcard hlmin hlmax hlch =>
          have hlsget : cs.get? (ci - 1) = some (.node lits lcs) := by
            rw [get?_eq_some_getElem cs (ci - 1) hlm]
            exact congrArg some hl0
          have hFLl : (flattenB ((getElem cs (ci - 1) hlm))).length =
              (lcs.map (fun c => (flattenB c).length)).sum + lits.length := by
            rw [hl0]
            exact flattenB_node_length lits lcs hlcard
          have hlsred : (if ci = 0 then (none : Option (IBTreeNode α))
              else cs.get? (ci - 1)) = some (.node lits lcs) := by
            rw [if_neg hci0, hlsget]
          rw [hlsred]
          simp only [canNodeLoseItem_node, decide_eq_true_eq, Option.getD_some,
            IBTreeNode.itemsOf, IBTreeNode.childrenOf]
          by_cases hcanl : A.minItemsPerLevel < lcs.length
          · -- rotate from the left sibling
            rw [if_pos hcanl]
            have hmv : lcs.getD (lcs.length - 1) default = (getElem lcs (lcs.length - 1) (by omega)) :=
              List.getD_eq_getElem lcs default (by omega)
            refine ⟨?_, Or.inl ⟨_, _, rfl, ?_, ?_, ?_, ?_, ?_⟩⟩
            · rw [flattenB_node_length items cs hcard,
                flattenB_node_length _ _ (by simp [List.length_set] <;> omega)]
              have hs1 := map_sum_set (fun c => (flattenB c).length) cs (ci - 1)
                (.node lits.dropLast lcs.dropLast) hlm
              have hs2 := map_sum_set (fun c => (flattenB c).length)
                (cs.set (ci - 1) (.node lits.dropLast lcs.dropLast)) ci
                (.node (items.getD (ci - 1) default :: cits)
                  (lcs.getD (lcs.length - 1) default :: ccs))
                (by simp [List.length_set] <;> omega)
              have hg : (getElem (cs.set (ci - 1) (.node lits.dropLast lcs.dropLast)) (ci) (by
                  simp [List.length_set] <;> omega)) = (getElem cs (ci) hci) :=
                List.getElem_set_ne (by omega) _
              rw [hg, hFLci] at hs2
              have e1 : (flattenB (IBTreeNode.node lits.dropLast lcs.dropLast)).length =
                  ((lcs.dropLast).map (fun c => (flattenB c).length)).sum +
                    (lits.length - 1) := by
                rw [flattenB_node_length _ _ (by simp [List.length_dropLast] <;> omega)]
                simp [List.length_dropLast]
              have e2 : (flattenB (IBTreeNode.node (items.getD (ci - 1) default :: cits)
                  (lcs.getD (lcs.length - 1) default :: ccs))).length =
                  (ccs.map (fun c => (flattenB c).length)).sum +
                    (flattenB (lcs.getD (lcs.length - 1) default)).length +
                    (cits.length + 1) := by
                rw [flattenB_node_length _ _ (by simp <;> omega)]
                simp <;> omega
              have hdl : ((lcs.dropLast).map (fun c => (flattenB c).length)).sum +
                  (flattenB (lcs.getD (lcs.length - 1) default)).length =
                  (lcs.map (fun c => (flattenB c).length)).sum := by
                rw [hmv]
                exact map_sum_dropLast _ lcs (by omega)
              rw [e1, hFLl] at hs1
              rw [e2] at hs2
              simp only [List.length_set]
              omega
            · simp [List.length_set] <;> omega
            · simp [List.length_set] <;> omega
            · simp [List.length_set] <;> omega
            · intro h5
              simp [List.length_set] <;> omega
            · refine forall_mem_of_getElem ?_
              intro k hk
              simp only [List.length_set] at hk
              by_cases hk1 : k = ci
              · subst hk1
                rw [List.getElem_set_self (by simp [List.length_set] <;> omega)]
                refine .node _ _ _ (by simp <;> omega) (by simp <;> omega)
                  (by simp <;> omega) ?_
                intro c hcm
                rcases List.mem_cons.mp hcm with hcm2 | hcm2
                · subst hcm2
                  rw [hmv]
                  exact hlch _ (List.getElem_mem _)
                · exact hcch c hcm2
              · rw [List.getElem_set_ne (by omega) (by simp [List.length_set] <;> omega)]
                by_cases hk2 : k = ci - 1
                · subst hk2
                  rw [List.getElem_set_self (by simp [List.length_set] <;> omega)]
                  refine .node _ _ _ (by simp [List.length_dropLast] <;> omega)
                    (by simp [List.length_dropLast] <;> omega)
                    (by simp [List.length_dropLast] <;> omega) ?_
                  intro c hcm
                  exact hlch c (List.mem_of_mem_dropLast hcm)
                · rw [List.getElem_set_ne (by omega) (by simp [List.length_set] <;> omega)]
                  exact hothers k hk (by omega)
          · -- merge with the left sibling
            rw [if_neg hcanl]
            have e1 : (flattenB (IBTreeNode.node
                (lits ++ [items.getD (ci - 1) default] ++ cits) (lcs ++ ccs))).length =
                (lcs.map (fun c => (flattenB c).length)).sum +
                  (ccs.map (fun c => (flattenB c).length)).sum +
                  (lits.length + 1 + cits.length) := by
              rw [flattenB_node_length _ _ (by simp <;> omega)]
              rw [List.map_append, List.sum_append]
              simp <;> omega
            have hmerged : WFN A (hh + 1) (.node
                (lits ++ [items.getD (ci - 1) default] ++ cits) (lcs ++ ccs)) := by
              refine .node _ _ _ (by simp <;> omega) (by simp <;> omega)
                (by simp <;> omega) ?_
              intro c hcm
              rcases List.mem_append.mp hcm with hcm2 | hcm2
              · exact hlch c hcm2
              · exact hcch c hcm2
            by_cases hpr : (decide ((items.eraseIdx (ci - 1)).length = 0) && isRoot) = true
            · rw [if_pos hpr]
              rw [Bool.and_eq_true, decide_eq_true_eq] at hpr
              have hil : items.length = 1 := by
                have h5 := hpr.1
                rw [List.length_eraseIdx_of_lt (by omega)] at h5
                omega
              have hci1 : ci = 1 := by omega
              subst hci1
              refine ⟨?_, Or.inr ⟨hpr.2, hmerged⟩⟩
              rw [e1, flattenB_node_length items cs hcard,
                map_sum_pair _ cs (by omega)]
              have hx0 : (flattenB ((getElem cs (0) (by omega)))).length =
                  (lcs.map (fun c => (flattenB c).length)).sum + lits.length := by
                have hx2 : (getElem cs (0) (by omega)) = (getElem cs (1 - 1) hlm) := rfl
                rw [hx2]
                exact hFLl
              rw [hx0, hFLci]
              omega
            · rw [if_neg hpr]
              refine ⟨?_, Or.inl ⟨_, _, rfl, ?_, ?_, ?_, ?_, ?_⟩⟩
              · rw [flattenB_node_length items cs hcard,
                  flattenB_node_length _ _ (by
                    rw [List.length_eraseIdx_of_lt (by omega),
                      List.length_eraseIdx_of_lt (by simp [List.length_set] <;> omega)]
                    simp [List.length_set] <;> omega)]
                have hs1 := map_sum_set (fun c => (flattenB c).length) cs (ci - 1)
                  (.node (lits ++ [items.getD (ci - 1) default] ++ cits) (lcs ++ ccs)) hlm
                have hs2 := map_sum_eraseIdx (fun c => (flattenB c).length)
                  (cs.set (ci - 1) (.node (lits ++ [items.getD (ci - 1) default] ++ cits)
                    (lcs ++ ccs))) ci (by simp [List.length_set] <;> omega)
                have hg : (getElem (cs.set (ci - 1) (.node
                    (lits ++ [items.getD (ci - 1) default] ++ cits)
                    (lcs ++ ccs))) (ci) (by simp [List.length_set] <;> omega)) = (getElem cs (ci) hci) :=
                  List.getElem_set_ne (by omega) _
                rw [hg, hFLci] at hs2
                rw [e1, hFLl] at hs1
                rw [List.length_eraseIdx_of_lt (by omega)]
                omega
              · rw [List.length_eraseIdx_of_lt (by omega),
                  List.length_eraseIdx_of_lt (by simp [List.length_set] <;> omega)]
                simp [List.length_set] <;> omega
              · rw [List.length_eraseIdx_of_lt (by simp [List.length_set] <;> omega)]
                simp [List.length_set] <;> omega
              · rw [List.length_eraseIdx_of_lt (by simp [List.length_set] <;> omega)]
                simp [List.length_set] <;> omega
              · intro h5
                subst h5
                simp only [Bool.and_true, decide_eq_true_eq] at hpr
                rw [List.length_eraseIdx_of_lt (by omega)] at hpr
                rw [List.length_eraseIdx_of_lt (by simp [List.length_set] <;> omega)]
                simp [List.length_set] <;> omega
              · refine forall_mem_of_getElem ?_
                intro k hk
                have hkb : k < cs.length - 1 := by
                  rw [List.length_eraseIdx_of_lt (by simp [List.length_set] <;> omega)] at hk
                  simpa [List.length_set] using hk
                by_cases hklt : k < ci
                · rw [List.getElem_eraseIdx_of_lt _ _ _ (by
                      rw [List.length_eraseIdx_of_lt (by simp [List.length_set] <;> omega)]
                      simp [List.length_set] <;> omega) hklt]
                  by_cases hk2 : k = ci - 1
                  · subst hk2
                    rw [List.getElem_set_self (by simp [List.length_set] <;> omega)]
                    exact hmerged
                  · rw [List.getElem_set_ne (by omega) (by simp [List.length_set] <;> omega)]
                    exact hothers k (by omega) (by omega)
                · rw [List.getElem_eraseIdx_of_ge _ _ _ (by
                      rw [List.length_eraseIdx_of_lt (by simp [List.length_set] <;> omega)]
                      simp [List.length_set] <;> omega) (by omega)]
                  rw [List.getElem_set_ne (by omega) (by simp [List.length_set] <;> omega)]
                  exact hothers (k + 1) (by omega) (by omega)
  case neg =>
    have hrsnone : cs.get? (ci + 1) = none := List.get?_eq_none.mpr (by omega)
    have hRfalse : (match cs.get? (ci + 1) with
        | some rs => canNodeLoseItem A rs false
        | none => false) = false := by
      simp only [hrsnone]
    rw [hRfalse]
    simp only [Bool.false_eq_true, if_false]
    by_cases hci0 : ci = 0
    · -- merge with the right sibling (no left sibling)
      subst hci0
      have hls0 : (if (0 : Nat) = 0 then (none : Option (IBTreeNode α))
          else cs.get? (0 - 1)) = none := if_pos rfl
      rw [hls0]
      simp only [Bool.false_eq_true, if_false]
      have hlen1b : 0 + 1 < cs.length := by omega
      have wrb := hothers (0 + 1) hlen1b (by omega)
      rcases hr0b : (getElem cs (0 + 1) hlen1b) with rits | ⟨rits, rcs⟩
      · rw [hr0b] at wrb
        cases wrb
      · rw [hr0b] at wrb
        cases wrb with
        | node _ _ _ hrcard hrmin hrmax hrch =>
        have hrsgetb : cs.get? (0 + 1) = some (.node rits rcs) := by
          rw [get?_eq_some_getElem cs (0 + 1) hlen1b]
          exact congrArg some hr0b
        have hFLrb : (flattenB ((getElem cs (0 + 1) hlen1b))).length =
            (rcs.map (fun c => (flattenB c).length)).sum + rits.length := by
          rw [hr0b]
          exact flattenB_node_length rits rcs hrcard
        have hnotr : ¬ A.minItemsPerLevel < rcs.length := by
          simp only [hrsgetb, canNodeLoseItem_node] at hRfalse
          simpa using hRfalse
        simp only [hrsgetb, Option.getD_some, IBTreeNode.itemsOf, IBTreeNode.childrenOf]
        have e1 : (flattenB (IBTreeNode.node (cits ++ [items.getD 0 default] ++ rits)
            (ccs ++ rcs))).length =
            (ccs.map (fun c => (flattenB c).length)).sum +
              (rcs.map (fun c => (flattenB c).length)).sum +
              (cits.length + 1 + rits.length) := by
          rw [flattenB_node_length _ _ (by simp <;> omega)]
          rw [List.map_append, List.sum_append]
          simp <;> omega
        have hmerged : WFN A (hh + 1) (.node (cits ++ [items.getD 0 default] ++ rits)
            (ccs ++ rcs)) := by
          refine .node _ _ _ (by simp <;> omega) (by simp <;> omega)
            (by simp <;> omega) ?_
          intro c hcm
          rcases List.mem_append.mp hcm with hcm2 | hcm2
          · exact hcch c hcm2
          · exact hrch c hcm2
        by_cases hpr : (decide ((items.eraseIdx 0).length = 0) && isRoot) = true
        · rw [if_pos hpr]
          rw [Bool.and_eq_true, decide_eq_true_eq] at hpr
          have hil : items.length = 1 := by
            have h5 := hpr.1
            rw [List.length_eraseIdx_of_lt (by omega)] at h5
            omega
          refine ⟨?_, Or.inr ⟨hpr.2, hmerged⟩⟩
          rw [e1, flattenB_node_length items cs hcard,
            map_sum_pair _ cs (by omega)]
          rw [hFLci]
          have hx1 : (flattenB ((getElem cs (1) (by omega)))).length =
              (rcs.map (fun c => (flattenB c).length)).sum + rits.length := by
            have hx2 : (getElem cs (1) (by omega)) = (getElem cs (0 + 1) hlen1b) := rfl
            rw [hx2]
            exact hFLrb
          rw [hx1]
          omega
        · rw [if_neg hpr]
          refine ⟨?_, Or.inl ⟨_, _, rfl, ?_, ?_, ?_, ?_, ?_⟩⟩
          · rw [flattenB_node_length items cs hcard,
              flattenB_node_length _ _ (by
                rw [List.length_eraseIdx_of_lt (by omega),
                  List.length_eraseIdx_of_lt (by simp [List.length_set] <;> omega)]
                simp [List.length_set] <;> omega)]
            have hs1 := map_sum_set (fun c => (flattenB c).length) cs 0
              (.node (cits ++ [items.getD 0 default] ++ rits) (ccs ++ rcs)) (by omega)
            have hs2 := map_sum_eraseIdx (fun c => (flattenB c).length)
              (cs.set 0 (.node (cits ++ [items.getD 0 default] ++ rits) (ccs ++ rcs)))
              (0 + 1) (by simp [List.length_set] <;> omega)
            have hg : (getElem (cs.set 0 (.node (cits ++ [items.getD 0 default] ++ rits)
                (ccs ++ rcs))) (0 + 1) (by
                simp [List.length_set] <;> omega)) = (getElem cs (0 + 1) hlen1b) :=
              List.getElem_set_ne (by omega) _
            rw [hg, hFLrb] at hs2
            rw [e1, hFLci] at hs1
            rw [List.length_eraseIdx_of_lt (by omega)]
            omega
          · rw [List.length_eraseIdx_of_lt (by omega),
              List.length_eraseIdx_of_lt (by simp [List.length_set] <;> omega)]
            simp [List.length_set] <;> omega
          · rw [List.length_eraseIdx_of_lt (by simp [List.length_set] <;> omega)]
            simp [List.length_set] <;> omega
          · rw [List.length_eraseIdx_of_lt (by simp [List.length_set] <;> omega)]
            simp [List.length_set] <;> omega
          · intro h5
            subst h5
            simp only [Bool.and_true, decide_eq_true_eq] at hpr
            rw [List.length_eraseIdx_of_lt (by omega)] at hpr
            rw [List.length_eraseIdx_of_lt (by simp [List.length_set] <;> omega)]
            simp [List.length_set] <;> omega
          · refine forall_mem_of_getElem ?_
            intro k hk
            have hkb : k < cs.length - 1 := by
              rw [List.length_eraseIdx_of_lt (by simp [List.length_set] <;> omega)] at hk
              simpa [List.length_set] using hk
            by_cases hk0 : k = 0
            · subst hk0
              rw [List.getElem_eraseIdx_of_lt _ _ _ (by
                  rw [List.length_eraseIdx_of_lt (by simp [List.length_set] <;> omega)]
                  simp [List.length_set] <;> omega) (by omega)]
              rw [List.getElem_set_self (by simp [List.length_set] <;> omega)]
              exact hmerged
            · rw [List.getElem_eraseIdx_of_ge _ _ _ (by
                  rw [List.length_eraseIdx_of_lt (by simp [List.length_set] <;> omega)]
                  simp [List.length_set] <;> omega) (by omega)]
              rw [List.getElem_set_ne (by omega) (by simp [List.length_set] <;> omega)]
              exact hothers (k + 1) (by omega) (by omega)
    · -- left sibling exists
      have hlm : ci - 1 < cs.length := by omega
      have wl := hothers (ci - 1) hlm (by omega)
      rcases hl0 : (getElem cs (ci - 1) hlm) with lits | ⟨lits, lcs⟩
      · rw [hl0] at wl
        cases wl
      · rw [hl0] at wl
        cases wl with
        | node _ _ _ hlcard hlmin hlmax hlch =>
        have hlsget : cs.get? (ci - 1) = some (.node lits lcs) := by
          rw [get?_eq_some_getElem cs (ci - 1) hlm]
          exact congrArg some hl0
        have hFLl : (flattenB ((getElem cs (ci - 1) hlm))).length =
            (lcs.map (fun c => (flattenB c).length)).sum + lits.length := by
          rw [hl0]
          exact flattenB_node_length lits lcs hlcard
        have hlsred : (if ci = 0 then (none : Option (IBTreeNode α))
            else cs.get? (ci - 1)) = some (.node lits lcs) := by
          rw [if_neg hci0, hlsget]
        rw [hlsred]
        simp only [canNodeLoseItem_node, decide_eq_true_eq, Option.getD_some,
          IBTreeNode.itemsOf, IBTreeNode.childrenOf]
        by_cases hcanl : A.minItemsPerLevel < lcs.length
        · -- rotate from the left sibling
          rw [if_pos hcanl]
          have hmv : lcs.getD (lcs.length - 1) default = (getElem lcs (lcs.length - 1) (by omega)) :=
            List.getD_eq_getElem lcs default (by omega)
          refine ⟨?_, Or.inl ⟨_, _, rfl, ?_, ?_, ?_, ?_, ?_⟩⟩
          · rw [flattenB_node_length items cs hcard,
              flattenB_node_length _ _ (by simp [List.length_set] <;> omega)]
            have hs1 := map_sum_set (fun c => (flattenB c).length) cs (ci - 1)
              (.node lits.dropLast lcs.dropLast) hlm
            have hs2 := map_sum_set (fun c => (flattenB c).length)
              (cs.set (ci - 1) (.node lits.dropLast lcs.dropLast)) ci
              (.node (items.getD (ci - 1) default :: cits)
                (lcs.getD (lcs.length - 1) default :: ccs))
              (by simp [List.length_set] <;> omega)
            have hg : (getElem (cs.set (ci - 1) (.node lits.dropLast lcs.dropLast)) (ci) (by
                simp [List.length_set] <;> omega)) = (getElem cs (ci) hci) :=
              List.getElem_set_ne (by omega) _
            rw [hg, hFLci] at hs2
            have e1 : (flattenB (IBTreeNode.node lits.dropLast lcs.dropLast)).length =
                ((lcs.dropLast).map (fun c => (flattenB c).length)).sum +
                  (lits.length - 1) := by
              rw [flattenB_node_length _ _ (by simp [List.length_dropLast] <;> omega)]
              simp [List.length_dropLast]
            have e2 : (flattenB (IBTreeNode.node (items.getD (ci - 1) default :: cits)
                (lcs.getD (lcs.length - 1) default :: ccs))).length =
                (ccs.map (fun c => (flattenB c).length)).sum +
                  (flattenB (lcs.getD (lcs.length - 1) default)).length +
                  (cits.length + 1) := by
              rw [flattenB_node_length _ _ (by simp <;> omega)]
              simp <;> omega
            have hdl : ((lcs.dropLast).map (fun c => (flattenB c).length)).sum +
                (flattenB (lcs.getD (lcs.length - 1) default)).length =
                (lcs.map (fun c => (flattenB c).length)).sum := by
              rw [hmv]
              exact map_sum_dropLast _ lcs (by omega)
            rw [e1, hFLl] at hs1
            rw [e2] at hs2
            simp only [List.length_set]
            omega
          · simp [List.length_set] <;> omega
          · simp [List.length_set] <;> omega
          · simp [List.length_set] <;> omega
          · intro h5
            simp [List.length_set] <;> omega
          · refine forall_mem_of_getElem ?_
            intro k hk
            simp only [List.length_set] at hk
            by_cases hk1 : k = ci
            · subst hk1
              rw [List.getElem_set_self (by simp [List.length_set] <;> omega)]
              refine .node _ _ _ (by simp <;> omega) (by simp <;> omega)
                (by simp <;> omega) ?_
              intro c hcm
              rcases List.mem_cons.mp hcm with hcm2 | hcm2
              · subst hcm2
                rw [hmv]
                exact hlch _ (List.getElem_mem _)
              · exact hcch c hcm2
            · rw [List.getElem_set_ne (by omega) (by simp [List.length_set] <;> omega)]
              by_cases hk2 : k = ci - 1
              · subst hk2
                rw [List.getElem_set_self (by simp [List.length_set] <;> omega)]
                refine .node _ _ _ (by simp [List.length_dropLast] <;> omega)
                  (by simp [List.length_dropLast] <;> omega)
                  (by simp [List.length_dropLast] <;> omega) ?_
                intro c hcm
                exact hlch c (List.mem_of_mem_dropLast hcm)
              · rw [List.getElem_set_ne (by omega) (by simp [List.length_set] <;> omega)]
                exact hothers k hk (by omega)
        · -- merge with the left sibling
          rw [if_neg hcanl]
          have e1 : (flattenB (IBTreeNode.node
              (lits ++ [items.getD (ci - 1) default] ++ cits) (lcs ++ ccs))).length =
              (lcs.map (fun c => (flattenB c).length)).sum +
                (ccs.map (fun c => (flattenB c).length)).sum +
                (lits.length + 1 + cits.length) := by
            rw [flattenB_node_length _ _ (by simp <;> omega)]
            rw [List.map_append, List.sum_append]
            simp <;> omega
          have hmerged : WFN A (hh + 1) (.node
              (lits ++ [items.getD (ci - 1) default] ++ cits) (lcs ++ ccs)) := by
            refine .node _ _ _ (by simp <;> omega) (by simp <;> omega)
              (by simp <;> omega) ?_
            intro c hcm
            rcases List.mem_append.mp hcm with hcm2 | hcm2
            · exact hlch c hcm2
            · exact hcch c hcm2
          by_cases hpr : (decide ((items.eraseIdx (ci - 1)).length = 0) && isRoot) = true
          · rw [if_pos hpr]
            rw [Bool.and_eq_true, decide_eq_true_eq] at hpr
            have hil : items.length = 1 := by
              have h5 := hpr.1
              rw [List.length_eraseIdx_of_lt (by omega)] at h5
              omega
            have hci1 : ci = 1 := by omega
            subst hci1
            refine ⟨?_, Or.inr ⟨hpr.2, hmerged⟩⟩
            rw [e1, flattenB_node_length items cs hcard,
              map_sum_pair _ cs (by omega)]
            have hx0 : (flattenB ((getElem cs (0) (by omega)))).length =
                (lcs.map (fun c => (flattenB c).length)).sum + lits.length := by
              have hx2 : (getElem cs (0) (by omega)) = (getElem cs (1 - 1) hlm) := rfl
              rw [hx2]
              exact hFLl
            rw [hx0, hFLci]
            omega
          · rw [if_neg hpr]
            refine ⟨?_, Or.inl ⟨_, _, rfl, ?_, ?_, ?_, ?_, ?_⟩⟩
            · rw [flattenB_node_length items cs hcard,
                flattenB_node_length _ _ (by
                  rw [List.length_eraseIdx_of_lt (by omega),
                    List.length_eraseIdx_of_lt (by simp [List.length_set] <;> omega)]
                  simp [List.length_set] <;> omega)]
              have hs1 := map_sum_set (fun c => (flattenB c).length) cs (ci - 1)
                (.node (lits ++ [items.getD (ci - 1) default] ++ cits) (lcs ++ ccs)) hlm
              have hs2 := map_sum_eraseIdx (fun c => (flattenB c).length)
                (cs.set (ci - 1) (.node (lits ++ [items.getD (ci - 1) default] ++ cits)
                  (lcs ++ ccs))) ci (by simp [List.length_set] <;> omega)
              have hg : (getElem (cs.set (ci - 1) (.node
                  (lits ++ [items.getD (ci - 1) default] ++ cits)
                  (lcs ++ ccs))) (ci) (by simp [List.length_set] <;> omega)) = (getElem cs (ci) hci) :=
                List.getElem_set_ne (by omega) _
              rw [hg, hFLci] at hs2
              rw [e1, hFLl] at hs1
              rw [List.length_eraseIdx_of_lt (by omega)]
              omega
            · rw [List.length_eraseIdx_of_lt (by omega),
                List.length_eraseIdx_of_lt (by simp [List.length_set] <;> omega)]
              simp [List.length_set] <;> omega
            · rw [List.length_eraseIdx_of_lt (by simp [List.length_set] <;> omega)]
              simp [List.length_set] <;> omega
            · rw [List.length_eraseIdx_of_lt (by simp [List.length_set] <;> omega)]
              simp [List.length_set] <;> omega
            · intro h5
              subst h5
              simp only [Bool.and_true, decide_eq_true_eq] at hpr
              rw [List.length_eraseIdx_of_lt (by omega)] at hpr
              rw [List.length_eraseIdx_of_lt (by simp [List.length_set] <;> omega)]
              simp [List.length_set] <;> omega
            · refine forall_mem_of_getElem ?_
              intro k hk
              have hkb : k < cs.length - 1 := by
                rw [List.length_eraseIdx_of_lt (by simp [List.length_set] <;> omega)] at hk
                simpa [List.length_set] using hk
              by_cases hklt : k < ci
              · rw [List.getElem_eraseIdx_of_lt _ _ _ (by
                    rw [List.length_eraseIdx_of_lt (by simp [List.length_set] <;> omega)]
                    simp [List.length_set] <;> omega) hklt]
                by_cases hk2 : k = ci - 1
                · subst hk2
                  rw [List.getElem_set_self (by simp [List.length_set] <;> omega)]
                  exact hmerged
                · rw [List.getElem_set_ne (by omega) (by simp [List.length_set] <;> omega)]
                  exact hothers k (by omega) (by omega)
              · rw [List.getElem_eraseIdx_of_ge _ _ _ (by
                    rw [List.length_eraseIdx_of_lt (by simp [List.length_set] <;> omega)]
                    simp [List.length_set] <;> omega) (by omega)]
                rw [List.getElem_set_ne (by omega) (by simp [List.length_set] <;> omega)]
                exact hothers (k + 1) (by omega) (by omega)

end Immerutable

namespace Immerutable

/-- `rebalance` at any level: dispatch between the leaf-children and
internal-children cases. -/
lemma rebalanceAt_spec [Inhabited α] (A : SCA α) (h4 : 4 ≤ A.maxItemsPerLevel)
    (isRoot : Bool) (h : Nat) (items : List α) (cs : List (IBTreeNode α)) (ci : Nat)
    (hcard : items.length + 1 = cs.length)
    (h2le : 2 ≤ cs.length)
    (hci : ci < cs.length)
    (hothers : ∀ (k : Nat) (hk : k < cs.length), k ≠ ci → WFN A h ((getElem cs (k) hk)))
    (hnear : NearWFN A h ((getElem cs (ci) hci))) :
    (flattenB (rebalanceAt A isRoot (.node items cs) ci)).length =
      (flattenB (.node items cs)).length ∧
    ((∃ (items' : List α) (cs' : List (IBTreeNode α)),
        rebalanceAt A isRoot (.node items cs) ci = .node items' cs' ∧
        items'.length + 1 = cs'.length ∧
        cs.length - 1 ≤ cs'.length ∧ cs'.length ≤ cs.length ∧
        (isRoot = true → 2 ≤ cs'.length) ∧
        ∀ c ∈ cs', WFN A h c) ∨
      (isRoot = true ∧ WFN A h (rebalanceAt A isRoot (.node items cs) ci))) := by
  cases h with
  | zero => exact rebalanceAt_spec_zero A h4 isRoot items cs ci hcard h2le hci hothers hnear
  | succ hh =>
    exact rebalanceAt_spec_succ A h4 isRoot hh items cs ci hcard h2le hci hothers hnear

/-- Reduction of `removeRightMost` on an internal node whose recursive call
found a donor. -/
lemma removeRightMost_node_red [Inhabited α] (A : SCA α) (f : Nat) (its : List α)
    (cs : List (IBTreeNode α)) (c : IBTreeNode α)
    (hc : cs.get? (cs.length - 1) = some c)
    (v : α) (hv : (removeRightMost A f c).1 = some v) :
    removeRightMost A (f + 1) (.node its cs) =
      (some v, rebalanceAt A false
        (.node its (cs.set (cs.length - 1) (removeRightMost A f c).2))
        (cs.length - 1)) := by
  simp only [removeRightMost, hc, hv]

/-- Removing the rightmost value of a well-formed subtree always finds a donor,
shrinks the flattening by one, and leaves a subtree at most one unit short of
well-formed at the same height. -/
lemma removeRightMost_spec [Inhabited α] (A : SCA α) (h4 : 4 ≤ A.maxItemsPerLevel) :
    ∀ {h : Nat} {n : IBTreeNode α}, WFN A h n → ∀ fuel : Nat, h + 1 ≤ fuel →
      (∃ v, (removeRightMost A fuel n).1 = some v) ∧
      NearWFN A h (removeRightMost A fuel n).2 ∧
      (flattenB (removeRightMost A fuel n).2).length + 1 = (flattenB n).length := by
  intro h n hwf
  induction hwf with
  | leaf items h1 h2 =>
    intro fuel hfuel
    match fuel, hfuel with
    | f + 1, _ =>
      have hred : removeRightMost A (f + 1) (IBTreeNode.leaf items) =
          (items.get? (items.length - 1), .leaf items.dropLast) := rfl
      rw [hred]
      refine ⟨⟨(getElem items (items.length - 1) (by omega)), ?_⟩, ?_, ?_⟩
      · exact get?_eq_some_getElem items (items.length - 1) (by omega)
      · show items.dropLast.length ≤ A.maxItemsPerLevel
        simp [List.length_dropLast] <;> omega
      · show items.dropLast.length + 1 = items.length
        simp [List.length_dropLast] <;> omega
  | node hh its cs hcard hmin hmax hch ih =>
    intro fuel hfuel
    match fuel, hfuel with
    | f + 1, hf =>
      have hmin2 := WFN_min_le_two (A := A) h4
      have hci : cs.length - 1 < cs.length := by omega
      have hc : cs.get? (cs.length - 1) = some ((getElem cs (cs.length - 1) hci)) :=
        get?_eq_some_getElem cs (cs.length - 1) hci
      obtain ⟨⟨v, hv⟩, hnear2, hflat2⟩ :=
        ih ((getElem cs (cs.length - 1) hci)) (List.getElem_mem _) f (by omega)
      rw [removeRightMost_node_red A f its cs _ hc v hv]
      obtain ⟨hfl, hdisj⟩ := rebalanceAt_spec A h4 false hh its
        (cs.set (cs.length - 1) (removeRightMost A f ((getElem cs (cs.length - 1) hci))).2)
        (cs.length - 1)
        (by simp [List.length_set] <;> omega)
        (by simp [List.length_set] <;> omega)
        (by simp [List.length_set] <;> omega)
        (by
          intro k hk hkne
          simp only [List.length_set] at hk
          rw [List.getElem_set_ne (by omega) (by simp [List.length_set] <;> omega)]
          exact hch _ (List.getElem_mem _))
        (by
          rw [List.getElem_set_self (by simp [List.length_set] <;> omega)]
          exact hnear2)
      have hsl := flattenB_set_length its cs (cs.length - 1)
        (removeRightMost A f ((getElem cs (cs.length - 1) hci))).2 hcard hci
      refine ⟨⟨v, rfl⟩, ?_, ?_⟩
      · rcases hdisj with ⟨items', cs', heq, hcard', hlo, hhi, _, hwfall⟩ | ⟨habs, _⟩
        · show NearWFN A (hh + 1) _
          rw [heq]
          simp only [List.length_set] at hlo hhi
          exact ⟨hcard', by omega, by omega, hwfall⟩
        · exact absurd habs (by simp)
      · show (flattenB (rebalanceAt A false
            (.node its (cs.set (cs.length - 1)
              (removeRightMost A f ((getElem cs (cs.length - 1) hci))).2))
            (cs.length - 1))).length + 1 = (flattenB (IBTreeNode.node its cs)).length
        omega

/-- Reduction of `removeByPathGo` at the final path entry inside an internal
node whose left child supplies a donor. -/
lemma removeByPathGo_last_node_red [Inhabited α] (A : SCA α) (isRoot : Bool)
    (items : List α) (cs : List (IBTreeNode α)) (j : Nat) (donor : α)
    (hd : (removeRightMost A (heightB (cs.getD j default) + 1)
        (cs.getD j default)).1 = some donor) :
    removeByPathGo A isRoot (.node items cs) [j] =
      rebalanceAt A isRoot
        (.node ((items.eraseIdx j).insertIdx j donor)
          (cs.set j (removeRightMost A (heightB (cs.getD j default) + 1)
            (cs.getD j default)).2)) j := by
  simp only [removeByPathGo, hd]

/-- Reduction of `removeByPathGo` at an inner path entry. -/
lemma removeByPathGo_step_red [Inhabited α] (A : SCA α) (isRoot : Bool)
    (items : List α) (cs : List (IBTreeNode α)) (ci r0 : Nat) (rrest : List Nat) :
    removeByPathGo A isRoot (.node items cs) (ci :: r0 :: rrest) =
      rebalanceAt A isRoot
        (.node items
          (cs.set ci (removeByPathGo A false (cs.getD ci default) (r0 :: rrest)))) ci := by
  simp only [removeByPathGo]

end Immerutable

namespace Immerutable

/-- Removal along a valid lookup path below the root: the result is at most one
unit short of well-formed at the same height and its flattening is one
shorter. -/
lemma removeByPathGo_nonroot [Inhabited α] (A : SCA α) (h4 : 4 ≤ A.maxItemsPerLevel) :
    ∀ {n : IBTreeNode α} {p : List Nat}, ValidPath n p → ∀ h : Nat, WFN A h n →
      NearWFN A h (removeByPathGo A false n p) ∧
      (flattenB (removeByPathGo A false n p)).length + 1 = (flattenB n).length := by
  intro n p hvp
  induction hvp with
  | lastLeaf items j hj =>
    intro h hwf
    cases hwf with
    | leaf _ h1 h2 =>
      have hred : removeByPathGo A false (IBTreeNode.leaf items) [j] =
          .leaf (items.eraseIdx j) := by
        simp only [removeByPathGo]
      rw [hred]
      constructor
      · show (items.eraseIdx j).length ≤ A.maxItemsPerLevel
        rw [List.length_eraseIdx_of_lt hj]
        omega
      · show (items.eraseIdx j).length + 1 = items.length
        rw [List.length_eraseIdx_of_lt hj]
        omega
  | lastNode items cs j hj =>
    intro h hwf
    cases hwf with
    | node hh _ _ hcard hmin hmax hch =>
      have hmin2 := WFN_min_le_two (A := A) h4
      have hjc : j < cs.length := by omega
      have hlc : cs.getD j default = (getElem cs (j) hjc) := List.getD_eq_getElem cs default hjc
      have hwlc : WFN A hh (cs.getD j default) := by
        rw [hlc]
        exact hch _ (List.getElem_mem _)
      obtain ⟨⟨v, hv⟩, hnear2, hflat2⟩ := removeRightMost_spec A h4 hwlc
        (heightB (cs.getD j default) + 1) (by rw [WFN_height hwlc])
      rw [removeByPathGo_last_node_red A false items cs j v hv]
      have hil : ((items.eraseIdx j).insertIdx j v).length = items.length := by
        rw [List.length_insertIdx _ _ (by rw [List.length_eraseIdx_of_lt hj] <;> omega),
          List.length_eraseIdx_of_lt hj]
        omega
      obtain ⟨hfl, hdisj⟩ := rebalanceAt_spec A h4 false hh
        ((items.eraseIdx j).insertIdx j v)
        (cs.set j (removeRightMost A (heightB (cs.getD j default) + 1)
          (cs.getD j default)).2) j
        (by simp [List.length_set, hil] <;> omega)
        (by simp [List.length_set] <;> omega)
        (by simp [List.length_set] <;> omega)
        (by
          intro k hk hkne
          simp only [List.length_set] at hk
          rw [List.getElem_set_ne (by omega) (by simp [List.length_set] <;> omega)]
          exact hch _ (List.getElem_mem _))
        (by
          rw [List.getElem_set_self (by simp [List.length_set] <;> omega)]
          exact hnear2)
      have hsl := flattenB_set_length ((items.eraseIdx j).insertIdx j v) cs j
        (removeRightMost A (heightB (cs.getD j default) + 1) (cs.getD j default)).2
        (by rw [hil]; omega) hjc
      have hnl := flattenB_node_length items cs hcard
      have hnl2 := flattenB_node_length ((items.eraseIdx j).insertIdx j v) cs
        (by rw [hil]; omega)
      constructor
      · rcases hdisj with ⟨items', cs', heq, hcard', hlo, hhi, _, hwfall⟩ | ⟨habs, _⟩
        · show NearWFN A (hh + 1) _
          rw [heq]
          simp only [List.length_set] at hlo hhi
          exact ⟨hcard', by omega, by omega, hwfall⟩
        · exact absurd habs (by simp)
      · rw [hfl]
        have hXbr : (flattenB (cs.getD j default)).length =
            (flattenB (getElem cs (j) hjc)).length := by rw [hlc]
        omega
  | step items cs ci c rest hc hne hvpc ih =>
    intro h hwf
    cases hwf with
    | node hh _ _ hcard hmin hmax hch =>
      have hmin2 := WFN_min_le_two (A := A) h4
      have hlt : ci < cs.length := by
        by_contra hcon
        rw [List.get?_eq_none.mpr (by omega)] at hc
        exact Option.noConfusion hc
      have hceq : (getElem cs (ci) hlt) = c := by
        rw [get?_eq_some_getElem cs ci hlt] at hc
        injection hc
      have hwc : WFN A hh c := by
        rw [← hceq]
        exact hch _ (List.getElem_mem _)
      obtain ⟨hnear2, hflat2⟩ := ih hh hwc
      rcases rest with _ | ⟨r0, rrest⟩
      · exact absurd rfl hne
      rw [removeByPathGo_step_red]
      have hgd : cs.getD ci default = c := by
        rw [List.getD_eq_getElem cs default hlt, hceq]
      rw [hgd]
      obtain ⟨hfl, hdisj⟩ := rebalanceAt_spec A h4 false hh items
        (cs.set ci (removeByPathGo A false c (r0 :: rrest))) ci
        (by simp [List.length_set] <;> omega)
        (by simp [List.length_set] <;> omega)
        (by simp [List.length_set] <;> omega)
        (by
          intro k hk hkne
          simp only [List.length_set] at hk
          rw [List.getElem_set_ne (by omega) (by simp [List.length_set] <;> omega)]
          exact hch _ (List.getElem_mem _))
        (by
          rw [List.getElem_set_self (by simp [List.length_set] <;> omega)]
          exact hnear2)
      have hsl := flattenB_set_length items cs ci
        (removeByPathGo A false c (r0 :: rrest)) hcard hlt
      rw [hceq] at hsl
      constructor
      · rcases hdisj with ⟨items', cs', heq, hcard', hlo, hhi, _, hwfall⟩ | ⟨habs, _⟩
        · show NearWFN A (hh + 1) _
          rw [heq]
          simp only [List.length_set] at hlo hhi
          exact ⟨hcard', by omega, by omega, hwfall⟩
        · exact absurd habs (by simp)
      · omega

end Immerutable

namespace Immerutable

/-- Removal along a valid lookup path starting at the root: the root shape
invariant is preserved and the flattening is one shorter. -/
lemma removeByPathGo_root [Inhabited α] (A : SCA α) (h4 : 4 ≤ A.maxItemsPerLevel)
    {n : IBTreeNode α} {p : List Nat} (hvp : ValidPath n p) (hwr : WFRoot A n) :
    WFRoot A (removeByPathGo A true n p) ∧
    (flattenB (removeByPathGo A true n p)).length + 1 = (flattenB n).length := by
  rcases hwr with ⟨items, rfl, hle⟩ | ⟨h, items, cs, rfl, hcard, h2le, hmax, hch⟩
  · cases hvp with
    | lastLeaf _ j hj =>
      have hred : removeByPathGo A true (IBTreeNode.leaf items) [j] =
          .leaf (items.eraseIdx j) := by
        simp only [removeByPathGo]
      rw [hred]
      refine ⟨Or.inl ⟨_, rfl, ?_⟩, ?_⟩
      · rw [List.length_eraseIdx_of_lt hj]
        omega
      · show (items.eraseIdx j).length + 1 = items.length
        rw [List.length_eraseIdx_of_lt hj]
        omega
  · have hmin2 := WFN_min_le_two (A := A) h4
    cases hvp with
    | lastNode _ _ j hj =>
      have hjc : j < cs.length := by omega
      have hlc : cs.getD j default = (getElem cs (j) hjc) :=
        List.getD_eq_getElem cs default hjc
      have hwlc : WFN A h (cs.getD j default) := by
        rw [hlc]
        exact hch _ (List.getElem_mem _)
      obtain ⟨⟨v, hv⟩, hnear2, hflat2⟩ := removeRightMost_spec A h4 hwlc
        (heightB (cs.getD j default) + 1) (by rw [WFN_height hwlc])
      rw [removeByPathGo_last_node_red A true items cs j v hv]
      have hil : ((items.eraseIdx j).insertIdx j v).length = items.length := by
        rw [List.length_insertIdx _ _ (by rw [List.length_eraseIdx_of_lt hj] <;> omega),
          List.length_eraseIdx_of_lt hj]
        omega
      obtain ⟨hfl, hdisj⟩ := rebalanceAt_spec A h4 true h
        ((items.eraseIdx j).insertIdx j v)
        (cs.set j (removeRightMost A (heightB (cs.getD j default) + 1)
          (cs.getD j default)).2) j
        (by simp [List.length_set, hil] <;> omega)
        (by simp [List.length_set] <;> omega)
        (by simp [List.length_set] <;> omega)
        (by
          intro k hk hkne
          simp only [List.length_set] at hk
          rw [List.getElem_set_ne (by omega) (by simp [List.length_set] <;> omega)]
          exact hch _ (List.getElem_mem _))
        (by
          rw [List.getElem_set_self (by simp [List.length_set] <;> omega)]
          exact hnear2)
      have hsl := flattenB_set_length ((items.eraseIdx j).insertIdx j v) cs j
        (removeRightMost A (heightB (cs.getD j default) + 1) (cs.getD j default)).2
        (by rw [hil]; omega) hjc
      have hnl := flattenB_node_length items cs hcard
      have hnl2 := flattenB_node_length ((items.eraseIdx j).insertIdx j v) cs
        (by rw [hil]; omega)
      constructor
      · rcases hdisj with ⟨items', cs', heq, hcard', hlo, hhi, hroot2, hwfall⟩ | ⟨_, hwfres⟩
        · rw [heq]
          simp only [List.length_set] at hlo hhi
          exact Or.inr ⟨h, items', cs', rfl, hcard', hroot2 rfl, by omega, hwfall⟩
        · exact WFN_WFRoot hwfres h4
      · rw [hfl]
        have hXbr : (flattenB (cs.getD j default)).length =
            (flattenB (getElem cs (j) hjc)).length := by rw [hlc]
        omega
    | step _ _ ci c rest hc hne hvpc =>
      have hlt : ci < cs.length := by
        by_contra hcon
        rw [List.get?_eq_none.mpr (by omega)] at hc
        exact Option.noConfusion hc
      have hceq : (getElem cs (ci) hlt) = c := by
        rw [get?_eq_some_getElem cs ci hlt] at hc
        injection hc
      have hwc : WFN A h c := by
        rw [← hceq]
        exact hch _ (List.getElem_mem _)
      obtain ⟨hnear2, hflat2⟩ := removeByPathGo_nonroot A h4 hvpc h hwc
      rcases rest with _ | ⟨r0, rrest⟩
      · exact absurd rfl hne
      rw [removeByPathGo_step_red]
      have hgd : cs.getD ci default = c := by
        rw [List.getD_eq_getElem cs default hlt, hceq]
      rw [hgd]
      obtain ⟨hfl, hdisj⟩ := rebalanceAt_spec A h4 true h items
        (cs.set ci (removeByPathGo A false c (r0 :: rrest))) ci
        (by simp [List.length_set] <;> omega)
        (by simp [List.length_set] <;> omega)
        (by simp [List.length_set] <;> omega)
        (by
          intro k hk hkne
          simp only [List.length_set] at hk
          rw [List.getElem_set_ne (by omega) (by simp [List.length_set] <;> omega)]
          exact hch _ (List.getElem_mem _))
        (by
          rw [List.getElem_set_self (by simp [List.length_set] <;> omega)]
          exact hnear2)
      have hsl := flattenB_set_length items cs ci
        (removeByPathGo A false c (r0 :: rrest)) hcard hlt
      rw [hceq] at hsl
      constructor
      · rcases hdisj with ⟨items', cs', heq, hcard', hlo, hhi, hroot2, hwfall⟩ | ⟨_, hwfres⟩
        · rw [heq]
          simp only [List.length_set] at hlo hhi
          exact Or.inr ⟨h, items', cs', rfl, hcard', hroot2 rfl, by omega, hwfall⟩
        · exact WFN_WFRoot hwfres h4
      · omega

/-- `SortedCollectionAdapter.remove`: when the lookup misses, the collection is
unchanged; when it hits, the root invariant is preserved, the flattening
shrinks by one and `size` is decremented. -/
lemma scRemove_spec [Inhabited α] (A : SCA α) (h4 : 4 ≤ A.maxItemsPerLevel)
    (c : ISortedCollection α) (hwr : WFRoot A c.root) (value : α) :
    (lookupValuePath A c value = none ∧ scRemove A c value = c) ∨
    (WFRoot A (scRemove A c value).root ∧
      (flattenB (scRemove A c value).root).length + 1 = (flattenB c.root).length ∧
      (scRemove A c value).size = c.size - 1) := by
  rcases hp : lookupValuePath A c value with _ | p
  · refine Or.inl ⟨rfl, ?_⟩
    simp [scRemove, hp]
  · obtain ⟨hvalid, _⟩ := lookupValuePath_valid A c value p hp
    obtain ⟨hwf2, hflat⟩ := removeByPathGo_root A h4 hvalid hwr
    have hred : scRemove A c value =
        { root := removeByPathGo A true c.root p, size := c.size - 1 } := by
      simp [scRemove, hp]
    rw [hred]
    exact Or.inr ⟨hwf2, hflat, rfl⟩

end Immerutable

namespace Immerutable

/-! ## Iterator machine: the forward iteration drains the in-order flattening -/

/-- Cardinality shape every tree reachable from `create` satisfies: each
internal node interleaves `k` items with `k+1` children. -/
inductive CardOK : IBTreeNode α → Prop where
  | leaf : ∀ items : List α, CardOK (.leaf items)
  | node : ∀ (items : List α) (children : List (IBTreeNode α)),
      items.length + 1 = children.length →
      (∀ c ∈ children, CardOK c) →
      CardOK (.node items children)

/-- Invariant of a single traversal frame. -/
def FrameOK (f : IterFrame α) : Prop :=
  match f.children with
  | none => True
  | some cs => f.items.length + 1 = cs.length ∧ ∀ c ∈ cs, CardOK c

/-- The values a frame still has to deliver. -/
def frameDen (f : IterFrame α) : List α :=
  match f.children with
  | none => f.items.drop f.index
  | some cs =>
    if f.onChildren then flattenZip (cs.drop f.index) (f.items.drop f.index)
    else
      match f.items.get? f.index with
      | some i => i :: flattenZip (cs.drop (f.index + 1)) (f.items.drop (f.index + 1))
      | none => []

/-- The values a whole stack still has to deliver (top of stack first). -/
def stackDen : List (IterFrame α) → List α
  | [] => []
  | f :: rest => frameDen f ++ stackDen rest

/-- Termination potential of one frame: strictly decreases along the
non-yielding steps of `traverseToFurthestLeft`. -/
def framePot (f : IterFrame α) : Nat :=
  match f.children with
  | none => 1
  | some cs =>
    if f.onChildren then 2 * weightListB (cs.drop f.index) + 2
    else 2 * weightListB (cs.drop (f.index + 1)) + 1

/-- Total potential of a stack. -/
def stackPot : List (IterFrame α) → Nat
  | [] => 0
  | f :: rest => framePot f + stackPot rest

lemma weightListB_drop (cs : List (IBTreeNode α)) (i : Nat) (h : i < cs.length) :
    weightListB (cs.drop i) =
      weightB (getElem cs (i) h) + weightListB (cs.drop (i + 1)) := by
  rw [List.drop_eq_getElem_cons h]
  rfl

lemma weightListB_drop_le (cs : List (IBTreeNode α)) :
    ∀ i : Nat, weightListB (cs.drop i) ≤ weightListB cs := by
  induction cs with
  | nil => intro i; simp [weightListB]
  | cons c t ih =>
    intro i
    match i with
    | 0 => simp
    | j + 1 =>
      show weightListB (t.drop j) ≤ weightB c + weightListB t
      have := ih j
      omega

lemma framePot_iterFrameOf_le (c : IBTreeNode α) :
    framePot (iterFrameOf c) ≤ 2 * weightB c := by
  rcases c with its | ⟨its, ccs⟩
  · show (1 : Nat) ≤ 2 * (its.length + 1)
    omega
  · show 2 * weightListB (ccs.drop 0) + 2 ≤ 2 * (its.length + 1 + weightListB ccs)
    rw [List.drop_zero]
    omega

lemma frameOK_iterFrameOf {c : IBTreeNode α} (h : CardOK c) : FrameOK (iterFrameOf c) := by
  cases h with
  | leaf items => trivial
  | node items children hcard hch => exact ⟨hcard, hch⟩

lemma frameDen_iterFrameOf (c : IBTreeNode α) : frameDen (iterFrameOf c) = flattenB c := by
  rcases c with its | ⟨its, ccs⟩
  · show its.drop 0 = its
    simp
  · show flattenZip (ccs.drop 0) (its.drop 0) = flattenZip ccs its
    simp

lemma frameDen_split (i : Nat) (its : List α) (cs : List (IBTreeNode α))
    (hic : i < cs.length) :
    frameDen (⟨i, true, its, some cs⟩ : IterFrame α) =
      flattenB (cs.getD i default) ++
        frameDen (⟨i, false, its, some cs⟩ : IterFrame α) := by
  simp only [frameDen]
  rw [List.drop_eq_getElem_cons hic, List.getD_eq_getElem cs default hic]
  by_cases hi : i < its.length
  · rw [List.drop_eq_getElem_cons hi, get?_eq_some_getElem its i hi]
    simp [flattenZip]
  · rw [show its.drop i = ([] : List α) from List.drop_eq_nil_of_le (by omega),
      List.get?_eq_none.mpr (by omega)]
    simp [flattenZip]

lemma tfl_leaf_yield [Inhabited α] (fuel i : Nat) (b : Bool) (its : List α)
    (rest : List (IterFrame α)) (hi : i < its.length) :
    traverseToFurthestLeft (fuel + 1) ((⟨i, b, its, none⟩ : IterFrame α) :: rest) =
      (its.get? i, (⟨i + 1, true, its, none⟩ : IterFrame α) :: rest) := by
  simp [traverseToFurthestLeft, hi]

lemma tfl_leaf_pop [Inhabited α] (fuel i : Nat) (b : Bool) (its : List α)
    (rest : List (IterFrame α)) (hi : ¬ i < its.length) :
    traverseToFurthestLeft (fuel + 1) ((⟨i, b, its, none⟩ : IterFrame α) :: rest) =
      traverseToFurthestLeft fuel rest := by
  simp [traverseToFurthestLeft, hi]

lemma tfl_descend [Inhabited α] (fuel i : Nat) (its : List α)
    (cs : List (IBTreeNode α)) (rest : List (IterFrame α)) (hic : i < cs.length) :
    traverseToFurthestLeft (fuel + 1) ((⟨i, true, its, some cs⟩ : IterFrame α) :: rest) =
      traverseToFurthestLeft fuel
        (iterFrameOf (cs.getD i default) ::
          (⟨i, false, its, some cs⟩ : IterFrame α) :: rest) := by
  simp [traverseToFurthestLeft, hic]

lemma tfl_node_pop_true [Inhabited α] (fuel i : Nat) (its : List α)
    (cs : List (IBTreeNode α)) (rest : List (IterFrame α))
    (hii : ¬ i < its.length) (hic : ¬ i < cs.length) :
    traverseToFurthestLeft (fuel + 1) ((⟨i, true, its, some cs⟩ : IterFrame α) :: rest) =
      traverseToFurthestLeft fuel rest := by
  simp [traverseToFurthestLeft, hii, hic]

lemma tfl_node_yield [Inhabited α] (fuel i : Nat) (its : List α)
    (cs : List (IBTreeNode α)) (rest : List (IterFrame α)) (hi : i < its.length) :
    traverseToFurthestLeft (fuel + 1) ((⟨i, false, its, some cs⟩ : IterFrame α) :: rest) =
      (its.get? i, (⟨i + 1, true, its, some cs⟩ : IterFrame α) :: rest) := by
  simp [traverseToFurthestLeft, hi]

lemma tfl_node_pop_false [Inhabited α] (fuel i : Nat) (its : List α)
    (cs : List (IBTreeNode α)) (rest : List (IterFrame α)) (hi : ¬ i < its.length) :
    traverseToFurthestLeft (fuel + 1) ((⟨i, false, its, some cs⟩ : IterFrame α) :: rest) =
      traverseToFurthestLeft fuel rest := by
  simp [traverseToFurthestLeft, hi]

end Immerutable

namespace Immerutable

/-- One inner traversal with enough fuel: if the stack has nothing left, the
call reports the end of iteration; otherwise it yields exactly the next value
of the stack denotation and leaves a well-formed stack denoting the rest. -/
lemma traverse_spec [Inhabited α] : ∀ (fuel : Nat) (st : List (IterFrame α)),
    (∀ f ∈ st, FrameOK f) → stackPot st + 1 ≤ fuel →
    ((stackDen st = [] → (traverseToFurthestLeft fuel st).1 = none) ∧
     (∀ (v : α) (rest2 : List α), stackDen st = v :: rest2 →
        (traverseToFurthestLeft fuel st).1 = some v ∧
        (∀ f ∈ (traverseToFurthestLeft fuel st).2, FrameOK f) ∧
        stackDen (traverseToFurthestLeft fuel st).2 = rest2)) := by
  intro fuel
  induction fuel with
  | zero =>
    intro st hok hpot
    exact absurd hpot (by omega)
  | succ fuel ih =>
    intro st hok hpot
    match st with
    | [] =>
      constructor
      · intro _
        rfl
      · intro v rest2 hden
        simp [stackDen] at hden
    | ⟨i, b, its, co⟩ :: rest =>
      have hokr : ∀ f ∈ rest, FrameOK f := fun f hf => hok f (List.mem_cons_of_mem _ hf)
      rcases co with _ | cs
      · -- leaf frame
        by_cases hi : i < its.length
        · -- yield a value of the leaf
          rw [tfl_leaf_yield fuel i b its rest hi]
          have hdrop := List.drop_eq_getElem_cons hi
          have hsd : stackDen ((⟨i, b, its, none⟩ : IterFrame α) :: rest) =
              List.drop i its ++ stackDen rest := rfl
          constructor
          · intro hden
            rw [hsd, hdrop] at hden
            exact List.noConfusion hden
          · intro v rest2 hden
            rw [hsd, hdrop, List.cons_append] at hden
            injection hden with h1 h2
            refine ⟨?_, ?_, ?_⟩
            · show its.get? i = some v
              rw [get?_eq_some_getElem its i hi, h1]
            · intro f hf
              rcases List.mem_cons.mp hf with rfl | hf2
              · trivial
              · exact hokr f hf2
            · show frameDen (⟨i + 1, true, its, none⟩ : IterFrame α) ++ stackDen rest = rest2
              rw [← h2]
              rfl
        · -- leaf exhausted: pop
          rw [tfl_leaf_pop fuel i b its rest hi]
          have hds : stackDen ((⟨i, b, its, none⟩ : IterFrame α) :: rest) = stackDen rest := by
            simp only [stackDen, frameDen]
            rw [show its.drop i = ([] : List α) from List.drop_eq_nil_of_le (by omega)]
            rfl
          have hsc : stackPot ((⟨i, b, its, none⟩ : IterFrame α) :: rest) =
              1 + stackPot rest := rfl
          obtain ⟨ihA, ihB⟩ := ih rest hokr (by omega)
          rw [hds]
          exact ⟨ihA, ihB⟩
      · -- internal frame
        obtain ⟨hcard, hcall⟩ : its.length + 1 = cs.length ∧ ∀ c ∈ cs, CardOK c :=
          hok _ (List.mem_cons_self _ _)
        rcases b with _ | _
        · -- onChildren = false: yield the separator item or pop
          by_cases hi : i < its.length
          · rw [tfl_node_yield fuel i its cs rest hi]
            have hfd : frameDen (⟨i, false, its, some cs⟩ : IterFrame α) =
                getElem its (i) hi ::
                  flattenZip (cs.drop (i + 1)) (its.drop (i + 1)) := by
              simp only [frameDen, Bool.false_eq_true, if_false]
              rw [get?_eq_some_getElem its i hi]
            have hsd : stackDen ((⟨i, false, its, some cs⟩ : IterFrame α) :: rest) =
                frameDen (⟨i, false, its, some cs⟩ : IterFrame α) ++ stackDen rest := rfl
            constructor
            · intro hden
              rw [hsd, hfd] at hden
              exact List.noConfusion hden
            · intro v rest2 hden
              rw [hsd, hfd, List.cons_append] at hden
              injection hden with h1 h2
              refine ⟨?_, ?_, ?_⟩
              · show its.get? i = some v
                rw [get?_eq_some_getElem its i hi, h1]
              · intro f hf
                rcases List.mem_cons.mp hf with rfl | hf2
                · exact ⟨hcard, hcall⟩
                · exact hokr f hf2
              · show frameDen (⟨i + 1, true, its, some cs⟩ : IterFrame α) ++
                    stackDen rest = rest2
                rw [← h2]
                rfl
          · rw [tfl_node_pop_false fuel i its cs rest hi]
            have hds : stackDen ((⟨i, false, its, some cs⟩ : IterFrame α) :: rest) =
                stackDen rest := by
              simp only [stackDen, frameDen, Bool.false_eq_true, if_false,
                List.get?_eq_none.mpr (by omega : its.length ≤ i)]
              rfl
            have hsc : stackPot ((⟨i, false, its, some cs⟩ : IterFrame α) :: rest) =
                2 * weightListB (cs.drop (i + 1)) + 1 + stackPot rest := rfl
            obtain ⟨ihA, ihB⟩ := ih rest hokr (by omega)
            rw [hds]
            exact ⟨ihA, ihB⟩
        · -- onChildren = true: descend into the child or pop
          by_cases hic : i < cs.length
          · rw [tfl_descend fuel i its cs rest hic]
            have hcg : cs.getD i default = getElem cs (i) hic :=
              List.getD_eq_getElem cs default hic
            have hcok : CardOK (cs.getD i default) := by
              rw [hcg]
              exact hcall _ (List.getElem_mem _)
            have hok2 : ∀ f ∈ (iterFrameOf (cs.getD i default) ::
                (⟨i, false, its, some cs⟩ : IterFrame α) :: rest), FrameOK f := by
              intro f hf
              rcases List.mem_cons.mp hf with rfl | hf2
              · exact frameOK_iterFrameOf hcok
              · rcases List.mem_cons.mp hf2 with rfl | hf3
                · exact ⟨hcard, hcall⟩
                · exact hokr f hf3
            have hden2 : stackDen (iterFrameOf (cs.getD i default) ::
                (⟨i, false, its, some cs⟩ : IterFrame α) :: rest) =
                stackDen ((⟨i, true, its, some cs⟩ : IterFrame α) :: rest) := by
              show frameDen (iterFrameOf (cs.getD i default)) ++
                  (frameDen (⟨i, false, its, some cs⟩ : IterFrame α) ++ stackDen rest) =
                frameDen (⟨i, true, its, some cs⟩ : IterFrame α) ++ stackDen rest
              rw [frameDen_iterFrameOf, frameDen_split i its cs hic, List.append_assoc]
            have hpt : framePot (iterFrameOf (cs.getD i default)) ≤
                2 * weightB (getElem cs (i) hic) := by
              rw [hcg]
              exact framePot_iterFrameOf_le _
            have hwd := weightListB_drop cs i hic
            have hp1 : framePot ((⟨i, true, its, some cs⟩ : IterFrame α)) =
                2 * weightListB (cs.drop i) + 2 := rfl
            have hp2 : framePot ((⟨i, false, its, some cs⟩ : IterFrame α)) =
                2 * weightListB (cs.drop (i + 1)) + 1 := rfl
            have hsc1 : stackPot ((⟨i, true, its, some cs⟩ : IterFrame α) :: rest) =
                framePot ((⟨i, true, its, some cs⟩ : IterFrame α)) + stackPot rest := rfl
            have hsc2 : stackPot (iterFrameOf (cs.getD i default) ::
                (⟨i, false, its, some cs⟩ : IterFrame α) :: rest) =
                framePot (iterFrameOf (cs.getD i default)) +
                  (framePot ((⟨i, false, its, some cs⟩ : IterFrame α)) +
                    stackPot rest) := rfl
            obtain ⟨ihA, ihB⟩ := ih (iterFrameOf (cs.getD i default) ::
                (⟨i, false, its, some cs⟩ : IterFrame α) :: rest) hok2 (by omega)
            rw [hden2] at ihA ihB
            exact ⟨ihA, ihB⟩
          · -- children exhausted: the frame is spent, pop
            have hii : ¬ i < its.length := by omega
            rw [tfl_node_pop_true fuel i its cs rest hii hic]
            have hds : stackDen ((⟨i, true, its, some cs⟩ : IterFrame α) :: rest) =
                stackDen rest := by
              simp only [stackDen, frameDen]
              rw [show cs.drop i = ([] : List (IBTreeNode α)) from
                List.drop_eq_nil_of_le (by omega)]
              rfl
            have hsc : stackPot ((⟨i, true, its, some cs⟩ : IterFrame α) :: rest) =
                2 * weightListB (cs.drop i) + 2 + stackPot rest := rfl
            obtain ⟨ihA, ihB⟩ := ih rest hokr (by omega)
            rw [hds]
            exact ⟨ihA, ihB⟩

end Immerutable

namespace Immerutable

lemma framePot_le_two_frameWeight (f : IterFrame α) :
    framePot f ≤ 2 * frameWeight f := by
  rcases f with ⟨i, b, its, co⟩
  rcases co with _ | cs
  · show (1 : Nat) ≤ 2 * (its.length + weightListB [] + 1)
    omega
  · have h1 := weightListB_drop_le cs i
    have h2 := weightListB_drop_le cs (i + 1)
    show (if b = true then 2 * weightListB (cs.drop i) + 2
        else 2 * weightListB (cs.drop (i + 1)) + 1) ≤
      2 * (its.length + weightListB ((some cs).getD []) + 1)
    rcases b with _ | _ <;> simp <;> omega

lemma stackPot_le (st : List (IterFrame α)) :
    stackPot st ≤ 2 * (st.map frameWeight).sum := by
  induction st with
  | nil => exact le_rfl
  | cons f rest ih =>
    have := framePot_le_two_frameWeight f
    show framePot f + stackPot rest ≤ 2 * (frameWeight f + (rest.map frameWeight).sum)
    omega

/-- `iterNext` supplies enough fuel for `traverse_spec` on any stack. -/
lemma iterNext_spec [Inhabited α] (st : List (IterFrame α))
    (hok : ∀ f ∈ st, FrameOK f) :
    ((stackDen st = [] → (iterNext st).1 = none) ∧
     (∀ (v : α) (rest2 : List α), stackDen st = v :: rest2 →
        (iterNext st).1 = some v ∧
        (∀ f ∈ (iterNext st).2, FrameOK f) ∧
        stackDen (iterNext st).2 = rest2)) := by
  have hle := stackPot_le st
  exact traverse_spec (2 * (st.map frameWeight).sum + 2 * st.length + 2) st hok (by omega)

/-- Draining the machine with outer fuel exceeding the number of values left
produces exactly the stack denotation. -/
lemma iterRunGo_spec [Inhabited α] : ∀ (fuel : Nat) (st : List (IterFrame α)),
    (∀ f ∈ st, FrameOK f) → (stackDen st).length + 1 ≤ fuel →
    iterRunGo fuel st = stackDen st := by
  intro fuel
  induction fuel with
  | zero =>
    intro st hok hlen
    exact absurd hlen (by omega)
  | succ fuel ih =>
    intro st hok hlen
    obtain ⟨hA, hB⟩ := iterNext_spec st hok
    rcases hden : stackDen st with _ | ⟨v, rest2⟩
    · have h1 := hA hden
      rcases hr : iterNext st with ⟨o, st2⟩
      rw [hr] at h1
      simp only at h1
      show (match iterNext st with
        | (none, _) => []
        | (some v, st2) => v :: iterRunGo fuel st2) = []
      rw [hr, h1]
    · obtain ⟨h1, h2, h3⟩ := hB v rest2 hden
      rcases hr : iterNext st with ⟨o, st2⟩
      rw [hr] at h1 h2 h3
      simp only at h1 h2 h3
      show (match iterNext st with
        | (none, _) => []
        | (some v, st2) => v :: iterRunGo fuel st2) = v :: rest2
      rw [hr, h1]
      have hlen2 : (stackDen st2).length + 1 ≤ fuel := by
        rw [h3]
        rw [hden] at hlen
        simpa using hlen
      show v :: iterRunGo fuel st2 = v :: rest2
      rw [ih st2 h2 hlen2, h3]

/-- Auxiliary: summing the strict per-child flattening bound over a list. -/
lemma flatten_weight_list (cs : List (IBTreeNode α))
    (h : ∀ c ∈ cs, (flattenB c).length < weightB c) :
    (cs.map (fun c => (flattenB c).length)).sum + cs.length ≤ weightListB cs := by
  induction cs with
  | nil => simp [weightListB]
  | cons c t ih =>
    have h1 := h c (List.mem_cons_self _ _)
    have h2 := ih (fun c2 hc2 => h c2 (List.mem_cons_of_mem _ hc2))
    show (flattenB c).length + (t.map (fun c => (flattenB c).length)).sum + (t.length + 1) ≤
      weightB c + weightListB t
    omega

/-- A tree never flattens to more values than its weight. -/
lemma flattenB_length_lt_weightB {n : IBTreeNode α} (h : CardOK n) :
    (flattenB n).length < weightB n := by
  induction h with
  | leaf items =>
    show items.length < items.length + 1
    omega
  | node items children hcard hch ih =>
    have hsum := flatten_weight_list children ih
    have hfl : (flattenB (IBTreeNode.node items children)).length =
        (children.map (fun c => (flattenB c).length)).sum + items.length :=
      flattenB_node_length items children hcard
    show (flattenB (IBTreeNode.node items children)).length <
      items.length + 1 + weightListB children
    omega

/-- Under the cardinality invariant, a full forward iteration returns exactly
the in-order flattening of the collection. -/
lemma scIterateForward_spec [Inhabited α] (c : ISortedCollection α)
    (h : CardOK c.root) : scIterateForward c = flattenB c.root := by
  have hok : ∀ f ∈ [iterFrameOf c.root], FrameOK f := by
    intro f hf
    rcases List.mem_cons.mp hf with rfl | hf2
    · exact frameOK_iterFrameOf h
    · cases hf2
  have hden : stackDen [iterFrameOf c.root] = flattenB c.root := by
    show frameDen (iterFrameOf c.root) ++ stackDen [] = flattenB c.root
    rw [frameDen_iterFrameOf]
    show flattenB c.root ++ [] = flattenB c.root
    simp
  have hlt := flattenB_length_lt_weightB h
  rw [show scIterateForward c = iterRunGo (weightB c.root + 1) [iterFrameOf c.root] from rfl]
  rw [iterRunGo_spec (weightB c.root + 1) [iterFrameOf c.root] hok (by rw [hden]; omega), hden]

/-- `WFN` trees satisfy the cardinality invariant. -/
lemma WFN_CardOK {A : SCA α} (h4 : 4 ≤ A.maxItemsPerLevel) :
    ∀ {h : Nat} {n : IBTreeNode α}, WFN A h n → CardOK n := by
  intro h n hw
  induction hw with
  | leaf items h1 h2 => exact .leaf items
  | node hh items children hcard hmin hmax hch ih =>
    exact .node items children hcard (fun c hc => ih c hc)

/-- `WFRoot` trees satisfy the cardinality invariant. -/
lemma WFRoot_CardOK {A : SCA α} (h4 : 4 ≤ A.maxItemsPerLevel) {t : IBTreeNode α}
    (hw : WFRoot A t) : CardOK t := by
  rcases hw with ⟨items, rfl, _⟩ | ⟨h, items, cs, rfl, hcard, _, _, hch⟩
  · exact .leaf items
  · exact .node items cs hcard (fun c hc => WFN_CardOK h4 (hch c hc))

end Immerutable

namespace Immerutable

/-! ## Operation sequences (claims C2 and C3) -/

/-- One client operation: `.inl v` inserts `v`, `.inr v` removes `v`. -/
def scApplyOp [Inhabited α] (A : SCA α) (c : ISortedCollection α) (op : Sum α α) :
    ISortedCollection α :=
  match op with
  | .inl v => scInsert A c v
  | .inr v => scRemove A c v

/-- A whole operation sequence applied in order. -/
def scRunOps [Inhabited α] (A : SCA α) : ISortedCollection α → List (Sum α α) →
    ISortedCollection α
  | c, [] => c
  | c, op :: ops => scRunOps A (scApplyOp A c op) ops

/-- The number of inserts in a sequence. -/
def insCount : List (Sum α α) → Nat
  | [] => 0
  | .inl _ :: ops => insCount ops + 1
  | .inr _ :: ops => insCount ops

/-- The number of removes whose value was found at the moment they ran (the
source only decrements `size` and edits the tree when `lookupValuePath`
succeeds). -/
def remSuccessCount [Inhabited α] (A : SCA α) :
    ISortedCollection α → List (Sum α α) → Nat
  | _, [] => 0
  | c, .inl v :: ops => remSuccessCount A (scInsert A c v) ops
  | c, .inr v :: ops =>
      remSuccessCount A (scRemove A c v) ops +
        (if (lookupValuePath A c v).isSome then 1 else 0)

/-- Running any operation sequence preserves the root shape invariant, keeps
`size` equal to the number of stored values, and moves that number by the
insert/successful-remove balance. -/
lemma scRunOps_inv [Inhabited α] (A : SCA α) (heven : A.maxItemsPerLevel % 2 = 0)
    (h4 : 4 ≤ A.maxItemsPerLevel) :
    ∀ (ops : List (Sum α α)) (c : ISortedCollection α), WFRoot A c.root →
      c.size = ((flattenB c.root).length : Int) →
      WFRoot A (scRunOps A c ops).root ∧
      (scRunOps A c ops).size = ((flattenB (scRunOps A c ops).root).length : Int) ∧
      ((flattenB (scRunOps A c ops).root).length : Int) =
        ((flattenB c.root).length : Int) + insCount ops - remSuccessCount A c ops := by
  intro ops
  induction ops with
  | nil =>
    intro c hw hsz
    refine ⟨hw, hsz, by simp [scRunOps, insCount, remSuccessCount]⟩
  | cons op ops ih =>
    intro c hw hsz
    rcases op with v | v
    · obtain ⟨hw2, hfl2, hsz2⟩ := scInsert_spec A heven h4 c v hw
      obtain ⟨ha, hb, hc2⟩ := ih (scInsert A c v) hw2 (by rw [hsz2, hsz, hfl2]; push_cast; ring)
      refine ⟨ha, hb, ?_⟩
      show ((flattenB (scRunOps A (scInsert A c v) ops).root).length : Int) =
        ((flattenB c.root).length : Int) + (((insCount ops + 1 : Nat)) : Int) -
          (((remSuccessCount A (scInsert A c v) ops : Nat)) : Int)
      rw [hc2, hfl2]
      push_cast
      ring
    · rcases hp : lookupValuePath A c v with _ | p
      · have hnoop : scRemove A c v = c := by simp [scRemove, hp]
        obtain ⟨ha, hb, hc2⟩ := ih (scRemove A c v) (by rw [hnoop]; exact hw)
          (by rw [hnoop]; exact hsz)
        refine ⟨ha, hb, ?_⟩
        show ((flattenB (scRunOps A (scRemove A c v) ops).root).length : Int) =
          ((flattenB c.root).length : Int) + (((insCount ops : Nat)) : Int) -
            (((remSuccessCount A (scRemove A c v) ops +
              if (lookupValuePath A c v).isSome then 1 else 0 : Nat)) : Int)
        have hroot2 : (scRemove A c v).root = c.root := by rw [hnoop]
        rw [hc2, hroot2, hp]
        simp
      · rcases scRemove_spec A h4 c hw v with ⟨hnone, _⟩ | ⟨hw2, hflat2, hsz2⟩
        · rw [hp] at hnone
          exact Option.noConfusion hnone
        · obtain ⟨ha, hb, hc2⟩ := ih (scRemove A c v) hw2
            (by rw [hsz2, hsz]; omega)
          refine ⟨ha, hb, ?_⟩
          show ((flattenB (scRunOps A (scRemove A c v) ops).root).length : Int) =
            ((flattenB c.root).length : Int) + (((insCount ops : Nat)) : Int) -
              (((remSuccessCount A (scRemove A c v) ops +
                if (lookupValuePath A c v).isSome then 1 else 0 : Nat)) : Int)
          rw [hc2, hp]
          simp only [Option.isSome_some, if_true]
          push_cast
          omega

end Immerutable

namespace Immerutable

lemma WFRoot_leafDepths {A : SCA α} {t : IBTreeNode α} (hw : WFRoot A t) :
    ∃ d : Nat, ∀ e ∈ leafDepthsB t, e = d := by
  rcases hw with ⟨items, rfl, _⟩ | ⟨h, items, cs, rfl, _, _, _, hch⟩
  · refine ⟨0, ?_⟩
    intro e he
    simp [leafDepthsB] at he
    exact he
  · refine ⟨h + 1, ?_⟩
    show ∀ e ∈ (leafDepthsList cs).map (· + 1), e = h + 1
    intro e he
    obtain ⟨d, hd, rfl⟩ := List.mem_map.mp he
    have := leafDepthsList_const cs (fun c hc => WFN_leafDepths (hch c hc)) d hd
    omega

mutual
/-- The occupancy bounds exactly as claim C2 words them: every non-root node
keeps between `minItemsPerLevel` and `maxItemsPerLevel - 1` value-or-child
slots.  This is the *claimed* bound, written from the claim text so it can be
compared against the bound the code maintains (`WFRoot`). -/
def claimC2SlotBoundsGo (A : SCA α) (isRoot : Bool) : IBTreeNode α → Bool
  | .leaf items =>
      isRoot || (decide (A.minItemsPerLevel ≤ items.length) &&
        decide (items.length ≤ A.maxItemsPerLevel - 1))
  | .node items children =>
      (isRoot || (decide (A.minItemsPerLevel ≤ children.length) &&
        decide (children.length ≤ A.maxItemsPerLevel - 1))) &&
      claimC2SlotBoundsList A children

/-- The claimed bound over a list of (non-root) subtrees. -/
def claimC2SlotBoundsList (A : SCA α) : List (IBTreeNode α) → Bool
  | [] => true
  | c :: cs => claimC2SlotBoundsGo A false c && claimC2SlotBoundsList A cs
end

/-- A concrete adapter configuration: integer values under the natural order,
`maxItemsPerLevel = 4`. -/
def c2A : SCA Int :=
  { orderComparer := fun a b => a - b,
    equalityComparer := fun a b => a == b,
    maxItemsPerLevel := 4 }

/-- Seven ascending inserts. -/
def c2ops : List (Sum Int Int) :=
  [.inl 1, .inl 2, .inl 3, .inl 4, .inl 5, .inl 6, .inl 7]

/-- C2, counterexample to the claimed upper bound: after seven ascending
inserts at `maxItemsPerLevel = 4`, the rightmost leaf holds 4 values —
`maxItemsPerLevel`, not `maxItemsPerLevel - 1` as the claim states (the
left-heavy leaf split deliberately fills nodes up to `max`, and a node only
splits when it *exceeds* the claimed bound). -/
theorem c2_claim_counterexample :
    claimC2SlotBoundsGo c2A true (scRunOps c2A (scCreate Int) c2ops).root = false ∧
    (scRunOps c2A (scCreate Int) c2ops).root =
      .node [3] [.leaf [1, 2], .leaf [4, 5, 6, 7]] := by
  constructor <;> rfl

/-- The lower end of the leaf band of `WFRoot` is tight: after inserting
1..7 and then 4 at `maxItemsPerLevel = 4`, the left-heavy split strands the
non-root leaf `[7]` with a single value, below `minItemsPerLevel = 2`, so no
resting invariant of this code can promise non-root leaves more than one
value. -/
theorem c2_leaf_lower_bound_one :
    (scRunOps c2A (scCreate Int) (c2ops ++ [.inl 4])).root =
      .node [3, 6] [.leaf [1, 2], .leaf [4, 4, 5], .leaf [7]] := by
  rfl

/-- C2 (amended): after any operation sequence from `create`, every leaf sits
at the same depth and the tree satisfies `WFRoot`, whose occupancy bands are:
a non-root leaf holds between `1` and `maxItemsPerLevel` values, a non-root
internal node has between `minItemsPerLevel` and `2 * maxItemsPerLevel - 2`
children, the root leaf holds between `0` and `maxItemsPerLevel` values, and
an internal root has between `2` and `2 * maxItemsPerLevel - 2` children.
Both ends of the claimed leaf band fail in the code: leaves only split above
`maxItemsPerLevel` (so they rest at `max`, not `max - 1`), and the left-heavy
split can strand a rightmost leaf with a single value, below
`minItemsPerLevel` (`c2_leaf_lower_bound_one`). -/
theorem sc_shape_invariant_amended [Inhabited α] (A : SCA α)
    (heven : A.maxItemsPerLevel % 2 = 0) (h4 : 4 ≤ A.maxItemsPerLevel)
    (ops : List (Sum α α)) :
    WFRoot A (scRunOps A (scCreate α) ops).root ∧
    ∃ d : Nat, ∀ e ∈ leafDepthsB (scRunOps A (scCreate α) ops).root, e = d := by
  have hw0 : WFRoot A (scCreate α).root := Or.inl ⟨[], rfl, by simp⟩
  obtain ⟨ha, _, _⟩ := scRunOps_inv A heven h4 ops (scCreate α) hw0 (by rfl)
  exact ⟨ha, WFRoot_leafDepths ha⟩

/-- Witness of the amended C2 at a concrete configuration and trace. -/
theorem sc_shape_invariant_amended_witness :
    (c2A.maxItemsPerLevel % 2 = 0 ∧ 4 ≤ c2A.maxItemsPerLevel) ∧
    (WFRoot c2A (scRunOps c2A (scCreate Int) c2ops).root ∧
      ∃ d : Nat, ∀ e ∈ leafDepthsB (scRunOps c2A (scCreate Int) c2ops).root, e = d) :=
  ⟨⟨by decide, by decide⟩,
    sc_shape_invariant_amended c2A (by decide) (by decide) c2ops⟩

/-- C3: after any operation sequence from `create` — N inserts and M removes
whose value was found — `size` equals N − M, and a full forward iteration
yields exactly `size` values. -/
theorem scRunOps_size_iteration [Inhabited α] (A : SCA α)
    (heven : A.maxItemsPerLevel % 2 = 0) (h4 : 4 ≤ A.maxItemsPerLevel)
    (ops : List (Sum α α)) :
    (scRunOps A (scCreate α) ops).size =
      (insCount ops : Int) - (remSuccessCount A (scCreate α) ops : Int) ∧
    ((scIterateForward (scRunOps A (scCreate α) ops)).length : Int) =
      (scRunOps A (scCreate α) ops).size := by
  have hw0 : WFRoot A (scCreate α).root := Or.inl ⟨[], rfl, by simp⟩
  obtain ⟨ha, hb, hc2⟩ := scRunOps_inv A heven h4 ops (scCreate α) hw0 (by rfl)
  have hiter := scIterateForward_spec _ (WFRoot_CardOK h4 ha)
  constructor
  · rw [hb, hc2]
    have h0 : ((flattenB (scCreate α).root).length : Int) = 0 := by rfl
    rw [h0]
    ring
  · rw [hiter, hb]

/-- A trace with three inserts and one successful remove. -/
def c3ops : List (Sum Int Int) :=
  [.inl 1, .inl 2, .inl 3, .inr 2]

/-- Witness of C3 at a concrete configuration and trace (final size 2). -/
theorem scRunOps_size_iteration_witness :
    (c2A.maxItemsPerLevel % 2 = 0 ∧ 4 ≤ c2A.maxItemsPerLevel) ∧
    ((scRunOps c2A (scCreate Int) c3ops).size =
      (insCount c3ops : Int) - (remSuccessCount c2A (scCreate Int) c3ops : Int) ∧
     ((scIterateForward (scRunOps c2A (scCreate Int) c3ops)).length : Int) =
      (scRunOps c2A (scCreate Int) c3ops).size) ∧
    (scRunOps c2A (scCreate Int) c3ops).size = 2 :=
  ⟨⟨by decide, by decide⟩,
    scRunOps_size_iteration c2A (by decide) (by decide) c3ops,
    by rfl⟩

end Immerutable
